import Mathlib

/-!
# Cutter::Lockfree — hazard-pointer pool and Michael–Scott queue

Shallow embedding of `src/src/Lockfree.cpp` / `src/src/Lockfree.hpp`, executed by one
thread.

Modelling conventions.

* Storage obtained with `new` is a list of cells; the address of an object is its index
  in that list, `new` appends a cell (addresses are never handed out twice) and `delete`
  turns the cell into `none`.  A C++ pointer is an `Option Nat`, `none` being `nullptr`.
* Every operation returns an `Option`: `none` stands for undefined behaviour (a null or
  dangling dereference, a double `delete`) or for a loop that ran out of fuel.
* `size_t` values are natural numbers reduced modulo `2 ^ 64`.
* Atomic loads, stores and compare-exchange operations are executed one after the other
  on the single thread of the model; a compare-exchange succeeds exactly when the
  location holds the expected value, and on failure writes the observed value into its
  `expected` argument.
-/

namespace Cutter
namespace Lockfree

/-- Number of values of a `size_t` (64-bit target). -/
def SIZE_T_MOD : Nat := 2 ^ 64

/-! ## Object storage -/

/-- Read the object at address `p`; `none` when `p` is out of range or was deleted. -/
def load {α : Type} (cells : List (Option α)) (p : Nat) : Option α :=
  match cells[p]? with
  | some (some x) => some x
  | _ => none

/-- Overwrite the object at address `p`. -/
def store {α : Type} (cells : List (Option α)) (p : Nat) (x : α) : List (Option α) :=
  cells.set p (some x)

/-- Address that the next `new` returns. -/
def freshAddr {α : Type} (cells : List (Option α)) : Nat := cells.length

/-- Storage after `new` constructed `x` at `freshAddr cells`. -/
def pushNew {α : Type} (cells : List (Option α)) (x : α) : List (Option α) :=
  cells ++ [some x]

/-- Storage after `delete` of the object at address `p`. -/
def release {α : Type} (cells : List (Option α)) (p : Nat) : List (Option α) :=
  cells.set p none

/-! ## Hazard pointers -/

/-- Fields of `class Hzd` (Lockfree.hpp): link, published payload, in-use flag. -/
structure Hzd where
  next_ : Option Nat
  ptr_ : Option Nat
  active_ : Bool
deriving DecidableEq, Repr

/-- Constructor `Hzd::Hzd(void)`: null link, null payload, `active_ = true`. -/
def Hzd.new : Hzd := { next_ := none, ptr_ := none, active_ := true }

/-- Fields of `class HzdMemPool` together with the storage of the slots it created. -/
structure HzdMemPool where
  slots : List (Option Hzd)
  head_ : Option Nat
  len_ : Nat
deriving DecidableEq, Repr

/-- Constructor `HzdMemPool::HzdMemPool(void)`: `head_(new Hzd())`, `len_(0)`. -/
def HzdMemPool.new : HzdMemPool :=
  { slots := pushNew [] Hzd.new, head_ := some (freshAddr ([] : List (Option Hzd))), len_ := 0 }

/-- Accessor `HzdMemPool::head`. -/
def HzdMemPool.head (m : HzdMemPool) : Option Nat := m.head_

/-- Accessor `HzdMemPool::length`. -/
def HzdMemPool.length (m : HzdMemPool) : Nat := m.len_

/-- Result of the first loop of `HzdMemPool::alloc`. -/
inductive ScanResult where
  | claimed (p : Nat) (slots : List (Option Hzd))
  | exhausted (slots : List (Option Hzd))
deriving DecidableEq, Repr

/-- First loop of `HzdMemPool::alloc`, entered with `p` non-null:
`do { if (p->active_.load() or !CAS(&p->active_, &False, true)) continue; return p; }
 while ((p = p->next()) != nullptr);`
`False_` is the local `bool False`, which a failed compare-exchange overwrites. -/
def allocLoop : Nat → List (Option Hzd) → Nat → Bool → Option ScanResult
  | 0, _, _, _ => none
  | fuel + 1, slots, p, False_ =>
    match load slots p with
    | none => none
    | some h =>
      if h.active_ then
        match h.next_ with
        | none => some (ScanResult.exhausted slots)
        | some q => allocLoop fuel slots q False_
      else if h.active_ = False_ then
        some (ScanResult.claimed p (store slots p { h with active_ := true }))
      else
        match h.next_ with
        | none => some (ScanResult.exhausted slots)
        | some q => allocLoop fuel slots q h.active_

/-- Member `HzdMemPool::alloc`.  The walk over the slot list gets one unit of fuel per
cell of slot storage; the two compare-exchange loops that bump `len_` and prepend the
new slot take one iteration each on a single thread. -/
def HzdMemPool.alloc (m : HzdMemPool) : Option (Nat × HzdMemPool) :=
  match m.head_ with
  | none => none
  | some p0 =>
    match allocLoop m.slots.length m.slots p0 false with
    | none => none
    | some (ScanResult.claimed p slots) => some (p, { m with slots := slots })
    | some (ScanResult.exhausted slots) =>
      let len := (m.len_ + 1) % SIZE_T_MOD
      let p := freshAddr slots
      let slots1 := pushNew slots Hzd.new
      let old := m.head_
      let slots2 := store slots1 p { Hzd.new with next_ := old }
      some (p, { slots := slots2, head_ := some p, len_ := len })

/-- Static member `HzdMemPool::free`: `**p = nullptr; p->active_ = false;`. -/
def HzdMemPool.free (m : HzdMemPool) (p : Option Nat) : Option HzdMemPool :=
  match p with
  | none => none
  | some a =>
    match load m.slots a with
    | none => none
    | some h => some { m with slots := store m.slots a { h with ptr_ := none, active_ := false } }

/-- Walk of the slot list from `p` along `next()`, collecting the slot addresses. -/
def slotsFrom : Nat → List (Option Hzd) → Nat → Option (List Nat)
  | 0, _, _ => none
  | fuel + 1, slots, p =>
    match load slots p with
    | none => none
    | some h =>
      match h.next_ with
      | none => some [p]
      | some q => (slotsFrom fuel slots q).map (fun l => p :: l)

/-- The slot list of the pool, from `head()` to the last slot; `none` when the list is
broken (null head, dangling link, cycle). -/
def HzdMemPool.slotList (m : HzdMemPool) : Option (List Nat) :=
  match m.head_ with
  | none => none
  | some p => slotsFrom m.slots.length m.slots p

/-! ## Queue nodes and the queue -/

/-- Fields of `struct Node<T>` (Lockfree.hpp). -/
structure Node (T : Type) where
  value : T
  next : Option Nat
deriving DecidableEq, Repr

/-- Fields of `class Queue<T>`: `head`, `tail`, `size_`, the node storage they point
into, the static `mempool`, and the calling thread's `thread_local` members `hptr_a`,
`hptr_b` (addresses of the two hazard slots) and `rlist`. -/
structure Queue (T : Type) where
  nodes : List (Option (Node T))
  head : Option Nat
  tail : Option Nat
  size_ : Nat
  mempool : HzdMemPool
  hptr_a : Option Nat
  hptr_b : Option Nat
  rlist : List Nat
deriving DecidableEq, Repr

/-- Assignment `*hp = v` through `ThreadLocalHzdWrapper::operator*`: stores `v` in the
payload `ptr_` of the slot `hp` points to. -/
def publish (m : HzdMemPool) (hp : Option Nat) (v : Option Nat) : Option HzdMemPool :=
  match hp with
  | none => none
  | some a =>
    match load m.slots a with
    | none => none
    | some h => some { m with slots := store m.slots a { h with ptr_ := v } }

/-- A queue built by `Queue<T>::Queue`, `head(new Node<T>())`, `tail(head.load())`,
`size_(0)`, together with the `thread_local` members of the thread that is going to use it:
`hptr_a = mempool->alloc()`, `hptr_b = mempool->alloc()`, empty `rlist`.  The constructor
itself does not touch them; the thread initialises them at its first use of them, before
its first access to the queue, which is the state built here. -/
def Queue.new (T : Type) [Inhabited T] : Option (Queue T) :=
  match HzdMemPool.new.alloc with
  | none => none
  | some (a, m1) =>
    match m1.alloc with
    | none => none
    | some (b, m2) =>
      some { nodes := pushNew [] { value := default, next := none },
             head := some (freshAddr ([] : List (Option (Node T)))),
             tail := some (freshAddr ([] : List (Option (Node T)))),
             size_ := 0, mempool := m2, hptr_a := some a, hptr_b := some b, rlist := [] }

/-- Member `Queue<T>::empty`: `size_.load() == 0`. -/
def Queue.empty {T : Type} (q : Queue T) : Bool := q.size_ == 0

/-- Member `Queue<T>::size`. -/
def Queue.size {T : Type} (q : Queue T) : Nat := q.size_

/-- Member `Queue<T>::begin`: `head.load()->next.load()`. -/
def Queue.begin {T : Type} (q : Queue T) : Option (Option Nat) :=
  match q.head with
  | none => none
  | some h => (load q.nodes h).map (fun n => n.next)

/-- Member `Queue<T>::end`: `tail.load()`. -/
def Queue.end {T : Type} (q : Queue T) : Option Nat := q.tail

/-- The `while(true)` loop of `Queue<T>::enqueue`; `node` is the address of the node
allocated before the loop.  Returns the state at `break` together with `back`. -/
def enqueueLoop {T : Type} (node : Nat) : Nat → Queue T → Option (Queue T × Option Nat)
  | 0, _ => none
  | fuel + 1, q =>
    let back := q.tail
    match publish q.mempool q.hptr_a back with
    | none => none
    | some m =>
      let q := { q with mempool := m }
      if q.tail ≠ back then enqueueLoop node fuel q
      else
        match back with
        | none => none
        | some b =>
          match load q.nodes b with
          | none => none
          | some bn =>
            let next := bn.next
            if back ≠ q.tail then enqueueLoop node fuel q
            else
              match next with
              | some _ =>
                let q := if q.tail = back then { q with tail := next } else q
                enqueueLoop node fuel q
              | none =>
                if bn.next = next then
                  some ({ q with nodes := store q.nodes b { bn with next := some node } }, back)
                else enqueueLoop node fuel q

/-- Member `Queue<T>::enqueue`. -/
def Queue.enqueue {T : Type} (fuel : Nat) (value : T) (q : Queue T) : Option (Queue T) :=
  let node := freshAddr q.nodes
  let q := { q with nodes := pushNew q.nodes { value := value, next := none } }
  match enqueueLoop node fuel q with
  | none => none
  | some (q, back) =>
    let q := if q.tail = back then { q with tail := some node } else q
    some { q with size_ := (q.size_ + 1) % SIZE_T_MOD }

/-- First loop of `Queue<T>::scan`, entered with `head` non-null:
`do { if ((p = **head) != nullptr) active_hazards.insert(p); }
 while ((head = head->next()) != nullptr);` -/
def collectHazards : Nat → List (Option Hzd) → Nat → List Nat → Option (List Nat)
  | 0, _, _, _ => none
  | fuel + 1, slots, head, active_hazards =>
    match load slots head with
    | none => none
    | some h =>
      let active_hazards :=
        match h.ptr_ with
        | some p => active_hazards.insert p
        | none => active_hazards
      match h.next_ with
      | none => some active_hazards
      | some q => collectHazards fuel slots q active_hazards

/-- Second loop of `Queue<T>::scan`; `it` is the position of the iterator in `rlist`.
An entry that is not an active hazard is deleted, overwritten with `rlist.back()` unless it
is the last entry, and `rlist.pop_back()` is called; otherwise the iterator advances. -/
def scanLoop {T : Type} (active_hazards : List Nat) :
    Nat → Nat → List Nat → List (Option (Node T)) → Option (List Nat × List (Option (Node T)))
  | 0, _, _, _ => none
  | fuel + 1, it, rlist, nodes =>
    if it = rlist.length then some (rlist, nodes)
    else
      match rlist[it]? with
      | none => none
      | some r =>
        if r ∉ active_hazards then
          match load nodes r with
          | none => none
          | some _ =>
            let nodes := release nodes r
            let rlist := if it ≠ rlist.length - 1 then rlist.set it (rlist.getLastD r) else rlist
            let rlist := rlist.dropLast
            scanLoop active_hazards fuel it rlist nodes
        else scanLoop active_hazards fuel (it + 1) rlist nodes

/-- Static member `Queue<T>::scan`.  The walk over the slot list gets one unit of fuel per
cell of slot storage, the loop over `rlist` one per entry plus one for the final test. -/
def Queue.scan {T : Type} (head : Option Nat) (q : Queue T) : Option (Queue T) :=
  match head with
  | none => none
  | some h =>
    match collectHazards q.mempool.slots.length q.mempool.slots h [] with
    | none => none
    | some active_hazards =>
      match scanLoop active_hazards (q.rlist.length + 1) 0 q.rlist q.nodes with
      | none => none
      | some (rlist, nodes) => some { q with rlist := rlist, nodes := nodes }

/-- Static member `Queue<T>::MAX_RLIST_SIZE`.  `Constants.hpp` is not among the sources,
so the value of `Cutter::Const::RLIST_SCALE_FACTOR` is the parameter of the same name. -/
def Queue.MAX_RLIST_SIZE {T : Type} (RLIST_SCALE_FACTOR : Nat) (q : Queue T) : Nat :=
  (RLIST_SCALE_FACTOR * q.mempool.length) % SIZE_T_MOD

/-- Static member `Queue<T>::retire`. -/
def Queue.retire {T : Type} (RLIST_SCALE_FACTOR : Nat) (node : Nat) (q : Queue T) :
    Option (Queue T) :=
  let q := { q with rlist := q.rlist ++ [node] }
  if q.rlist.length ≥ q.MAX_RLIST_SIZE RLIST_SCALE_FACTOR then Queue.scan q.mempool.head q
  else some q

/-- The `while(true)` loop of `Queue<T>::dequeue`.  Returns the state on leaving the loop
and either `none` (the `return {}` of an empty queue) or `out` and `front` at `break`. -/
def dequeueLoop {T : Type} : Nat → Queue T → Option (Queue T × Option (T × Nat))
  | 0, _ => none
  | fuel + 1, q =>
    let front := q.head
    match publish q.mempool q.hptr_a front with
    | none => none
    | some m =>
      let q := { q with mempool := m }
      if front ≠ q.head then dequeueLoop fuel q
      else
        let back := q.tail
        match front with
        | none => none
        | some f =>
          match load q.nodes f with
          | none => none
          | some fn =>
            let next := fn.next
            match publish q.mempool q.hptr_b next with
            | none => none
            | some m =>
              let q := { q with mempool := m }
              if front ≠ q.head then dequeueLoop fuel q
              else
                match next with
                | none => some (q, none)
                | some n =>
                  if front = back then
                    let q := if q.tail = back then { q with tail := next } else q
                    dequeueLoop fuel q
                  else
                    match load q.nodes n with
                    | none => none
                    | some nn =>
                      let out := nn.value
                      if q.head = front then some ({ q with head := next }, some (out, f))
                      else dequeueLoop fuel q

/-- Member `Queue<T>::dequeue`; the result is the returned optional and the new state. -/
def Queue.dequeue {T : Type} (RLIST_SCALE_FACTOR : Nat) (fuel : Nat) (q : Queue T) :
    Option (Option T × Queue T) :=
  match dequeueLoop fuel q with
  | none => none
  | some (q, none) => some (none, q)
  | some (q, some (out, front)) =>
    match Queue.retire RLIST_SCALE_FACTOR front q with
    | none => none
    | some q => some (some out, { q with size_ := (q.size_ + SIZE_T_MOD - 1) % SIZE_T_MOD })

/-! ## Single-threaded runs -/

/-- Calls `enqueue` for each element of `xs` in order. -/
def enqueueAll {T : Type} (fuel : Nat) : List T → Queue T → Option (Queue T)
  | [], q => some q
  | x :: xs, q =>
    match q.enqueue fuel x with
    | none => none
    | some q1 => enqueueAll fuel xs q1

/-- Calls `dequeue` `n` times and collects the returned optionals in call order. -/
def dequeueN {T : Type} (RLIST_SCALE_FACTOR : Nat) (fuel : Nat) :
    Nat → Queue T → Option (List (Option T) × Queue T)
  | 0, q => some ([], q)
  | n + 1, q =>
    match q.dequeue RLIST_SCALE_FACTOR fuel with
    | none => none
    | some (r, q1) =>
      match dequeueN RLIST_SCALE_FACTOR fuel n q1 with
      | none => none
      | some (rs, q2) => some (r :: rs, q2)

/-! ## Auxiliary definitions for the statements -/

/-- Slot `a` is in storage with `active_ == false`. -/
def isFree (slots : List (Option Hzd)) (a : Nat) : Bool :=
  match load slots a with
  | some h => !h.active_
  | none => false

/-- Storage after the compare-exchange of `alloc` set `active_` of slot `a`. -/
def claim (slots : List (Option Hzd)) (a : Nat) : List (Option Hzd) :=
  match load slots a with
  | some h => store slots a { h with active_ := true }
  | none => slots

/-- Pool after the slot walk of `alloc` claimed slot `a` holding `hz`. -/
def HzdMemPool.claimed (m : HzdMemPool) (a : Nat) (hz : Hzd) : HzdMemPool :=
  { m with slots := store m.slots a { hz with active_ := true } }

/-- Pool after `alloc` found no free slot and prepended a new one. -/
def HzdMemPool.grown (m : HzdMemPool) : HzdMemPool :=
  { slots := store (pushNew m.slots Hzd.new) (freshAddr m.slots) { Hzd.new with next_ := m.head_ },
    head_ := some (freshAddr m.slots),
    len_ := (m.len_ + 1) % SIZE_T_MOD }

/-- Calls a client makes on the pool: `alloc()` or `free(p)`. -/
inductive PoolOp where
  | alloc
  | free (p : Option Nat)
deriving DecidableEq, Repr

/-- Runs a sequence of pool calls, dropping the results of `alloc`. -/
def runPool : List PoolOp → HzdMemPool → Option HzdMemPool
  | [], m => some m
  | PoolOp.alloc :: ops, m =>
    match m.alloc with
    | none => none
    | some (_, m1) => runPool ops m1
  | PoolOp.free p :: ops, m =>
    match m.free p with
    | none => none
    | some m1 => runPool ops m1

/-- Position of a thread inside `HzdMemPool::alloc`, with its locals `p` and `False`:
`start` before `p = head_.load()`, `test` before `p->active_.load()`, `exchange` before the
compare-exchange on `p->active_` (the load returned false), `advance` at the `continue`,
before `(p = p->next()) != nullptr`, `append` after the loop, `returned p` after
`return p`. -/
inductive AllocPc where
  | start
  | test (p : Nat) (False_ : Bool)
  | exchange (p : Nat) (False_ : Bool)
  | advance (p : Nat) (False_ : Bool)
  | append
  | returned (p : Nat)
deriving DecidableEq, Repr

/-- One step of a thread inside `HzdMemPool::alloc`: one access to the shared pool.
`compare_exchange_strong(&p->active_, &False, true)` stores `true` when `active_` equals
the local `False`, and otherwise stores the observed `active_` in `False`.  The code after
the loop, which bumps `len_` and prepends a new slot, is taken as one step. -/
def allocStep (m : HzdMemPool) : AllocPc → Option (HzdMemPool × AllocPc)
  | AllocPc.start =>
    match m.head_ with
    | none => none
    | some p => some (m, AllocPc.test p false)
  | AllocPc.test p False_ =>
    match load m.slots p with
    | none => none
    | some h =>
      some (m, if h.active_ then AllocPc.advance p False_ else AllocPc.exchange p False_)
  | AllocPc.exchange p False_ =>
    match load m.slots p with
    | none => none
    | some h =>
      if h.active_ = False_ then
        some ({ m with slots := store m.slots p { h with active_ := true } },
          AllocPc.returned p)
      else some (m, AllocPc.advance p h.active_)
  | AllocPc.advance p False_ =>
    match load m.slots p with
    | none => none
    | some h =>
      match h.next_ with
      | none => some (m, AllocPc.append)
      | some q => some (m, AllocPc.test q False_)
  | AllocPc.append => some (m.grown, AllocPc.returned (freshAddr m.slots))
  | AllocPc.returned _ => none

/-- Runs threads that are inside `alloc`, interleaved as the schedule says: an entry `i`
lets thread `i` take its next step. -/
def runAlloc : List Nat → HzdMemPool × List AllocPc → Option (HzdMemPool × List AllocPc)
  | [], s => some s
  | i :: rest, (m, pcs) =>
    match pcs[i]? with
    | none => none
    | some pc =>
      match allocStep m pc with
      | none => none
      | some (m1, pc1) => runAlloc rest (m1, pcs.set i pc1)

/-- Pool reached from the constructor by `alloc`, `alloc` and `free` of both results: the
slots at addresses 2 and 1 are in the list with `active_ == false`. -/
def twoFreeSlots : HzdMemPool :=
  { slots := [some { next_ := none, ptr_ := none, active_ := true },
              some { next_ := some 0, ptr_ := none, active_ := false },
              some { next_ := some 1, ptr_ := none, active_ := false }],
    head_ := some 2, len_ := 2 }

/-- A schedule of three threads calling `alloc` on `twoFreeSlots`.  Thread 0 loads
`active_ == false` from slot 2; thread 1 claims slot 2 and returns; the compare-exchange of
thread 0 fails, thread 0 goes on to slot 1 and loads `active_ == false`; thread 2 claims
slot 1 and returns; then thread 0 executes its compare-exchange on slot 1. -/
def raceSchedule : List Nat := [0, 0, 1, 1, 1, 0, 0, 0, 2, 2, 2, 2, 2, 0]

/-- Calls the threads make on the hazard slots, one after the other: `alloc()`, and on a
slot that `alloc` returned to a thread and that was not freed since, `free(p)` and the
assignment `*p = v` of a payload. -/
inductive HazardOp where
  | alloc
  | free (p : Nat)
  | publish (p : Nat) (v : Option Nat)
deriving DecidableEq, Repr

/-- Runs a sequence of calls on the hazard slots.  The second component of the state lists
the slots owned by threads: those returned by `alloc` and not freed since. -/
def runHazard : List HazardOp → HzdMemPool × List Nat → Option (HzdMemPool × List Nat)
  | [], s => some s
  | HazardOp.alloc :: ops, (m, owned) =>
    match m.alloc with
    | none => none
    | some (p, m1) => runHazard ops (m1, p :: owned)
  | HazardOp.free p :: ops, (m, owned) =>
    if p ∈ owned then
      match m.free (some p) with
      | none => none
      | some m1 => runHazard ops (m1, owned.erase p)
    else none
  | HazardOp.publish p v :: ops, (m, owned) =>
    if p ∈ owned then
      match publish m (some p) v with
      | none => none
      | some m1 => runHazard ops (m1, owned)
    else none

/-- Invariant of the runs of `runHazard`: the slot list `L` is well formed, `len_` is its
length minus one as a `size_t`, and the slot of the constructor, at address 0, is in the
list, is active, publishes nothing and is owned by no thread. -/
def HazardInv (m : HzdMemPool) (owned : List Nat) (L : List Nat) : Prop :=
  m.slotList = some L ∧ m.len_ = (L.length - 1) % SIZE_T_MOD ∧ 1 ≤ L.length ∧ 0 ∈ L ∧
    (∃ hz, load m.slots 0 = some hz ∧ hz.ptr_ = none ∧ hz.active_ = true) ∧ 0 ∉ owned

/-- Slot `p` is in the slot list of `m` and has `active_ == true`. -/
def Held (p : Nat) (m : HzdMemPool) : Prop :=
  ∃ L, m.slotList = some L ∧ p ∈ L ∧ ∃ hz, load m.slots p = some hz ∧ hz.active_ = true

/-- Address of the first entry of a chain description, `none` for the empty one. -/
def firstAddr {T : Type} (l : List (Nat × T)) : Option Nat := l.head?.map Prod.fst

/-- Address of the last entry of the chain `(s, _) :: l`. -/
def lastAddr {T : Type} (s : Nat) (l : List (Nat × T)) : Nat :=
  match l.getLast? with
  | some e => e.1
  | none => s

/-- The entries `(address, value)` of `l` are live nodes holding these values, each one
linked through `next` to the following entry and the last one having a null `next`. -/
def linked {T : Type} (nodes : List (Option (Node T))) : List (Nat × T) → Prop
  | [] => True
  | e :: l => load nodes e.1 = some { value := e.2, next := firstAddr l } ∧ linked nodes l

/-- The two hazard slots `a`, `b` of the thread are in slot storage and in the slot list of
the pool, which is well formed. -/
def PoolOK (m : HzdMemPool) (a b : Nat) : Prop :=
  (∃ hz, load m.slots a = some hz) ∧ (∃ hz, load m.slots b = some hz) ∧
    ∃ L, m.slotList = some L ∧ a ∈ L ∧ b ∈ L

/-- Representation invariant of a queue used by one thread, between operations: `head`
points to the sentinel at address `s`, the nodes after it are `elems` in chain order,
`tail` points to the last node, `size_` counts `elems` as a `size_t`, the retired nodes
are live, pairwise distinct and outside the chain, and the hazard slots are usable. -/
structure QInv {T : Type} (q : Queue T) (s : Nat) (sv : T) (elems : List (Nat × T)) : Prop where
  head_eq : q.head = some s
  chain : linked q.nodes ((s, sv) :: elems)
  tail_eq : q.tail = some (lastAddr s elems)
  nodup : (s :: elems.map Prod.fst).Nodup
  size_eq : q.size_ = elems.length % SIZE_T_MOD
  rlist_nodup : q.rlist.Nodup
  rlist_live : ∀ r ∈ q.rlist, ∃ n, load q.nodes r = some n
  rlist_disj : ∀ r ∈ q.rlist, r ∉ s :: elems.map Prod.fst
  hazards : ∃ a b, q.hptr_a = some a ∧ q.hptr_b = some b ∧ PoolOK q.mempool a b

/-- The test fixture of `Lockfree_test.hpp` followed by `n` calls of `dequeue`: a new
queue, the elements of `xs` enqueued in order, then the dequeues; the result is the list of
returned optionals. -/
def enqueueThenDequeue {T : Type} [Inhabited T] (RLIST_SCALE_FACTOR fuel : Nat) (xs : List T)
    (n : Nat) : Option (List (Option T)) :=
  match Queue.new T with
  | none => none
  | some q0 =>
    match enqueueAll fuel xs q0 with
    | none => none
    | some q1 =>
      match dequeueN RLIST_SCALE_FACTOR fuel n q1 with
      | none => none
      | some (outs, _) => some outs

/-- A new queue with the elements of `xs` enqueued in order (the fixture `QueueTest`). -/
def enqueued {T : Type} [Inhabited T] (fuel : Nat) (xs : List T) : Option (Queue T) :=
  match Queue.new T with
  | none => none
  | some q0 => enqueueAll fuel xs q0

/-- Calls a single thread makes on a queue. -/
inductive QueueOp (T : Type) where
  | enqueue (value : T)
  | dequeue
deriving DecidableEq, Repr

/-- Runs a sequence of calls on `q`; returns the optionals returned by the `dequeue` calls,
in call order, and the final state. -/
def runOps {T : Type} (RLIST_SCALE_FACTOR fuel : Nat) :
    List (QueueOp T) → Queue T → Option (List (Option T) × Queue T)
  | [], q => some ([], q)
  | QueueOp.enqueue v :: ops, q =>
    match q.enqueue fuel v with
    | none => none
    | some q1 => runOps RLIST_SCALE_FACTOR fuel ops q1
  | QueueOp.dequeue :: ops, q =>
    match q.dequeue RLIST_SCALE_FACTOR fuel with
    | none => none
    | some (r, q1) =>
      match runOps RLIST_SCALE_FACTOR fuel ops q1 with
      | none => none
      | some (rs, q2) => some (r :: rs, q2)

/-- Runs a sequence of calls on a new queue. -/
def runFresh {T : Type} [Inhabited T] (RLIST_SCALE_FACTOR fuel : Nat) (ops : List (QueueOp T)) :
    Option (List (Option T) × Queue T) :=
  match Queue.new T with
  | none => none
  | some q0 => runOps RLIST_SCALE_FACTOR fuel ops q0

/-- Number of `enqueue` calls in a sequence of calls. -/
def countEnqueues {T : Type} : List (QueueOp T) → Nat
  | [] => 0
  | QueueOp.enqueue _ :: ops => countEnqueues ops + 1
  | QueueOp.dequeue :: ops => countEnqueues ops

/-- Number of successful dequeues among the returned optionals. -/
def countDequeued {T : Type} : List (Option T) → Nat
  | [] => 0
  | some _ :: rs => countDequeued rs + 1
  | none :: rs => countDequeued rs

/-- Follows `next` links from `p` until null, collecting the values of the nodes visited
(the loop of the test `CanEnqueueSingleThread`, run to the end of the chain). -/
def valuesFrom {T : Type} : Nat → List (Option (Node T)) → Option Nat → Option (List T)
  | _, _, none => some []
  | 0, _, some _ => none
  | fuel + 1, nodes, some p =>
    match load nodes p with
    | none => none
    | some n => (valuesFrom fuel nodes n.next).map (fun vs => n.value :: vs)

/-- Iteration over the range `[it, end_)` through `Node<T>::operator++`:
`for (; it != end_; it = it->next) visit(it->value)`, collecting the values visited. -/
def rangeValues {T : Type} : Nat → List (Option (Node T)) → Option Nat → Option Nat →
    Option (List T)
  | 0, _, _, _ => none
  | fuel + 1, nodes, it, end_ =>
    if it = end_ then some []
    else
      match it with
      | none => none
      | some p =>
        match load nodes p with
        | none => none
        | some n => (rangeValues fuel nodes n.next end_).map (fun vs => n.value :: vs)

/-- State of the test fixture after `enqueue(7)` and one `dequeue` with
`RLIST_SCALE_FACTOR = 2`: the node at address 1 is the sentinel and has no successor. -/
def drainedQueue : Queue Nat :=
  { nodes := [some { value := 0, next := some 1 }, some { value := 7, next := none }],
    head := some 1, tail := some 1, size_ := 0,
    mempool := { slots := [some { next_ := none, ptr_ := none, active_ := true },
                           some { next_ := some 0, ptr_ := some 0, active_ := true },
                           some { next_ := some 1, ptr_ := some 1, active_ := true }],
                 head_ := some 2, len_ := 2 },
    hptr_a := some 1, hptr_b := some 2, rlist := [0] }

/-- Pool reached from the constructor by `alloc`, `alloc`, `free` of the first result and
`alloc`: three slots, of which `len_` counts two. -/
def threeSlotPool : HzdMemPool :=
  { slots := [some { next_ := none, ptr_ := none, active_ := true },
              some { next_ := some 0, ptr_ := none, active_ := true },
              some { next_ := some 1, ptr_ := none, active_ := true }],
    head_ := some 2, len_ := 2 }

/-- State of a new queue after `enqueue(7)`: the sentinel at address 0, the node of 7 at
address 1, and the hazard slot `hptr_a` still publishing the old tail. -/
def oneQueued : Queue Nat :=
  { nodes := [some { value := 0, next := some 1 }, some { value := 7, next := none }],
    head := some 0, tail := some 1, size_ := 1,
    mempool := { slots := [some { next_ := none, ptr_ := none, active_ := true },
                           some { next_ := some 0, ptr_ := some 0, active_ := true },
                           some { next_ := some 1, ptr_ := none, active_ := true }],
                 head_ := some 2, len_ := 2 },
    hptr_a := some 1, hptr_b := some 2, rlist := [] }

/-- The non-null payloads published in the slots `L`, in list order. -/
def publishedPayloads (slots : List (Option Hzd)) (L : List Nat) : List Nat :=
  L.filterMap (fun a => (load slots a).bind Hzd.ptr_)

/-- State of a thread that retired the nodes at addresses 0, 1, 2 while its hazard slot
`hptr_a` publishes the node at address 1. -/
def retiringQueue : Queue Nat :=
  { nodes := [some { value := 0, next := some 1 }, some { value := 7, next := some 2 },
              some { value := 8, next := some 3 }, some { value := 9, next := none }],
    head := some 3, tail := some 3, size_ := 0,
    mempool := { slots := [some { next_ := none, ptr_ := none, active_ := true },
                           some { next_ := some 0, ptr_ := some 1, active_ := true },
                           some { next_ := some 1, ptr_ := some 3, active_ := true }],
                 head_ := some 2, len_ := 2 },
    hptr_a := some 1, hptr_b := some 2, rlist := [0, 1, 2] }

/-- The loop of `HzdMemPool::~HzdMemPool`, entered with `cur` non-null:
`do { next = cur->next(); delete cur; cur = next; } while (cur != nullptr);`.  Returns the
addresses deleted, in order, and the slot storage left. -/
def destroyLoop : Nat → List (Option Hzd) → Nat → Option (List Nat × List (Option Hzd))
  | 0, _, _ => none
  | fuel + 1, slots, cur =>
    match load slots cur with
    | none => none
    | some h =>
      let next := h.next_
      let slots1 := release slots cur
      match next with
      | none => some ([cur], slots1)
      | some q =>
        match destroyLoop fuel slots1 q with
        | none => none
        | some (deleted, slots2) => some (cur :: deleted, slots2)

/-- Destructor `HzdMemPool::~HzdMemPool`; the walk gets one unit of fuel per cell of slot
storage. -/
def HzdMemPool.destroy (m : HzdMemPool) : Option (List Nat × List (Option Hzd)) :=
  match m.head_ with
  | none => none
  | some cur => destroyLoop m.slots.length m.slots cur

/-- Follows `next` links from `p` until null, collecting the addresses of the nodes
visited. -/
def addrsFrom {T : Type} : Nat → List (Option (Node T)) → Option Nat → Option (List Nat)
  | _, _, none => some []
  | 0, _, some _ => none
  | fuel + 1, nodes, some p =>
    match load nodes p with
    | none => none
    | some n => (addrsFrom fuel nodes n.next).map (fun l => p :: l)

/-- The chain of the queue: the addresses of the nodes from the one `head` points to,
along `next`, to the node with a null `next`; `none` when the chain is broken. -/
def Queue.chain {T : Type} (q : Queue T) : Option (List Nat) :=
  addrsFrom q.nodes.length q.nodes q.head

/-- The FIFO the queue implements, as a list with the oldest element first: `enqueue`
appends at the back, `dequeue` removes the front element if there is one. -/
def fifoModel {T : Type} : List (QueueOp T) → List T → List T
  | [], xs => xs
  | QueueOp.enqueue v :: ops, xs => fifoModel ops (xs ++ [v])
  | QueueOp.dequeue :: ops, xs => fifoModel ops xs.tail

/-- The values queued in `q`: those of the nodes after the sentinel, from `begin()` along
`next` to the null link; `none` when the chain is broken. -/
def Queue.contents {T : Type} (q : Queue T) : Option (List T) :=
  match q.begin with
  | none => none
  | some b => valuesFrom q.nodes.length q.nodes b

end Lockfree

/-!
# Cutter::Memory — the object pool

Shallow embedding of `src/src/Memory.cpp` / `src/src/Memory.hpp`, executed by one thread.
The storage of all arrays obtained with `new T[n]` is one list of cells, the address of a
cell being its index; `new T[n]` appends `n` default-constructed cells and returns the
index of the first.  The future `next_` is represented by the array it yields, which is
allocated when the asynchronous task is launched.  `Constants.hpp` is not among the
sources: `DEFAULT_BUFFER_SIZE` is a parameter of the operations, as is the destructor of
`T`, given by the value `dtor x` it leaves in a cell that held `x`.
-/

namespace Memory
open Lockfree

/-- Fields of `class ObjectPool<T>` together with the storage of the arrays it allocated.
The free list `free_` is a `Queue<T*>`, its elements are pointers. -/
structure ObjectPool (T : Type) where
  cells : List T
  blocks_ : List Nat
  current_ : Option Nat
  last_ : Nat
  next_ : Nat
  free_ : Queue (Option Nat)
deriving DecidableEq, Repr

/-- Storage after `new T[n]`; the new array starts at address `cells.length`. -/
def newArray {T : Type} [Inhabited T] (cells : List T) (n : Nat) : List T :=
  cells ++ List.replicate n default

/-- Constructor `ObjectPool<T>::ObjectPool`: `blocks_{new T[DEFAULT_BUFFER_SIZE]}`,
`current_(blocks_[0])`, `last_(std::next(blocks_[0], DEFAULT_BUFFER_SIZE - 1))`, `next_`
the task allocating the following array, `free_` a new queue. -/
def ObjectPool.new (T : Type) [Inhabited T] (DEFAULT_BUFFER_SIZE : Nat) :
    Option (ObjectPool T) :=
  let block0 := ([] : List T).length
  let cells1 := newArray ([] : List T) DEFAULT_BUFFER_SIZE
  let block1 := cells1.length
  let cells2 := newArray cells1 DEFAULT_BUFFER_SIZE
  match Queue.new (Option Nat) with
  | none => none
  | some q =>
    some { cells := cells2, blocks_ := [block0], current_ := some block0,
           last_ := block0 + (DEFAULT_BUFFER_SIZE - 1), next_ := block1, free_ := q }

/-- The `do ... while` loop of `ObjectPool<T>::getPtrFromBuffer` in the executions of one
thread in which `compare_exchange_weak` does not fail spuriously; `tmplast` is the local of
that name, which a failed `compare_exchange_strong` overwrites with the observed
`current_`.  Returns the pointer returned by the function and the new state.  The
executions with spurious failures are those of `getPtrLoopWeak` and `getPtrLoopRest`. -/
def getPtrLoop {T : Type} [Inhabited T] (DEFAULT_BUFFER_SIZE : Nat) :
    Nat → ObjectPool T → Option Nat → Option (Option Nat × ObjectPool T)
  | 0, _, _ => none
  | fuel + 1, st, tmplast =>
    if st.current_ = tmplast then
      let st1 := { st with current_ := none }
      let st2 := { st1 with blocks_ := st1.blocks_ ++ [st1.next_] }
      let st3 := { st2 with next_ := st2.cells.length,
                            cells := newArray st2.cells DEFAULT_BUFFER_SIZE }
      match st3.blocks_.getLast? with
      | none => none
      | some back =>
        let st4 := { st3 with last_ := back + (DEFAULT_BUFFER_SIZE - 1) }
        some (tmplast, { st4 with current_ := some back })
    else
      let tmplast := st.current_
      let ptr := st.current_
      match ptr with
      | none => some (none, st)
      | some p =>
        if st.current_ = ptr then some (ptr, { st with current_ := some (p + 1) })
        else getPtrLoop DEFAULT_BUFFER_SIZE fuel st tmplast

/-- Member `ObjectPool<T>::getPtrFromBuffer`. -/
def ObjectPool.getPtrFromBuffer {T : Type} [Inhabited T] (DEFAULT_BUFFER_SIZE fuel : Nat)
    (st : ObjectPool T) : Option (Option Nat × ObjectPool T) :=
  if st.current_ = none then some (none, st)
  else getPtrLoop DEFAULT_BUFFER_SIZE fuel st (some st.last_)

/-- The `do ... while (obj_ptr == nullptr)` loop of `ObjectPool<T>::alloc()`; the first
fuel is handed to the loops of the callees, the second bounds this loop. -/
def ObjectPool.allocLoop {T : Type} [Inhabited T]
    (DEFAULT_BUFFER_SIZE RLIST_SCALE_FACTOR fuel : Nat) :
    Nat → ObjectPool T → Option (Nat × ObjectPool T)
  | 0, _ => none
  | n + 1, st =>
    if st.free_.empty then
      match st.getPtrFromBuffer DEFAULT_BUFFER_SIZE fuel with
      | none => none
      | some (none, st1) => ObjectPool.allocLoop DEFAULT_BUFFER_SIZE RLIST_SCALE_FACTOR fuel n st1
      | some (some p, st1) => some (p, st1)
    else
      match st.free_.dequeue RLIST_SCALE_FACTOR fuel with
      | none => none
      | some (none, q1) =>
        ObjectPool.allocLoop DEFAULT_BUFFER_SIZE RLIST_SCALE_FACTOR fuel n { st with free_ := q1 }
      | some (some none, q1) =>
        ObjectPool.allocLoop DEFAULT_BUFFER_SIZE RLIST_SCALE_FACTOR fuel n { st with free_ := q1 }
      | some (some (some p), q1) => some (p, { st with free_ := q1 })

/-- Member `ObjectPool<T>::alloc()`. -/
def ObjectPool.alloc {T : Type} [Inhabited T]
    (DEFAULT_BUFFER_SIZE RLIST_SCALE_FACTOR fuel : Nat) (st : ObjectPool T) :
    Option (Nat × ObjectPool T) :=
  ObjectPool.allocLoop DEFAULT_BUFFER_SIZE RLIST_SCALE_FACTOR fuel fuel st

/-- Member `ObjectPool<T>::alloc(Args&&...)`; `value` is `T(args...)`.  The statement
`*obj_ptr = T(args...)` calls the assignment operator of the object at `obj_ptr`: it is
defined when `obj_ptr` points into the storage and the cell holds an object whose lifetime
has not ended.  `alive x` tells whether a cell with content `x` holds such an object: for a
`T` with a trivial destructor every cell does, for another `T` the cells whose object was
destroyed by `free` do not. -/
def ObjectPool.allocWith {T : Type} [Inhabited T]
    (DEFAULT_BUFFER_SIZE RLIST_SCALE_FACTOR fuel : Nat) (alive : T → Bool) (value : T)
    (st : ObjectPool T) : Option (Nat × ObjectPool T) :=
  match st.alloc DEFAULT_BUFFER_SIZE RLIST_SCALE_FACTOR fuel with
  | none => none
  | some (obj_ptr, st1) =>
    match st1.cells[obj_ptr]? with
    | none => none
    | some x =>
      if alive x then some (obj_ptr, { st1 with cells := st1.cells.set obj_ptr value })
      else none

/-- Member `ObjectPool<T>::free`: `obj->~T(); free_.enqueue(obj);`. -/
def ObjectPool.free {T : Type} (dtor : T → T) (fuel : Nat) (obj : Option Nat)
    (st : ObjectPool T) : Option (ObjectPool T) :=
  match obj with
  | none => none
  | some p =>
    match st.cells[p]? with
    | none => none
    | some x =>
      match st.free_.enqueue fuel obj with
      | none => none
      | some q => some { st with cells := st.cells.set p (dtor x), free_ := q }

/-- Member `ObjectPool<T>::clean`: `free_.enqueue(obj);`. -/
def ObjectPool.clean {T : Type} (fuel : Nat) (obj : Option Nat) (st : ObjectPool T) :
    Option (ObjectPool T) :=
  match st.free_.enqueue fuel obj with
  | none => none
  | some q => some { st with free_ := q }

/-- Calls `alloc()` `n` times and collects the returned addresses in call order. -/
def allocN {T : Type} [Inhabited T] (DEFAULT_BUFFER_SIZE RLIST_SCALE_FACTOR fuel : Nat) :
    Nat → ObjectPool T → Option (List Nat × ObjectPool T)
  | 0, st => some ([], st)
  | n + 1, st =>
    match st.alloc DEFAULT_BUFFER_SIZE RLIST_SCALE_FACTOR fuel with
    | none => none
    | some (p, st1) =>
      match allocN DEFAULT_BUFFER_SIZE RLIST_SCALE_FACTOR fuel n st1 with
      | none => none
      | some (ps, st2) => some (p :: ps, st2)

/-- Calls `alloc()` `n` times on a new pool. -/
def allocFresh (T : Type) [Inhabited T] (DEFAULT_BUFFER_SIZE RLIST_SCALE_FACTOR fuel n : Nat) :
    Option (List Nat × ObjectPool T) :=
  match ObjectPool.new T DEFAULT_BUFFER_SIZE with
  | none => none
  | some st => allocN DEFAULT_BUFFER_SIZE RLIST_SCALE_FACTOR fuel n st

/-- A pool together with the bookkeeping of a client: `live` lists the cells returned by
`alloc` and not released since, `returned` all cells ever returned by `alloc`. -/
structure Tracked (T : Type) where
  pool : ObjectPool T
  live : List Nat
  returned : List Nat

/-- States a single thread reaches from a new pool by `alloc`, `free` and `clean` calls,
`free` and `clean` being given addresses previously returned by `alloc`. -/
inductive Reach {T : Type} [Inhabited T] (DEFAULT_BUFFER_SIZE RLIST_SCALE_FACTOR : Nat)
    (dtor : T → T) : Tracked T → Prop where
  | fresh {st : ObjectPool T} :
      ObjectPool.new T DEFAULT_BUFFER_SIZE = some st →
      Reach DEFAULT_BUFFER_SIZE RLIST_SCALE_FACTOR dtor { pool := st, live := [], returned := [] }
  | alloc {t : Tracked T} {p : Nat} {st1 : ObjectPool T} (fuel : Nat) :
      Reach DEFAULT_BUFFER_SIZE RLIST_SCALE_FACTOR dtor t →
      t.pool.alloc DEFAULT_BUFFER_SIZE RLIST_SCALE_FACTOR (fuel + 1) = some (p, st1) →
      Reach DEFAULT_BUFFER_SIZE RLIST_SCALE_FACTOR dtor
        { pool := st1, live := p :: t.live, returned := p :: t.returned }
  | free {t : Tracked T} {p : Nat} {st1 : ObjectPool T} (fuel : Nat) :
      Reach DEFAULT_BUFFER_SIZE RLIST_SCALE_FACTOR dtor t → p ∈ t.returned →
      t.pool.free dtor (fuel + 1) (some p) = some st1 →
      Reach DEFAULT_BUFFER_SIZE RLIST_SCALE_FACTOR dtor
        { pool := st1, live := t.live.erase p, returned := t.returned }
  | clean {t : Tracked T} {p : Nat} {st1 : ObjectPool T} (fuel : Nat) :
      Reach DEFAULT_BUFFER_SIZE RLIST_SCALE_FACTOR dtor t → p ∈ t.returned →
      t.pool.clean (fuel + 1) (some p) = some st1 →
      Reach DEFAULT_BUFFER_SIZE RLIST_SCALE_FACTOR dtor
        { pool := st1, live := t.live.erase p, returned := t.returned }

/-- States a single thread reaches from a new pool by `alloc`, `free` and `clean` calls,
`free` and `clean` being applied to currently live cells only. -/
inductive ReachLive {T : Type} [Inhabited T] (DEFAULT_BUFFER_SIZE RLIST_SCALE_FACTOR : Nat)
    (dtor : T → T) : Tracked T → Prop where
  | fresh {st : ObjectPool T} :
      ObjectPool.new T DEFAULT_BUFFER_SIZE = some st →
      ReachLive DEFAULT_BUFFER_SIZE RLIST_SCALE_FACTOR dtor
        { pool := st, live := [], returned := [] }
  | alloc {t : Tracked T} {p : Nat} {st1 : ObjectPool T} (fuel : Nat) :
      ReachLive DEFAULT_BUFFER_SIZE RLIST_SCALE_FACTOR dtor t →
      t.pool.alloc DEFAULT_BUFFER_SIZE RLIST_SCALE_FACTOR (fuel + 1) = some (p, st1) →
      ReachLive DEFAULT_BUFFER_SIZE RLIST_SCALE_FACTOR dtor
        { pool := st1, live := p :: t.live, returned := p :: t.returned }
  | free {t : Tracked T} {p : Nat} {st1 : ObjectPool T} (fuel : Nat) :
      ReachLive DEFAULT_BUFFER_SIZE RLIST_SCALE_FACTOR dtor t → p ∈ t.live →
      t.pool.free dtor (fuel + 1) (some p) = some st1 →
      ReachLive DEFAULT_BUFFER_SIZE RLIST_SCALE_FACTOR dtor
        { pool := st1, live := t.live.erase p, returned := t.returned }
  | clean {t : Tracked T} {p : Nat} {st1 : ObjectPool T} (fuel : Nat) :
      ReachLive DEFAULT_BUFFER_SIZE RLIST_SCALE_FACTOR dtor t → p ∈ t.live →
      t.pool.clean (fuel + 1) (some p) = some st1 →
      ReachLive DEFAULT_BUFFER_SIZE RLIST_SCALE_FACTOR dtor
        { pool := st1, live := t.live.erase p, returned := t.returned }

/-- Representation invariant of a pool used by one thread, between operations: `blocks_`
holds `j + 1` arrays of `N` cells laid out one after the other, `current_` is the non-null
address `c` inside the last of them, `last_` is the address of its last cell, the array
the future yields follows it, and the free list satisfies the queue invariant with
elements `elems`. -/
structure PoolInv {T : Type} (N : Nat) (st : ObjectPool T) (j c : Nat) (s : Nat)
    (sv : Option Nat) (elems : List (Nat × Option Nat)) : Prop where
  blocks_eq : st.blocks_ = (List.range (j + 1)).map (fun i => i * N)
  current_eq : st.current_ = some c
  lo : j * N ≤ c
  hi : c ≤ st.last_
  last_eq : st.last_ = j * N + (N - 1)
  next_eq : st.next_ = (j + 1) * N
  cells_len : st.cells.length = (j + 2) * N
  queue : QInv st.free_ s sv elems

/-- The free list of a new pool: the state `Queue.new` builds. -/
def newFreeList : Queue (Option Nat) :=
  { nodes := [some { value := none, next := none }], head := some 0, tail := some 0,
    size_ := 0,
    mempool := { slots := [some { next_ := none, ptr_ := none, active_ := true },
                           some { next_ := some 0, ptr_ := none, active_ := true },
                           some { next_ := some 1, ptr_ := none, active_ := true }],
                 head_ := some 2, len_ := 2 },
    hptr_a := some 1, hptr_b := some 2, rlist := [] }

/-- A new `ObjectPool<Nat>` with `DEFAULT_BUFFER_SIZE = 4`. -/
def pool4 : ObjectPool Nat :=
  { cells := [0, 0, 0, 0, 0, 0, 0, 0], blocks_ := [0], current_ := some 0, last_ := 3,
    next_ := 4, free_ := newFreeList }

/-- The pool `pool4` after one call of `alloc()`, which returned the cell at address 0. -/
def pool4a : ObjectPool Nat := { pool4 with current_ := some 1 }

/-- The pool `pool4a` after `free` of the cell at address 0. -/
def pool4f : ObjectPool Nat :=
  { pool4a with
    free_ := { newFreeList with
      nodes := [some { value := none, next := some 1 }, some { value := some 0, next := none }],
      tail := some 1, size_ := 1,
      mempool := { slots := [some { next_ := none, ptr_ := none, active_ := true },
                             some { next_ := some 0, ptr_ := some 0, active_ := true },
                             some { next_ := some 1, ptr_ := none, active_ := true }],
                   head_ := some 2, len_ := 2 } } }

/-- The loop of `getPtrFromBuffer` in an execution in which `compare_exchange_weak` may
fail spuriously, as the C++ standard allows: `weakFails` tells, for the successive
executions of the weak compare-exchange, whether it fails although `current_` holds the
expected value; when the list is used up it does not fail any more.  A failed
compare-exchange stores the observed `current_` in its expected argument (`tmplast` for the
strong one, `ptr` for the weak one, which the next iteration reloads). -/
def getPtrLoopWeak {T : Type} [Inhabited T] (DEFAULT_BUFFER_SIZE : Nat) :
    Nat → List Bool → ObjectPool T → Option Nat → Option (Option Nat × ObjectPool T)
  | 0, _, _, _ => none
  | fuel + 1, weakFails, st, tmplast =>
    if st.current_ = tmplast then
      let st1 := { st with current_ := none }
      let st2 := { st1 with blocks_ := st1.blocks_ ++ [st1.next_] }
      let st3 := { st2 with next_ := st2.cells.length,
                            cells := newArray st2.cells DEFAULT_BUFFER_SIZE }
      match st3.blocks_.getLast? with
      | none => none
      | some back =>
        let st4 := { st3 with last_ := back + (DEFAULT_BUFFER_SIZE - 1) }
        some (tmplast, { st4 with current_ := some back })
    else
      let tmplast := st.current_
      let ptr := st.current_
      match ptr with
      | none => some (none, st)
      | some p =>
        if weakFails.head? = some true then
          getPtrLoopWeak DEFAULT_BUFFER_SIZE fuel weakFails.tail st tmplast
        else if st.current_ = ptr then some (ptr, { st with current_ := some (p + 1) })
        else getPtrLoopWeak DEFAULT_BUFFER_SIZE fuel weakFails.tail st tmplast

/-- Member `ObjectPool<T>::getPtrFromBuffer` in an execution with the given spurious
failures of the weak compare-exchange. -/
def ObjectPool.getPtrFromBufferWeak {T : Type} [Inhabited T] (DEFAULT_BUFFER_SIZE fuel : Nat)
    (weakFails : List Bool) (st : ObjectPool T) : Option (Option Nat × ObjectPool T) :=
  if st.current_ = none then some (none, st)
  else getPtrLoopWeak DEFAULT_BUFFER_SIZE fuel weakFails st (some st.last_)

/-- The pool `pool4` after a call of `getPtrFromBuffer` whose weak compare-exchange failed
once: the second array is current although only the cell at address 0 was handed out. -/
def pool4swapped : ObjectPool Nat :=
  { cells := [0, 0, 0, 0, 0, 0, 0, 0, 0, 0, 0, 0], blocks_ := [0, 4], current_ := some 4,
    last_ := 7, next_ := 8, free_ := newFreeList }

/-- The loop of `getPtrFromBuffer` as in `getPtrLoopWeak`, returning in addition the part
of `weakFails` that was not used: it tells the failures of the weak compare-exchanges that
later calls execute. -/
def getPtrLoopRest {T : Type} [Inhabited T] (DEFAULT_BUFFER_SIZE : Nat) :
    Nat → List Bool → ObjectPool T → Option Nat →
      Option (Option Nat × ObjectPool T × List Bool)
  | 0, _, _, _ => none
  | fuel + 1, weakFails, st, tmplast =>
    if st.current_ = tmplast then
      let st1 := { st with current_ := none }
      let st2 := { st1 with blocks_ := st1.blocks_ ++ [st1.next_] }
      let st3 := { st2 with next_ := st2.cells.length,
                            cells := newArray st2.cells DEFAULT_BUFFER_SIZE }
      match st3.blocks_.getLast? with
      | none => none
      | some back =>
        let st4 := { st3 with last_ := back + (DEFAULT_BUFFER_SIZE - 1) }
        some (tmplast, { st4 with current_ := some back }, weakFails)
    else
      let tmplast := st.current_
      let ptr := st.current_
      match ptr with
      | none => some (none, st, weakFails)
      | some p =>
        if weakFails.head? = some true then
          getPtrLoopRest DEFAULT_BUFFER_SIZE fuel weakFails.tail st tmplast
        else if st.current_ = ptr then
          some (ptr, { st with current_ := some (p + 1) }, weakFails.tail)
        else getPtrLoopRest DEFAULT_BUFFER_SIZE fuel weakFails.tail st tmplast

/-- Member `ObjectPool<T>::getPtrFromBuffer` in an execution with the spurious failures
`weakFails`; returns also the failures not used. -/
def ObjectPool.getPtrFromBufferRest {T : Type} [Inhabited T]
    (DEFAULT_BUFFER_SIZE fuel : Nat) (weakFails : List Bool) (st : ObjectPool T) :
    Option (Option Nat × ObjectPool T × List Bool) :=
  if st.current_ = none then some (none, st, weakFails)
  else getPtrLoopRest DEFAULT_BUFFER_SIZE fuel weakFails st (some st.last_)

/-- The loop of `ObjectPool<T>::alloc()` in an execution with the spurious failures
`weakFails` of the weak compare-exchange; returns also the failures not used. -/
def ObjectPool.allocLoopWeak {T : Type} [Inhabited T]
    (DEFAULT_BUFFER_SIZE RLIST_SCALE_FACTOR fuel : Nat) :
    Nat → List Bool → ObjectPool T → Option (Nat × ObjectPool T × List Bool)
  | 0, _, _ => none
  | n + 1, weakFails, st =>
    if st.free_.empty then
      match st.getPtrFromBufferRest DEFAULT_BUFFER_SIZE fuel weakFails with
      | none => none
      | some (none, st1, rest) =>
        ObjectPool.allocLoopWeak DEFAULT_BUFFER_SIZE RLIST_SCALE_FACTOR fuel n rest st1
      | some (some p, st1, rest) => some (p, st1, rest)
    else
      match st.free_.dequeue RLIST_SCALE_FACTOR fuel with
      | none => none
      | some (none, q1) =>
        ObjectPool.allocLoopWeak DEFAULT_BUFFER_SIZE RLIST_SCALE_FACTOR fuel n weakFails
          { st with free_ := q1 }
      | some (some none, q1) =>
        ObjectPool.allocLoopWeak DEFAULT_BUFFER_SIZE RLIST_SCALE_FACTOR fuel n weakFails
          { st with free_ := q1 }
      | some (some (some p), q1) => some (p, { st with free_ := q1 }, weakFails)

/-- Member `ObjectPool<T>::alloc()` in an execution with the spurious failures `weakFails`. -/
def ObjectPool.allocWeak {T : Type} [Inhabited T]
    (DEFAULT_BUFFER_SIZE RLIST_SCALE_FACTOR fuel : Nat) (weakFails : List Bool)
    (st : ObjectPool T) : Option (Nat × ObjectPool T × List Bool) :=
  ObjectPool.allocLoopWeak DEFAULT_BUFFER_SIZE RLIST_SCALE_FACTOR fuel fuel weakFails st

/-- Calls `alloc()` `n` times in an execution with the spurious failures `weakFails` and
collects the returned addresses in call order. -/
def allocNWeak {T : Type} [Inhabited T] (DEFAULT_BUFFER_SIZE RLIST_SCALE_FACTOR fuel : Nat) :
    Nat → List Bool → ObjectPool T → Option (List Nat × ObjectPool T × List Bool)
  | 0, weakFails, st => some ([], st, weakFails)
  | n + 1, weakFails, st =>
    match st.allocWeak DEFAULT_BUFFER_SIZE RLIST_SCALE_FACTOR fuel weakFails with
    | none => none
    | some (p, st1, rest) =>
      match allocNWeak DEFAULT_BUFFER_SIZE RLIST_SCALE_FACTOR fuel n rest st1 with
      | none => none
      | some (ps, st2, rest2) => some (p :: ps, st2, rest2)

/-- Calls `alloc()` `n` times on a new pool in an execution with the spurious failures
`weakFails`. -/
def allocFreshWeak (T : Type) [Inhabited T]
    (DEFAULT_BUFFER_SIZE RLIST_SCALE_FACTOR fuel n : Nat) (weakFails : List Bool) :
    Option (List Nat × ObjectPool T × List Bool) :=
  match ObjectPool.new T DEFAULT_BUFFER_SIZE with
  | none => none
  | some st => allocNWeak DEFAULT_BUFFER_SIZE RLIST_SCALE_FACTOR fuel n weakFails st

/-- A type with a non-trivial destructor, such as the `std::string` of the test
`AllocWithInPlaceConstruction`: a cell holds an object with a value, or what the destructor
left of an object. -/
inductive Str where
  | obj (value : Nat)
  | destroyed
deriving DecidableEq, Repr, Inhabited

/-- The destructor `~T()` of `Str`: it ends the lifetime of the object. -/
def Str.dtor : Str → Str := fun _ => Str.destroyed

/-- The cell holds an object whose lifetime has not ended. -/
def Str.alive : Str → Bool
  | Str.obj _ => true
  | Str.destroyed => false

/-- A new `ObjectPool<Str>` with `DEFAULT_BUFFER_SIZE = 4`. -/
def strPool : ObjectPool Str :=
  { cells := List.replicate 8 (Str.obj 0), blocks_ := [0], current_ := some 0, last_ := 3,
    next_ := 4, free_ := newFreeList }

/-- The pool `strPool` after `alloc()`, which returned the cell at address 0, and `free` of
that cell: the object in the cell is destroyed and the cell is in the free list. -/
def strPoolFreed : ObjectPool Str :=
  { strPool with cells := Str.destroyed :: List.replicate 7 (Str.obj 0), current_ := some 1,
                 free_ := pool4f.free_ }

end Memory

/-!
# Cutter::Proletariat — the worker pool

Shallow embedding of `src/src/Proletariat.cpp` / `src/src/Proletariat.hpp`.  A work item
(`work_t`, a `std::function<void()>`) is a value of a type `W`; where what a work item does
matters, `W` is the type `S → S` of the changes it makes to a program state `S`.  The
calls `submit`, `start` and `stop` are made by the thread that owns the pool.  The
threads are interleaved by a step function: one step is one load or store of `started_` or
`stopped_`, one creation or join of a thread, or one complete call on the queue, which is
executed as in `Cutter::Lockfree` with the `thread_local` members of the calling thread.
-/

namespace Proletariat
open Lockfree

/-- The callable `std::bind(f, args...)` wrapped in the `std::packaged_task` of
`Pool::submit`: called on the program state, it yields the result of `f` and the next
state. -/
def bindTask {A S R : Type} (f : A → S → R × S) (args : A) : S → R × S := f args

/-- The lambda `[task] (void) noexcept { (*task)(); }` that `Pool::submit` enqueues: it
calls the packaged task and returns `void`; the result stays in the shared state of the
task, whose future is never taken. -/
def workItem {A S R : Type} (f : A → S → R × S) (args : A) : S → S :=
  fun s => (bindTask f args s).2

/-- A callable instrumented with a counter of its calls, kept next to the program state. -/
def counted {A S R : Type} (f : A → S → R × S) : A → S × Nat → R × (S × Nat) :=
  fun a sn => ((f a sn.1).1, ((f a sn.1).2, sn.2 + 1))

/-- Position of a worker thread in the lambda of `Pool::start`:
`loopHead` before the test `!this->stopped_.load()` of the `while`, `dequeue` before
`this->q->dequeue()`, `check task` before `if (!this->stopped_.load() && task)`,
`invoke task` before `(*task)()`, `cleanup` after the loop, `done` after the thread
function returned. -/
inductive WorkerPc (W : Type) where
  | loopHead
  | dequeue
  | check (task : Option W)
  | invoke (task : W)
  | cleanup
  | done
deriving DecidableEq, Repr

/-- The thread function has returned. -/
def WorkerPc.isDone {W : Type} : WorkerPc W → Bool
  | WorkerPc.done => true
  | _ => false

/-- An element of `pool_`: a `std::thread` with the position of the thread, its
`thread_local` members `Queue<work_t>::hptr_a`, `hptr_b` (`none` before their
initialisation on first use) and `rlist`, and whether it was joined. -/
structure Worker (W : Type) where
  pc : WorkerPc W
  hptr_a : Option Nat
  hptr_b : Option Nat
  rlist : List Nat
  joined : Bool
deriving DecidableEq, Repr

/-- The thread created by `pool_.emplace_back(...)`. -/
def Worker.spawn (W : Type) : Worker W :=
  { pc := WorkerPc.loopHead, hptr_a := none, hptr_b := none, rlist := [], joined := false }

/-- Fields of `class Pool`.  The queue `q` carries the `thread_local` members of the thread
that owns the pool. -/
structure Pool (W : Type) where
  size : Int
  started_ : Bool
  stopped_ : Bool
  q : Queue W
  pool_ : List (Worker W)
deriving DecidableEq, Repr

/-- Constructor `Pool::Pool(int num_threads)`. -/
def Pool.new (W : Type) [Inhabited W] (num_threads : Int) : Option (Pool W) :=
  match Queue.new W with
  | none => none
  | some q =>
    some { size := num_threads, started_ := false, stopped_ := false, q := q, pool_ := [] }

/-- Member `Pool::submit`, for the work item `item` built from `f` and `args`.  The line
written to `std::cout` on the error path is not part of the state. -/
def Pool.submit {W : Type} (fuel : Nat) (item : W) (p : Pool W) : Option (Bool × Pool W) :=
  if !p.started_ then some (false, p)
  else
    match p.q.enqueue fuel item with
    | none => none
    | some q1 => some (true, { p with q := q1 })

/-- Initialisation of the `thread_local` members of a thread on their first use:
`hptr_a = mempool->alloc()`, then `hptr_b = mempool->alloc()`. -/
def Worker.threadLocals {W : Type} (w : Worker W) (m : HzdMemPool) :
    Option (Worker W × HzdMemPool) :=
  match w.hptr_a with
  | some _ =>
    match w.hptr_b with
    | some _ => some (w, m)
    | none =>
      match m.alloc with
      | none => none
      | some (b, m1) => some ({ w with hptr_b := some b }, m1)
  | none =>
    match m.alloc with
    | none => none
    | some (a, m1) =>
      match w.hptr_b with
      | some _ => some ({ w with hptr_a := some a }, m1)
      | none =>
        match m1.alloc with
        | none => none
        | some (b, m2) => some ({ w with hptr_a := some a, hptr_b := some b }, m2)

/-- The queue `q` as the thread `w` sees it: the shared members of `q` with the
`thread_local` members of `w`. -/
def Worker.view {W : Type} (w : Worker W) (q : Queue W) (m : HzdMemPool) : Queue W :=
  { q with mempool := m, hptr_a := w.hptr_a, hptr_b := w.hptr_b, rlist := w.rlist }

/-- The shared members of `q1` with the `thread_local` members of the owner of `q`. -/
def shared {W : Type} (q q1 : Queue W) : Queue W :=
  { q1 with hptr_a := q.hptr_a, hptr_b := q.hptr_b, rlist := q.rlist }

/-- The code after the loop of the thread function, and the end of the thread:
`*hptr_a = nullptr; *hptr_b = nullptr; scan(this->q->mempool->head());`, then the
destructors of `hptr_b` and `hptr_a`, which call `HzdMemPool::free`. -/
def Worker.finish {W : Type} (w : Worker W) (q : Queue W) : Option (Queue W × Worker W) :=
  match w.threadLocals q.mempool with
  | none => none
  | some (w1, m1) =>
    match publish m1 w1.hptr_a none with
    | none => none
    | some m2 =>
      match publish m2 w1.hptr_b none with
      | none => none
      | some m3 =>
        match Queue.scan m3.head (w1.view q m3) with
        | none => none
        | some q1 =>
          match q1.mempool.free w1.hptr_b with
          | none => none
          | some m4 =>
            match m4.free w1.hptr_a with
            | none => none
            | some m5 =>
              some (shared q { q1 with mempool := m5 },
                { w1 with pc := WorkerPc.done, hptr_a := none, hptr_b := none, rlist := [] })

/-- One step of the worker thread `w` of the pool `p`: the new queue, the new state of the
thread, and the work item it invoked in this step, if any. -/
def Pool.workerStep {W : Type} (RLIST_SCALE_FACTOR fuel : Nat) (p : Pool W) (w : Worker W) :
    Option (Queue W × Worker W × Option W) :=
  match w.pc with
  | WorkerPc.loopHead =>
    some (p.q, { w with pc := if p.stopped_ then WorkerPc.cleanup else WorkerPc.dequeue }, none)
  | WorkerPc.dequeue =>
    match w.threadLocals p.q.mempool with
    | none => none
    | some (w1, m1) =>
      match (w1.view p.q m1).dequeue RLIST_SCALE_FACTOR fuel with
      | none => none
      | some (task, q1) =>
        some (shared p.q q1, { w1 with pc := WorkerPc.check task, rlist := q1.rlist }, none)
  | WorkerPc.check none => some (p.q, { w with pc := WorkerPc.loopHead }, none)
  | WorkerPc.check (some t) =>
    some (p.q, { w with pc := if p.stopped_ then WorkerPc.loopHead else WorkerPc.invoke t },
      none)
  | WorkerPc.invoke t => some (p.q, { w with pc := WorkerPc.loopHead }, some t)
  | WorkerPc.cleanup =>
    match w.finish p.q with
    | none => none
    | some (q1, w1) => some (q1, w1, none)
  | WorkerPc.done => none

/-- Position of the thread that owns the pool: outside the calls (`idle`), in the loop of
`Pool::start` before iteration `i`, in `Pool::stop` before the test `!q->empty()` of the
busy wait, before `stopped_ = true`, or in the join loop before `pool_[j].join()`. -/
inductive Caller where
  | idle
  | starting (i : Nat)
  | waiting
  | storing
  | joining (j : Nat)
deriving DecidableEq, Repr

/-- The pool, the position of its owner, and the history of the run: whether `start` was
called, whether a call of `stop` returned, the work items whose `submit` returned true and
the work items invoked, both in order. -/
structure Sys (W : Type) where
  pool : Pool W
  caller : Caller
  startCalled : Bool
  stopReturned : Bool
  submitted : List W
  invoked : List W
deriving DecidableEq, Repr

/-- A new pool of `num_threads` workers, nothing called yet. -/
def Sys.new (W : Type) [Inhabited W] (num_threads : Int) : Option (Sys W) :=
  match Pool.new W num_threads with
  | none => none
  | some p =>
    some { pool := p, caller := Caller.idle, startCalled := false, stopReturned := false,
           submitted := [], invoked := [] }

/-- What the scheduler can pick: the owner calls `start`, `submit` or `stop`, the owner
takes the next step of the call it is in, or the worker `pool_[i]` takes its next step. -/
inductive Action (W : Type) where
  | callStart
  | startStep
  | submit (item : W)
  | callStop (wait_for_complete : Bool)
  | stopStep
  | worker (i : Nat)
deriving DecidableEq, Repr

/-- One step of the system.  `none`: the action cannot be taken in this state (the owner is
inside another call, `join` has to wait for a running thread, there is no such worker, the
thread has ended), or the program leaves what is modelled (`join` on a thread that was
joined throws, a queue operation is undefined). -/
def step {W : Type} (RLIST_SCALE_FACTOR fuel : Nat) (s : Sys W) : Action W → Option (Sys W)
  | Action.callStart =>
    match s.caller with
    | Caller.idle => some { s with caller := Caller.starting 0, startCalled := true }
    | _ => none
  | Action.startStep =>
    match s.caller with
    | Caller.starting i =>
      if (i : Int) < s.pool.size then
        some { s with pool := ({ s.pool with pool_ := s.pool.pool_ ++ [Worker.spawn W] }),
                      caller := Caller.starting (i + 1) }
      else
        some { s with pool := ({ s.pool with started_ := true }), caller := Caller.idle }
    | _ => none
  | Action.submit item =>
    match s.caller with
    | Caller.idle =>
      match s.pool.submit fuel item with
      | none => none
      | some (r, p1) =>
        some { s with pool := p1,
                      submitted := if r then s.submitted ++ [item] else s.submitted }
    | _ => none
  | Action.callStop wait_for_complete =>
    match s.caller with
    | Caller.idle =>
      some { s with caller := if wait_for_complete then Caller.waiting else Caller.storing }
    | _ => none
  | Action.stopStep =>
    match s.caller with
    | Caller.waiting =>
      some { s with caller := if s.pool.q.empty then Caller.storing else Caller.waiting }
    | Caller.storing =>
      some { s with pool := ({ s.pool with stopped_ := true }), caller := Caller.joining 0 }
    | Caller.joining j =>
      match s.pool.pool_[j]? with
      | none => some { s with caller := Caller.idle, stopReturned := true }
      | some w =>
        if w.joined then none
        else if w.pc.isDone then
          some { s with pool := ({ s.pool with
                                   pool_ := s.pool.pool_.set j { w with joined := true } }),
                        caller := Caller.joining (j + 1) }
        else none
    | _ => none
  | Action.worker i =>
    match s.pool.pool_[i]? with
    | none => none
    | some w =>
      match s.pool.workerStep RLIST_SCALE_FACTOR fuel w with
      | none => none
      | some (q1, w1, ran) =>
        some { s with pool := ({ s.pool with q := q1, pool_ := s.pool.pool_.set i w1 }),
                      invoked := s.invoked ++ ran.toList }

/-- Runs the actions of a schedule in order. -/
def run {W : Type} (RLIST_SCALE_FACTOR fuel : Nat) : List (Action W) → Sys W → Option (Sys W)
  | [], s => some s
  | a :: rest, s =>
    match step RLIST_SCALE_FACTOR fuel s a with
    | none => none
    | some s1 => run RLIST_SCALE_FACTOR fuel rest s1

/-- The worker holds no work item: it is between two iterations of its loop, after the loop,
or has ended. -/
def WorkerPc.atRest {W : Type} : WorkerPc W → Bool
  | WorkerPc.loopHead => true
  | WorkerPc.cleanup => true
  | WorkerPc.done => true
  | _ => false

/-- Invariant of the runs of a pool: before `start` is called nothing was invoked and there
is no worker; the owner is inside `start` only after calling it; while the owner is in the
join loop before `pool_[j].join()`, `stopped_` is set and the workers before `j` have ended;
once a call of `stop` has returned, `stopped_` is set and no worker holds a work item. -/
def SysInv {W : Type} (s : Sys W) : Prop :=
  (s.startCalled = false → s.invoked = [] ∧ s.pool.pool_ = []) ∧
  (∀ i, s.caller = Caller.starting i → s.startCalled = true) ∧
  (∀ j, s.caller = Caller.joining j → s.pool.stopped_ = true ∧
    ∀ i, i < j → ∃ w, s.pool.pool_[i]? = some w ∧ w.pc = WorkerPc.done) ∧
  (s.stopReturned = true → s.pool.stopped_ = true ∧
    ∀ w ∈ s.pool.pool_, w.pc.atRest = true)

/-- The queue built by the constructor of a pool on a thread whose `thread_local` members
have just been initialised. -/
def newQueue (W : Type) [Inhabited W] : Queue W :=
  { nodes := [some { value := default, next := none }], head := some 0, tail := some 0,
    size_ := 0,
    mempool := { slots := [some { next_ := none, ptr_ := none, active_ := true },
                           some { next_ := some 0, ptr_ := none, active_ := true },
                           some { next_ := some 1, ptr_ := none, active_ := true }],
                 head_ := some 2, len_ := 2 },
    hptr_a := some 1, hptr_b := some 2, rlist := [] }

/-- A pool of one worker on which nothing was called. -/
def unstartedPool (W : Type) [Inhabited W] : Pool W :=
  { size := 1, started_ := false, stopped_ := false, q := newQueue W, pool_ := [] }

/-- A pool of one worker after `start()` returned and before the worker took a step. -/
def startedPool (W : Type) [Inhabited W] : Pool W :=
  { size := 1, started_ := true, stopped_ := false, q := newQueue W,
    pool_ := [Worker.spawn W] }

/-- A callable on a program state that is a number: adds its argument to the state and
returns whether the argument was positive. -/
def addTask (a s : Nat) : Bool × Nat := (decide (0 < a), s + a)

/-- A schedule of a pool with one worker: `start()`, `submit` of the work item 7, the worker
enters the loop and dequeues the item, the owner calls `stop(true)`, finds the queue empty
and sets `stopped_`, and only then the worker reaches its test of `stopped_`. -/
def lostTaskSchedule : List (Action Nat) :=
  [Action.callStart, Action.startStep, Action.startStep, Action.submit 7,
   Action.worker 0, Action.worker 0,
   Action.callStop true, Action.stopStep, Action.stopStep,
   Action.worker 0, Action.worker 0, Action.worker 0,
   Action.stopStep, Action.stopStep]

/-- The same calls with the worker reaching its test of `stopped_` before the owner calls
`stop(true)`. -/
def ranTaskSchedule : List (Action Nat) :=
  [Action.callStart, Action.startStep, Action.startStep, Action.submit 7,
   Action.worker 0, Action.worker 0, Action.worker 0, Action.worker 0,
   Action.callStop true, Action.stopStep, Action.stopStep,
   Action.worker 0, Action.worker 0,
   Action.stopStep, Action.stopStep]

/-- A new pool of one worker for work items that are numbers, nothing called yet. -/
def freshSys : Sys Nat :=
  { pool := unstartedPool Nat, caller := Caller.idle, startCalled := false,
    stopReturned := false, submitted := [], invoked := [] }

/-- The state at the end of `lostTaskSchedule`: `stop(true)` has returned, the worker has
ended and was joined, the work item 7 was submitted and not invoked. -/
def stoppedSys : Sys Nat :=
  { pool :=
      { size := 1, started_ := true, stopped_ := true,
        q := { nodes := [some { value := 0, next := some 1 }, some { value := 7, next := none }],
               head := some 1, tail := some 1, size_ := 0,
               mempool := { slots := [some { next_ := none, ptr_ := none, active_ := true },
                                      some { next_ := some 0, ptr_ := some 0, active_ := true },
                                      some { next_ := some 1, ptr_ := none, active_ := true },
                                      some { next_ := some 2, ptr_ := none, active_ := false },
                                      some { next_ := some 3, ptr_ := none, active_ := false }],
                            head_ := some 4, len_ := 4 },
               hptr_a := some 1, hptr_b := some 2, rlist := [] },
        pool_ := [{ pc := WorkerPc.done, hptr_a := none, hptr_b := none, rlist := [],
                    joined := true }] },
    caller := Caller.idle, startCalled := true, stopReturned := true, submitted := [7],
    invoked := [] }

end Proletariat

namespace Lockfree

/-! ## Storage lemmas -/

theorem load_eq_some_iff {α : Type} (cells : List (Option α)) (p : Nat) (x : α) :
    load cells p = some x ↔ cells[p]? = some (some x) := by
  unfold load
  split
  · rename_i y hy
    rw [hy]
    simp
  · rename_i hn
    constructor
    · intro h
      cases h
    · intro h
      exact absurd h (hn x)

theorem load_lt {α : Type} {cells : List (Option α)} {p : Nat} {x : α}
    (h : load cells p = some x) : p < cells.length := by
  rw [load_eq_some_iff] at h
  by_contra hge
  rw [List.getElem?_eq_none (Nat.le_of_not_lt hge)] at h
  cases h

theorem load_congr {α : Type} {c1 c2 : List (Option α)} {p : Nat}
    (h : c1[p]? = c2[p]?) : load c1 p = load c2 p := by
  unfold load
  rw [h]

theorem length_store {α : Type} (cells : List (Option α)) (p : Nat) (x : α) :
    (store cells p x).length = cells.length := by
  unfold store
  simp

theorem length_release {α : Type} (cells : List (Option α)) (p : Nat) :
    (release cells p).length = cells.length := by
  unfold release
  simp

theorem length_pushNew {α : Type} (cells : List (Option α)) (x : α) :
    (pushNew cells x).length = cells.length + 1 := by
  unfold pushNew
  simp

theorem load_store_same {α : Type} {cells : List (Option α)} {p : Nat} (x : α)
    (h : p < cells.length) : load (store cells p x) p = some x := by
  rw [load_eq_some_iff]
  unfold store
  simp [List.getElem?_set, h]

theorem load_store_ne {α : Type} (cells : List (Option α)) {p q : Nat} (x : α)
    (h : p ≠ q) : load (store cells p x) q = load cells q := by
  apply load_congr
  unfold store
  simp [List.getElem?_set, h]

theorem load_release_same {α : Type} (cells : List (Option α)) (p : Nat) :
    load (release cells p) p = none := by
  cases hl : load (release cells p) p with
  | none => rfl
  | some x =>
    have hlt := load_lt hl
    rw [length_release] at hlt
    rw [load_eq_some_iff] at hl
    unfold release at hl
    simp [List.getElem?_set, hlt] at hl

theorem load_release_ne {α : Type} (cells : List (Option α)) {p q : Nat}
    (h : p ≠ q) : load (release cells p) q = load cells q := by
  apply load_congr
  unfold release
  simp [List.getElem?_set, h]

theorem load_pushNew_old {α : Type} {cells : List (Option α)} {p : Nat} (x : α)
    (h : p < cells.length) : load (pushNew cells x) p = load cells p := by
  apply load_congr
  unfold pushNew
  rw [List.getElem?_append_left h]

theorem load_pushNew_fresh {α : Type} (cells : List (Option α)) (x : α) :
    load (pushNew cells x) (freshAddr cells) = some x := by
  rw [load_eq_some_iff]
  unfold pushNew freshAddr
  simp

/-! ## The slot list -/

theorem slotsFrom_succ {fuel : Nat} {slots : List (Option Hzd)} {p : Nat} {L : List Nat}
    (h : slotsFrom (fuel + 1) slots p = some L) :
    ∃ hz, load slots p = some hz ∧
      ((hz.next_ = none ∧ L = [p]) ∨
        ∃ q L1, hz.next_ = some q ∧ slotsFrom fuel slots q = some L1 ∧ L = p :: L1) := by
  unfold slotsFrom at h
  cases hl : load slots p with
  | none => simp [hl] at h
  | some hz =>
    refine ⟨hz, rfl, ?_⟩
    simp only [hl] at h
    cases hn : hz.next_ with
    | none =>
      simp only [hn] at h
      left
      exact ⟨rfl, (Option.some.inj h).symm⟩
    | some q =>
      simp only [hn] at h
      right
      cases hr : slotsFrom fuel slots q with
      | none => simp [hr] at h
      | some L1 =>
        simp only [hr, Option.map_some'] at h
        exact ⟨q, L1, rfl, hr, (Option.some.inj h).symm⟩

theorem slotsFrom_head_mem {fuel : Nat} {slots : List (Option Hzd)} {p : Nat} {L : List Nat}
    (h : slotsFrom fuel slots p = some L) : ∃ L1, L = p :: L1 := by
  cases fuel with
  | zero => simp [slotsFrom] at h
  | succ f =>
    obtain ⟨hz, _, hc⟩ := slotsFrom_succ h
    rcases hc with ⟨_, hL⟩ | ⟨q, L1, _, _, hL⟩
    · exact ⟨[], hL⟩
    · exact ⟨L1, hL⟩

theorem slotsFrom_live {fuel : Nat} {slots : List (Option Hzd)} {p : Nat} {L : List Nat}
    (h : slotsFrom fuel slots p = some L) : ∀ a ∈ L, ∃ hz, load slots a = some hz := by
  induction fuel generalizing p L with
  | zero => simp [slotsFrom] at h
  | succ f ih =>
    obtain ⟨hz, hl, hc⟩ := slotsFrom_succ h
    rcases hc with ⟨_, hL⟩ | ⟨q, L1, _, hr, hL⟩
    · subst hL
      intro a ha
      simp only [List.mem_singleton] at ha
      subst ha
      exact ⟨hz, hl⟩
    · subst hL
      intro a ha
      rcases List.mem_cons.mp ha with rfl | ha1
      · exact ⟨hz, hl⟩
      · exact ih hr a ha1

/-- The walk only depends on the links of the slots it visits. -/
theorem slotsFrom_congr {fuel : Nat} {s1 s2 : List (Option Hzd)} {p : Nat} {L : List Nat}
    (h : slotsFrom fuel s1 p = some L)
    (hs : ∀ a ∈ L, ∀ hz, load s1 a = some hz → ∃ hz2, load s2 a = some hz2 ∧ hz2.next_ = hz.next_) :
    slotsFrom fuel s2 p = some L := by
  induction fuel generalizing p L with
  | zero => simp [slotsFrom] at h
  | succ f ih =>
    obtain ⟨hz, hl, hc⟩ := slotsFrom_succ h
    rcases hc with ⟨hn, hL⟩ | ⟨q, L1, hn, hr, hL⟩
    · subst hL
      obtain ⟨hz2, hl2, hn2⟩ := hs p (List.mem_singleton.mpr rfl) hz hl
      unfold slotsFrom
      simp only [hl2]
      rw [hn2, hn]
    · subst hL
      obtain ⟨hz2, hl2, hn2⟩ := hs p (List.mem_cons_self _ _) hz hl
      have := ih hr (fun a ha => hs a (List.mem_cons_of_mem _ ha))
      unfold slotsFrom
      simp only [hl2]
      rw [hn2, hn]
      simp only [this, Option.map_some']

theorem slotsFrom_fuel_succ {fuel : Nat} {slots : List (Option Hzd)} {p : Nat} {L : List Nat}
    (h : slotsFrom fuel slots p = some L) : slotsFrom (fuel + 1) slots p = some L := by
  induction fuel generalizing p L with
  | zero => simp [slotsFrom] at h
  | succ f ih =>
    obtain ⟨hz, hl, hc⟩ := slotsFrom_succ h
    rcases hc with ⟨hn, hL⟩ | ⟨q, L1, hn, hr, hL⟩
    · subst hL
      unfold slotsFrom
      simp only [hl]
      rw [hn]
    · subst hL
      have := ih hr
      unfold slotsFrom
      simp only [hl]
      rw [hn]
      simp only [this, Option.map_some']

/-- On a well-formed list the first loop of `alloc` claims the first free slot, and falls
through when there is none. -/
theorem allocLoop_eq {fuel : Nat} {slots : List (Option Hzd)} {p : Nat} {L : List Nat}
    (h : slotsFrom fuel slots p = some L) :
    allocLoop fuel slots p false =
      some (match L.find? (isFree slots) with
            | some a => ScanResult.claimed a (claim slots a)
            | none => ScanResult.exhausted slots) := by
  induction fuel generalizing p L with
  | zero => simp [slotsFrom] at h
  | succ f ih =>
    obtain ⟨hz, hl, hc⟩ := slotsFrom_succ h
    unfold allocLoop
    simp only [hl]
    by_cases hact : hz.active_ = true
    · have hfree : isFree slots p = false := by simp [isFree, hl, hact]
      simp only [hact, if_true]
      rcases hc with ⟨hn, hL⟩ | ⟨q, L1, hn, hr, hL⟩
      · subst hL
        simp [hn, List.find?, hfree]
      · subst hL
        simp only [hn, List.find?, hfree]
        exact ih hr
    · have hact2 : hz.active_ = false := by simpa using hact
      have hfree : isFree slots p = true := by simp [isFree, hl, hact2]
      have hL : ∃ L1, L = p :: L1 := slotsFrom_head_mem h
      obtain ⟨L1, hL⟩ := hL
      subst hL
      simp [hact2, List.find?, hfree, claim, hl]

theorem isFree_iff {slots : List (Option Hzd)} {a : Nat} :
    isFree slots a = true ↔ ∃ hz, load slots a = some hz ∧ hz.active_ = false := by
  unfold isFree
  cases hl : load slots a with
  | none => simp
  | some hz => simp

/-- The two outcomes of `alloc` on a pool with a well-formed slot list. -/
theorem alloc_cases {m : HzdMemPool} {L : List Nat} (hL : m.slotList = some L) :
    (∃ a hz, L.find? (isFree m.slots) = some a ∧ load m.slots a = some hz ∧
        hz.active_ = false ∧ m.alloc = some (a, m.claimed a hz)) ∨
    (L.find? (isFree m.slots) = none ∧ m.alloc = some (freshAddr m.slots, m.grown)) := by
  unfold HzdMemPool.slotList at hL
  cases hh : m.head_ with
  | none => simp [hh] at hL
  | some p0 =>
    simp only [hh] at hL
    have hloop := allocLoop_eq hL
    cases hf : L.find? (isFree m.slots) with
    | none =>
      right
      refine ⟨rfl, ?_⟩
      simp only [hf] at hloop
      unfold HzdMemPool.alloc
      simp only [hh, hloop, HzdMemPool.grown]
    | some a =>
      left
      simp only [hf] at hloop
      have hfree : isFree m.slots a = true := List.find?_some hf
      obtain ⟨hz, hl, hact⟩ := isFree_iff.mp hfree
      refine ⟨a, hz, rfl, hl, hact, ?_⟩
      unfold HzdMemPool.alloc
      simp only [hh, hloop, claim, hl, HzdMemPool.claimed]

theorem slotList_store {m : HzdMemPool} {L : List Nat} (hL : m.slotList = some L)
    {a : Nat} {hz hz2 : Hzd} (hl : load m.slots a = some hz) (hn : hz2.next_ = hz.next_) :
    ({ m with slots := store m.slots a hz2 } : HzdMemPool).slotList = some L := by
  unfold HzdMemPool.slotList at hL ⊢
  cases hh : m.head_ with
  | none => simp [hh] at hL
  | some p0 =>
    simp only [hh] at hL ⊢
    rw [length_store]
    apply slotsFrom_congr hL
    intro b _ hb hlb
    by_cases hab : a = b
    · subst hab
      rw [hl] at hlb
      cases hlb
      exact ⟨hz2, load_store_same _ (load_lt hl), hn⟩
    · exact ⟨hb, by rw [load_store_ne _ _ hab]; exact hlb, rfl⟩

theorem slotList_claimed {m : HzdMemPool} {L : List Nat} (hL : m.slotList = some L)
    {a : Nat} {hz : Hzd} (hl : load m.slots a = some hz) :
    (m.claimed a hz).slotList = some L :=
  slotList_store hL hl rfl

theorem slotList_grown {m : HzdMemPool} {L : List Nat} (hL : m.slotList = some L) :
    m.grown.slotList = some (freshAddr m.slots :: L) := by
  unfold HzdMemPool.slotList at hL
  cases hh : m.head_ with
  | none => simp [hh] at hL
  | some p0 =>
    simp only [hh] at hL
    have hold : slotsFrom m.slots.length m.grown.slots p0 = some L := by
      apply slotsFrom_congr hL
      intro b _ hb hlb
      have hlt := load_lt hlb
      refine ⟨hb, ?_, rfl⟩
      unfold HzdMemPool.grown
      simp only
      rw [load_store_ne _ _ (by unfold freshAddr; omega), load_pushNew_old _ hlt]
      exact hlb
    have hnew : load m.grown.slots (freshAddr m.slots) =
        some { Hzd.new with next_ := some p0 } := by
      unfold HzdMemPool.grown
      simp only [hh]
      apply load_store_same
      rw [length_pushNew]
      unfold freshAddr
      omega
    have hlen : m.grown.slots.length = m.slots.length + 1 := by
      unfold HzdMemPool.grown
      simp only
      rw [length_store, length_pushNew]
    unfold HzdMemPool.slotList
    have hhead : m.grown.head_ = some (freshAddr m.slots) := rfl
    rw [hhead, hlen]
    simp only
    unfold slotsFrom
    simp only [hnew, hold, Option.map_some']

theorem load_grown_old {m : HzdMemPool} {b : Nat} (hb : b < m.slots.length) :
    load m.grown.slots b = load m.slots b := by
  unfold HzdMemPool.grown
  simp only
  rw [load_store_ne _ _ (by unfold freshAddr; omega), load_pushNew_old _ hb]

theorem load_grown_new (m : HzdMemPool) :
    load m.grown.slots (freshAddr m.slots) =
      some { next_ := m.head_, ptr_ := none, active_ := true } := by
  unfold HzdMemPool.grown
  simp only
  rw [load_store_same]
  · rfl
  · rw [length_pushNew]
    unfold freshAddr
    omega

theorem slotsFrom_eq_of_links {s1 s2 : List (Option Hzd)}
    (hs : ∀ b, (load s1 b).map Hzd.next_ = (load s2 b).map Hzd.next_) (fuel p : Nat) :
    slotsFrom fuel s1 p = slotsFrom fuel s2 p := by
  induction fuel generalizing p with
  | zero => rfl
  | succ f ih =>
    unfold slotsFrom
    have h := hs p
    cases h1 : load s1 p with
    | none =>
      cases h2 : load s2 p with
      | none => rfl
      | some y => rw [h1, h2] at h; cases h
    | some x =>
      cases h2 : load s2 p with
      | none => rw [h1, h2] at h; cases h
      | some y =>
        rw [h1, h2] at h
        simp only [Option.map_some', Option.some.injEq] at h
        simp only [h]
        cases y.next_ with
        | none => rfl
        | some q => simp only [ih q]

theorem free_eq {m : HzdMemPool} {a : Nat} {hz : Hzd} (h : load m.slots a = some hz) :
    m.free (some a) =
      some { m with slots := store m.slots a { hz with ptr_ := none, active_ := false } } := by
  unfold HzdMemPool.free
  simp only [h]

theorem publish_eq {m : HzdMemPool} {a : Nat} {hz : Hzd} (v : Option Nat)
    (h : load m.slots a = some hz) :
    publish m (some a) v = some { m with slots := store m.slots a { hz with ptr_ := v } } := by
  unfold publish
  simp only [h]

theorem slotList_eq_of_store {m : HzdMemPool} {a : Nat} {hz hz2 : Hzd}
    (hl : load m.slots a = some hz) (hn : hz2.next_ = hz.next_) :
    ({ m with slots := store m.slots a hz2 } : HzdMemPool).slotList = m.slotList := by
  unfold HzdMemPool.slotList
  simp only [length_store]
  cases m.head_ with
  | none => rfl
  | some p0 =>
    simp only
    apply slotsFrom_eq_of_links
    intro b
    by_cases hab : a = b
    · subst hab
      rw [load_store_same _ (load_lt hl), hl]
      simp [hn]
    · rw [load_store_ne _ _ hab]

theorem held_alloc {p : Nat} {m : HzdMemPool} (h : Held p m) :
    ∃ q m1, m.alloc = some (q, m1) ∧ q ≠ p ∧ Held p m1 := by
  obtain ⟨L, hL, hp, hz, hl, hact⟩ := h
  rcases alloc_cases hL with ⟨a, ha, hf, hla, hfalse, hal⟩ | ⟨_, hal⟩
  · have hne : a ≠ p := by
      intro hap
      subst hap
      rw [hl] at hla
      cases hla
      rw [hact] at hfalse
      cases hfalse
    refine ⟨a, _, hal, hne, L, slotList_claimed hL hla, hp, hz, ?_, hact⟩
    unfold HzdMemPool.claimed
    simp only
    rw [load_store_ne _ _ hne]
    exact hl
  · have hlt := load_lt hl
    have hne : freshAddr m.slots ≠ p := by unfold freshAddr; omega
    refine ⟨_, _, hal, hne, _, slotList_grown hL, List.mem_cons_of_mem _ hp, hz, ?_, hact⟩
    rw [load_grown_old hlt]
    exact hl

theorem held_free {p : Nat} {m m1 : HzdMemPool} {r : Option Nat} (h : Held p m)
    (hr : r ≠ some p) (hf : m.free r = some m1) : Held p m1 := by
  obtain ⟨L, hL, hp, hz, hl, hact⟩ := h
  cases r with
  | none => simp [HzdMemPool.free] at hf
  | some a =>
    cases hla : load m.slots a with
    | none => simp [HzdMemPool.free, hla] at hf
    | some ha =>
      rw [free_eq hla] at hf
      cases hf
      have hne : a ≠ p := fun e => hr (by rw [e])
      refine ⟨L, slotList_store hL hla rfl, hp, hz, ?_, hact⟩
      simp only
      rw [load_store_ne _ _ hne]
      exact hl

theorem held_runPool {p : Nat} (ops : List PoolOp) :
    ∀ {m m1 : HzdMemPool}, Held p m → (∀ op ∈ ops, op ≠ PoolOp.free (some p)) →
      runPool ops m = some m1 → Held p m1 := by
  induction ops with
  | nil =>
    intro m m1 h _ hrun
    simp only [runPool, Option.some.injEq] at hrun
    subst hrun
    exact h
  | cons op ops ih =>
    intro m m1 h hops hrun
    have hrest : ∀ o ∈ ops, o ≠ PoolOp.free (some p) :=
      fun o ho => hops o (List.mem_cons_of_mem _ ho)
    cases op with
    | alloc =>
      obtain ⟨q, m2, hal, _, h2⟩ := held_alloc h
      simp only [runPool, hal] at hrun
      exact ih h2 hrest hrun
    | free r =>
      have hr : r ≠ some p := by
        intro e
        exact hops (PoolOp.free r) (List.mem_cons_self _ _) (by rw [e])
      cases hf : m.free r with
      | none => simp [runPool, hf] at hrun
      | some m2 =>
        simp only [runPool, hf] at hrun
        exact ih (held_free h hr hf) hrest hrun

theorem slotList_live {m : HzdMemPool} {L : List Nat} (hL : m.slotList = some L) :
    ∀ a ∈ L, ∃ hz, load m.slots a = some hz := by
  unfold HzdMemPool.slotList at hL
  cases hh : m.head_ with
  | none => simp [hh] at hL
  | some p0 =>
    simp only [hh] at hL
    exact slotsFrom_live hL

/-! ## The scan -/

theorem collectHazards_spec {fuel : Nat} {slots : List (Option Hzd)} {p : Nat} {L : List Nat}
    (h : slotsFrom fuel slots p = some L) (acc : List Nat) :
    ∃ H, collectHazards fuel slots p acc = some H ∧
      ∀ x, x ∈ H ↔ x ∈ acc ∨ ∃ a ∈ L, ∃ hz, load slots a = some hz ∧ hz.ptr_ = some x := by
  induction fuel generalizing p L acc with
  | zero => simp [slotsFrom] at h
  | succ f ih =>
    obtain ⟨hz, hl, hc⟩ := slotsFrom_succ h
    have hacc : ∀ x, x ∈ (match hz.ptr_ with
        | some y => acc.insert y
        | none => acc) ↔ x ∈ acc ∨ hz.ptr_ = some x := by
      intro x
      cases hp : hz.ptr_ with
      | none => simp
      | some y =>
        simp only [List.mem_insert_iff, Option.some.injEq]
        constructor
        · rintro (h1 | h1)
          · exact Or.inr h1.symm
          · exact Or.inl h1
        · rintro (h1 | h1)
          · exact Or.inr h1
          · exact Or.inl h1.symm
    unfold collectHazards
    simp only [hl]
    rcases hc with ⟨hn, hL⟩ | ⟨q, L1, hn, hr, hL⟩
    · subst hL
      simp only [hn]
      refine ⟨_, rfl, ?_⟩
      intro x
      rw [hacc x]
      constructor
      · rintro (h1 | h1)
        · exact Or.inl h1
        · exact Or.inr ⟨p, List.mem_singleton.mpr rfl, hz, hl, h1⟩
      · rintro (h1 | ⟨a, ha, hz2, hl2, hp2⟩)
        · exact Or.inl h1
        · rw [List.mem_singleton] at ha
          subst ha
          rw [hl] at hl2
          cases hl2
          exact Or.inr hp2
    · subst hL
      simp only [hn]
      obtain ⟨H, hH, hmem⟩ := ih hr (match hz.ptr_ with
        | some y => acc.insert y
        | none => acc)
      refine ⟨H, hH, ?_⟩
      intro x
      rw [hmem x, hacc x]
      constructor
      · rintro ((h1 | h1) | ⟨a, ha, hz2, hl2, hp2⟩)
        · exact Or.inl h1
        · exact Or.inr ⟨p, List.mem_cons_self _ _, hz, hl, h1⟩
        · exact Or.inr ⟨a, List.mem_cons_of_mem _ ha, hz2, hl2, hp2⟩
      · rintro (h1 | ⟨a, ha, hz2, hl2, hp2⟩)
        · exact Or.inl (Or.inl h1)
        · rcases List.mem_cons.mp ha with rfl | ha1
          · rw [hl] at hl2
            cases hl2
            exact Or.inl (Or.inr hp2)
          · exact Or.inr ⟨a, ha1, hz2, hl2, hp2⟩

/-- Overwriting entry `pre.length` with the last entry and popping the back removes that
entry and keeps the others, those after it up to order. -/
theorem swap_pop (pre : List Nat) (r : Nat) (suf : List Nat) :
    ∃ suf1, (if pre.length ≠ (pre ++ r :: suf).length - 1
        then (pre ++ r :: suf).set pre.length ((pre ++ r :: suf).getLastD r)
        else pre ++ r :: suf).dropLast = pre ++ suf1 ∧ suf1.Perm suf := by
  rcases List.eq_nil_or_concat suf with hs | ⟨suf0, l, hs⟩
  · subst hs
    refine ⟨[], ?_, List.Perm.refl _⟩
    simp
  · rw [List.concat_eq_append] at hs
    subst hs
    refine ⟨l :: suf0, ?_, (List.perm_append_singleton l suf0).symm⟩
    have hlast : (pre ++ r :: (suf0 ++ [l])).getLastD r = l := by
      have : pre ++ r :: (suf0 ++ [l]) = (pre ++ r :: suf0) ++ [l] := by simp
      rw [this, List.getLastD_eq_getLast?, List.getLast?_append]
      simp
    have hne : pre.length ≠ (pre ++ r :: (suf0 ++ [l])).length - 1 := by
      simp only [List.length_append, List.length_cons, List.length_nil]
      omega
    rw [if_pos hne, hlast]
    have hset : (pre ++ r :: (suf0 ++ [l])).set pre.length l = (pre ++ l :: suf0) ++ [l] := by
      simp
    rw [hset, List.dropLast_concat]

/-- The second loop of `scan` started at position `pre.length` of `pre ++ suf`: it returns,
keeps `pre` and the entries of `suf` that are active hazards, and deletes exactly the other
entries of `suf`. -/
theorem scanLoop_spec {T : Type} (H : List Nat) :
    ∀ (fuel : Nat) (pre suf : List Nat) (nodes : List (Option (Node T))),
      suf.length < fuel → (pre ++ suf).Nodup → (∀ r ∈ suf, ∃ n, load nodes r = some n) →
      ∃ rl nodes1, scanLoop H fuel pre.length (pre ++ suf) nodes = some (rl, nodes1) ∧
        rl.Perm (pre ++ suf.filter (fun r => decide (r ∈ H))) ∧
        nodes1.length = nodes.length ∧
        ∀ a, load nodes1 a = if a ∈ suf ∧ a ∉ H then none else load nodes a := by
  intro fuel
  induction fuel with
  | zero => intro pre suf nodes hlt; omega
  | succ f ih =>
    intro pre suf nodes hlt hnd hlive
    cases suf with
    | nil =>
      refine ⟨pre, nodes, ?_, by simp, rfl, by simp⟩
      unfold scanLoop
      simp
    | cons r suf1 =>
      have hit : ¬ pre.length = (pre ++ r :: suf1).length := by
        simp only [List.length_append, List.length_cons]
        omega
      have hget : (pre ++ r :: suf1)[pre.length]? = some r := by
        rw [List.getElem?_append_right (Nat.le_refl _)]
        simp
      unfold scanLoop
      simp only [hit, if_false, hget]
      by_cases hr : r ∈ H
      · simp only [hr, not_true_eq_false, if_false]
        have hre : pre ++ r :: suf1 = (pre ++ [r]) ++ suf1 := by simp
        have hlen : pre.length + 1 = (pre ++ [r]).length := by simp
        rw [hre, hlen]
        obtain ⟨rl, nodes1, hrun, hperm, hlen1, hload⟩ :=
          ih (pre ++ [r]) suf1 nodes (by simp at hlt; omega) (by rw [← hre]; exact hnd)
            (fun x hx => hlive x (List.mem_cons_of_mem _ hx))
        refine ⟨rl, nodes1, hrun, ?_, hlen1, ?_⟩
        · rw [List.filter_cons_of_pos (by simpa using hr)]
          simpa using hperm
        · intro a
          rw [hload a]
          by_cases har : a = r
          · subst har
            simp [hr]
          · simp [har]
      · simp only [hr, not_false_eq_true, if_true]
        obtain ⟨n, hn⟩ := hlive r (List.mem_cons_self _ _)
        simp only [hn]
        obtain ⟨suf2, hpop, hperm2⟩ := swap_pop pre r suf1
        rw [hpop]
        have hnd2 : (pre ++ suf2).Nodup := by
          have h1 : (pre ++ suf1).Nodup := by
            have hsub : (pre ++ suf1).Sublist (pre ++ r :: suf1) :=
              List.Sublist.append_left (List.sublist_cons_self r suf1) pre
            exact hnd.sublist hsub
          exact (List.Perm.nodup_iff (List.Perm.append_left pre hperm2)).mpr h1
        have hrnot : r ∉ suf1 := by
          have h1 : (r :: suf1).Nodup := (List.nodup_append.mp hnd).2.1
          exact (List.nodup_cons.mp h1).1
        have hlive2 : ∀ x ∈ suf2, ∃ n, load (release nodes r) x = some n := by
          intro x hx
          have hx1 : x ∈ suf1 := hperm2.subset hx
          have hxr : r ≠ x := fun e => hrnot (e ▸ hx1)
          rw [load_release_ne _ hxr]
          exact hlive x (List.mem_cons_of_mem _ hx1)
        obtain ⟨rl, nodes1, hrun, hperm, hlen1, hload⟩ :=
          ih pre suf2 (release nodes r)
            (by rw [hperm2.length_eq]; simp at hlt; omega) hnd2 hlive2
        refine ⟨rl, nodes1, hrun, ?_, ?_, ?_⟩
        · rw [List.filter_cons_of_neg (by simpa using hr)]
          exact hperm.trans (List.Perm.append_left pre (List.Perm.filter _ hperm2))
        · rw [hlen1, length_release]
        · intro a
          rw [hload a]
          by_cases har : a = r
          · subst har
            simp [hr, load_release_same]
          · have hmem : a ∈ suf2 ↔ a ∈ suf1 := hperm2.mem_iff
            rw [load_release_ne _ (Ne.symm har)]
            simp [har, hmem]

theorem scan_spec {T : Type} (q : Queue T) {L : List Nat}
    (hL : q.mempool.slotList = some L) (hnd : q.rlist.Nodup)
    (hlive : ∀ r ∈ q.rlist, ∃ n, load q.nodes r = some n) :
    ∃ (H rl : List Nat) (nodes1 : List (Option (Node T))),
      (∀ x, x ∈ H ↔ ∃ a ∈ L, ∃ hz, load q.mempool.slots a = some hz ∧ hz.ptr_ = some x) ∧
      Queue.scan q.mempool.head q = some { q with rlist := rl, nodes := nodes1 } ∧
      rl.Perm (q.rlist.filter (fun r => decide (r ∈ H))) ∧
      nodes1.length = q.nodes.length ∧
      ∀ a, load nodes1 a = if a ∈ q.rlist ∧ a ∉ H then none else load q.nodes a := by
  unfold HzdMemPool.slotList at hL
  cases hh : q.mempool.head_ with
  | none => simp [hh] at hL
  | some p0 =>
    simp only [hh] at hL
    obtain ⟨H, hH, hmem⟩ := collectHazards_spec hL []
    obtain ⟨rl, nodes1, hrun, hperm, hlen, hload⟩ :=
      scanLoop_spec H (q.rlist.length + 1) [] q.rlist q.nodes (Nat.lt_succ_self _)
        (by simpa using hnd) hlive
    refine ⟨H, rl, nodes1, ?_, ?_, by simpa using hperm, hlen, hload⟩
    · intro x
      rw [hmem x]
      simp
    · unfold Queue.scan HzdMemPool.head
      simp only [hh, hH]
      simp only [List.length_nil, List.nil_append] at hrun
      simp only [hrun]

/-- Outcome of `retire` on a state whose retire list, with `node` appended, has live and
pairwise distinct entries: it returns, the new retire list is a duplicate-free part of the
old one with `node`, its entries are still live, and only entries of that list were
deleted. -/
theorem retire_spec {T : Type} (k : Nat) (node : Nat) (q : Queue T) {L : List Nat}
    (hL : q.mempool.slotList = some L) (hnd : (q.rlist ++ [node]).Nodup)
    (hlive : ∀ r ∈ q.rlist ++ [node], ∃ n, load q.nodes r = some n) :
    ∃ rl nodes1, q.retire k node = some { q with rlist := rl, nodes := nodes1 } ∧
      rl.Nodup ∧ (∀ r ∈ rl, r ∈ q.rlist ++ [node]) ∧
      (∀ r ∈ rl, ∃ n, load nodes1 r = some n) ∧
      nodes1.length = q.nodes.length ∧
      ∀ a, a ∉ q.rlist ++ [node] → load nodes1 a = load q.nodes a := by
  unfold Queue.retire
  simp only
  split
  · obtain ⟨H, rl, nodes1, _, hscan, hperm, hlen, hload⟩ :=
      scan_spec { q with rlist := q.rlist ++ [node] } hL hnd hlive
    simp only at hscan hperm hlen hload
    refine ⟨rl, nodes1, hscan, ?_, ?_, ?_, hlen, ?_⟩
    · exact (List.Perm.nodup_iff hperm).mpr (hnd.filter _)
    · intro r hr
      exact (List.mem_filter.mp (hperm.subset hr)).1
    · intro r hr
      have hr1 := List.mem_filter.mp (hperm.subset hr)
      have hrH : r ∈ H := by simpa using hr1.2
      rw [hload r]
      simp only [hrH, not_true_eq_false, and_false, if_false]
      exact hlive r hr1.1
    · intro a ha
      rw [hload a]
      simp [ha]
  · exact ⟨q.rlist ++ [node], q.nodes, rfl, hnd, fun r hr => hr, hlive, rfl, fun a _ => rfl⟩

/-! ## Publishing a hazard -/

theorem publish_spec {m : HzdMemPool} {a : Nat} (h : ∃ hz, load m.slots a = some hz)
    (v : Option Nat) :
    ∃ m1, publish m (some a) v = some m1 ∧ m1.head_ = m.head_ ∧ m1.len_ = m.len_ ∧
      m1.slotList = m.slotList ∧ m1.slots.length = m.slots.length ∧
      (∀ c, (∃ hz, load m.slots c = some hz) → ∃ hz, load m1.slots c = some hz) ∧
      (∃ hz, load m1.slots a = some hz ∧ hz.ptr_ = v) ∧
      ∀ c, c ≠ a → load m1.slots c = load m.slots c := by
  obtain ⟨hz, hl⟩ := h
  refine ⟨_, publish_eq v hl, rfl, rfl, slotList_eq_of_store hl rfl, length_store _ _ _, ?_,
    ⟨_, load_store_same _ (load_lt hl), rfl⟩, ?_⟩
  · intro c hc
    by_cases hca : a = c
    · subst hca
      exact ⟨_, load_store_same _ (load_lt hl)⟩
    · simp only
      rw [load_store_ne _ _ hca]
      exact hc
  · intro c hc
    simp only
    rw [load_store_ne _ _ (Ne.symm hc)]

theorem PoolOK_publish {m m1 : HzdMemPool} {a b c : Nat} {v : Option Nat}
    (h : PoolOK m a b) (hp : publish m (some c) v = some m1) (hc : ∃ hz, load m.slots c = some hz) :
    PoolOK m1 a b := by
  obtain ⟨m2, hp2, _, _, hsl, _, hkeep, _, _⟩ := publish_spec hc v
  rw [hp] at hp2
  cases hp2
  obtain ⟨ha, hb, L, hL, haL, hbL⟩ := h
  exact ⟨hkeep a ha, hkeep b hb, L, by rw [hsl]; exact hL, haL, hbL⟩

/-! ## Chains of nodes -/

theorem size_succ_mod (n : Nat) : (n % SIZE_T_MOD + 1) % SIZE_T_MOD = (n + 1) % SIZE_T_MOD := by
  unfold SIZE_T_MOD
  omega

theorem size_pred_mod (n : Nat) :
    ((n + 1) % SIZE_T_MOD + SIZE_T_MOD - 1) % SIZE_T_MOD = n % SIZE_T_MOD := by
  unfold SIZE_T_MOD
  omega

theorem lastAddr_nil {T : Type} (s : Nat) : lastAddr s ([] : List (Nat × T)) = s := rfl

theorem lastAddr_cons {T : Type} (s : Nat) (e : Nat × T) (l : List (Nat × T)) :
    lastAddr s (e :: l) = lastAddr e.1 l := by
  unfold lastAddr
  cases l with
  | nil => rfl
  | cons e2 l2 =>
    rw [List.getLast?_cons_cons]
    have hx : (e2 :: l2).getLast? = some ((e2 :: l2).getLast (by simp)) :=
      List.getLast?_eq_getLast _ _
    rw [hx]

theorem lastAddr_mem {T : Type} (s : Nat) (l : List (Nat × T)) :
    lastAddr s l ∈ s :: l.map Prod.fst := by
  induction l generalizing s with
  | nil => simp [lastAddr_nil]
  | cons e l ih =>
    rw [lastAddr_cons]
    exact List.mem_cons_of_mem _ (by simpa using ih e.1)

theorem lastAddr_snoc {T : Type} (s : Nat) (l : List (Nat × T)) (e : Nat × T) :
    lastAddr s (l ++ [e]) = e.1 := by
  unfold lastAddr
  simp

theorem firstAddr_snoc {T : Type} (e : Nat × T) (l : List (Nat × T)) (x : Nat × T) :
    firstAddr ((e :: l) ++ [x]) = firstAddr (e :: l) := rfl

theorem linked_congr {T : Type} {n1 n2 : List (Option (Node T))} {l : List (Nat × T)}
    (h : linked n1 l) (hs : ∀ x ∈ l.map Prod.fst, load n2 x = load n1 x) : linked n2 l := by
  induction l with
  | nil => trivial
  | cons e l ih =>
    obtain ⟨h1, h2⟩ := h
    refine ⟨?_, ih h2 (fun x hx => hs x (by simp only [List.map_cons]; exact List.mem_cons_of_mem _ hx))⟩
    rw [hs e.1 (by simp)]
    exact h1

theorem linked_live {T : Type} {nodes : List (Option (Node T))} {l : List (Nat × T)}
    (h : linked nodes l) : ∀ x ∈ l.map Prod.fst, ∃ n, load nodes x = some n := by
  induction l with
  | nil => intro x hx; simp at hx
  | cons e l ih =>
    obtain ⟨h1, h2⟩ := h
    intro x hx
    simp only [List.map_cons, List.mem_cons] at hx
    rcases hx with rfl | hx
    · exact ⟨_, h1⟩
    · exact ih h2 x hx

theorem linked_last {T : Type} {nodes : List (Option (Node T))} (s : Nat) (sv : T)
    (l : List (Nat × T)) (h : linked nodes ((s, sv) :: l)) :
    ∃ tv, load nodes (lastAddr s l) = some { value := tv, next := none } := by
  induction l generalizing s sv with
  | nil => exact ⟨sv, h.1⟩
  | cons e l ih =>
    rw [lastAddr_cons]
    exact ih e.1 e.2 h.2

/-- Linking a newly allocated node behind the last node of a chain extends the chain. -/
theorem linked_snoc {T : Type} {nodes : List (Option (Node T))} (v tv : T) (s : Nat) (sv : T)
    (l : List (Nat × T)) (h : linked nodes ((s, sv) :: l))
    (hnd : (s :: l.map Prod.fst).Nodup)
    (ht : load nodes (lastAddr s l) = some { value := tv, next := none }) :
    linked (store (pushNew nodes { value := v, next := none }) (lastAddr s l)
        { value := tv, next := some (freshAddr nodes) })
      ((s, sv) :: l ++ [(freshAddr nodes, v)]) := by
  induction l generalizing s sv with
  | nil =>
    have hlt := load_lt h.1
    have hsv : tv = sv := by
      rw [lastAddr_nil, h.1] at ht
      simp only [Option.some.injEq, Node.mk.injEq, and_true] at ht
      exact ht.1.symm
    subst hsv
    refine ⟨?_, ?_, trivial⟩
    · rw [lastAddr_nil]
      apply load_store_same
      rw [length_pushNew]
      omega
    · rw [lastAddr_nil, load_store_ne _ _ (by unfold freshAddr; omega)]
      exact load_pushNew_fresh _ _
  | cons e l ih =>
    obtain ⟨h1, h2⟩ := h
    have hnd2 : (e.1 :: l.map Prod.fst).Nodup := by
      simp only [List.map_cons] at hnd
      exact (List.nodup_cons.mp hnd).2
    rw [lastAddr_cons] at ht ⊢
    have hrec := ih e.1 e.2 h2 hnd2 ht
    refine ⟨?_, hrec⟩
    have hs_ne : lastAddr e.1 l ≠ s := by
      intro heq
      have hmem := lastAddr_mem e.1 l
      rw [heq] at hmem
      simp only [List.map_cons] at hnd
      exact (List.nodup_cons.mp hnd).1 hmem
    rw [load_store_ne _ _ hs_ne, load_pushNew_old _ (load_lt h1)]
    exact h1

/-! ## One enqueue -/

theorem enqueueLoop_link {T : Type} (node fuel : Nat) (q : Queue T) (t a : Nat) (tn : Node T)
    (ht : q.tail = some t) (hl : load q.nodes t = some tn) (hn : tn.next = none)
    (ha : q.hptr_a = some a) (hla : ∃ hz, load q.mempool.slots a = some hz) :
    ∃ m1, publish q.mempool (some a) (some t) = some m1 ∧
      enqueueLoop node (fuel + 1) q =
        some ({ q with mempool := m1,
                       nodes := store q.nodes t { tn with next := some node } }, some t) := by
  obtain ⟨m1, hp1, _⟩ := publish_spec hla (some t)
  refine ⟨m1, hp1, ?_⟩
  unfold enqueueLoop
  simp only [ht, ha, hp1, hl, hn, ne_eq, not_true_eq_false, if_false, if_true]

/-- Effect of `enqueue` on a state satisfying the invariant: it returns, and the new node,
at the next fresh address, is the last element. -/
theorem enqueue_inv {T : Type} (fuel : Nat) (v : T) {q : Queue T} {s : Nat} {sv : T}
    {elems : List (Nat × T)} (h : QInv q s sv elems) :
    ∃ q1, q.enqueue (fuel + 1) v = some q1 ∧
      QInv q1 s sv (elems ++ [(freshAddr q.nodes, v)]) ∧
      q1.rlist = q.rlist ∧ q1.head = q.head ∧ q1.hptr_a = q.hptr_a ∧ q1.hptr_b = q.hptr_b := by
  obtain ⟨a, b, ha, hb, hpool⟩ := h.hazards
  obtain ⟨tv, htl⟩ := linked_last s sv elems h.chain
  have htlt := load_lt htl
  have hlive := linked_live h.chain
  have hlt : ∀ x ∈ s :: elems.map Prod.fst, x < q.nodes.length := by
    intro x hx
    obtain ⟨n, hn⟩ := hlive x (by simpa using hx)
    exact load_lt hn
  obtain ⟨m1, hp1, hloop⟩ := enqueueLoop_link (freshAddr q.nodes) fuel
    { q with nodes := pushNew q.nodes { value := v, next := none } }
    (lastAddr s elems) a { value := tv, next := none }
    h.tail_eq (by simp only; rw [load_pushNew_old _ htlt]; exact htl) rfl ha hpool.1
  simp only at hp1 hloop
  refine ⟨{ q with
      nodes := store (pushNew q.nodes { value := v, next := none }) (lastAddr s elems)
        { value := tv, next := some (freshAddr q.nodes) },
      mempool := m1, tail := some (freshAddr q.nodes),
      size_ := (q.size_ + 1) % SIZE_T_MOD }, ?_, ?_, rfl, rfl, rfl, rfl⟩
  · unfold Queue.enqueue
    simp only [hloop]
    simp only [h.tail_eq, if_true]
  · refine ⟨h.head_eq, ?_, ?_, ?_, ?_, h.rlist_nodup, ?_, ?_, ⟨a, b, ha, hb, ?_⟩⟩
    · exact linked_snoc v tv s sv elems h.chain h.nodup htl
    · simp only [lastAddr_snoc]
    · have hfresh : freshAddr q.nodes ∉ s :: elems.map Prod.fst := by
        intro hmem
        have := hlt _ hmem
        unfold freshAddr at this
        omega
      have hperm : (s :: (elems ++ [(freshAddr q.nodes, v)]).map Prod.fst).Perm
          (freshAddr q.nodes :: s :: elems.map Prod.fst) := by
        simp only [List.map_append, List.map_cons, List.map_nil]
        rw [← List.cons_append]
        exact List.perm_append_singleton _ _
      exact (List.Perm.nodup_iff hperm).mpr (List.nodup_cons.mpr ⟨hfresh, h.nodup⟩)
    · simp only [List.length_append, List.length_singleton]
      rw [h.size_eq]
      exact size_succ_mod _
    · intro r hr
      obtain ⟨n, hn⟩ := h.rlist_live r hr
      have hne : lastAddr s elems ≠ r := by
        intro heq
        exact h.rlist_disj r hr (heq ▸ lastAddr_mem s elems)
      refine ⟨n, ?_⟩
      simp only
      rw [load_store_ne _ _ hne, load_pushNew_old _ (load_lt hn)]
      exact hn
    · intro r hr hmem
      simp only [List.map_append, List.map_cons, List.map_nil, List.mem_cons, List.mem_append,
        List.mem_singleton, List.not_mem_nil, or_false] at hmem
      obtain ⟨n, hn⟩ := h.rlist_live r hr
      have hrlt := load_lt hn
      rcases hmem with hrs | hre | hrf
      · exact h.rlist_disj r hr (by rw [hrs]; exact List.mem_cons_self _ _)
      · exact h.rlist_disj r hr (List.mem_cons_of_mem _ hre)
      · unfold freshAddr at hrf
        omega
    · exact PoolOK_publish hpool hp1 hpool.1

/-! ## One dequeue -/

theorem dequeueLoop_empty {T : Type} (fuel : Nat) (q : Queue T) {f a b : Nat} {fn : Node T}
    (hh : q.head = some f) (hf : load q.nodes f = some fn) (hn : fn.next = none)
    (ha : q.hptr_a = some a) (hb : q.hptr_b = some b)
    (hla : ∃ hz, load q.mempool.slots a = some hz)
    (hlb : ∃ hz, load q.mempool.slots b = some hz) :
    ∃ m1 m2, publish q.mempool (some a) (some f) = some m1 ∧
      publish m1 (some b) none = some m2 ∧
      dequeueLoop (fuel + 1) q = some ({ q with mempool := m2 }, none) := by
  obtain ⟨m1, hp1, _, _, _, _, hkeep1, _, _⟩ := publish_spec hla (some f)
  obtain ⟨m2, hp2, _⟩ := publish_spec (hkeep1 b hlb) none
  refine ⟨m1, m2, hp1, hp2, ?_⟩
  unfold dequeueLoop
  simp only [hh, ha, hp1, hb, hf, hn, hp2, ne_eq, not_true_eq_false, if_false]

theorem dequeueLoop_take {T : Type} (fuel : Nat) (q : Queue T) {f n a b : Nat}
    (fn : Node T) {nn : Node T}
    (hh : q.head = some f) (hf : load q.nodes f = some fn) (hn : fn.next = some n)
    (ht : q.tail ≠ some f) (hnn : load q.nodes n = some nn)
    (ha : q.hptr_a = some a) (hb : q.hptr_b = some b)
    (hla : ∃ hz, load q.mempool.slots a = some hz)
    (hlb : ∃ hz, load q.mempool.slots b = some hz) :
    ∃ m1 m2, publish q.mempool (some a) (some f) = some m1 ∧
      publish m1 (some b) (some n) = some m2 ∧
      dequeueLoop (fuel + 1) q =
        some ({ q with mempool := m2, head := some n }, some (nn.value, f)) := by
  obtain ⟨m1, hp1, _, _, _, _, hkeep1, _, _⟩ := publish_spec hla (some f)
  obtain ⟨m2, hp2, _⟩ := publish_spec (hkeep1 b hlb) (some n)
  refine ⟨m1, m2, hp1, hp2, ?_⟩
  have ht2 : ¬ some f = q.tail := fun e => ht e.symm
  unfold dequeueLoop
  simp only [hh, ha, hp1, hb, hf, hn, hp2, hnn, ht2, ne_eq, not_true_eq_false, if_false,
    if_true]

/-- Effect of `dequeue` on an empty queue satisfying the invariant: it returns the empty
optional and only the payloads of the two hazard slots may have changed. -/
theorem dequeue_nil_inv {T : Type} (k fuel : Nat) {q : Queue T} {s : Nat} {sv : T}
    (h : QInv q s sv []) :
    ∃ q1, q.dequeue k (fuel + 1) = some (none, q1) ∧ QInv q1 s sv [] ∧
      q1.nodes = q.nodes ∧ q1.rlist = q.rlist ∧ q1.size_ = q.size_ := by
  obtain ⟨a, b, ha, hb, hpool⟩ := h.hazards
  obtain ⟨m1, m2, hp1, hp2, hloop⟩ :=
    dequeueLoop_empty fuel q h.head_eq h.chain.1 rfl ha hb hpool.1 hpool.2.1
  have hpool1 := PoolOK_publish hpool hp1 hpool.1
  have hpool2 := PoolOK_publish hpool1 hp2 hpool1.2.1
  refine ⟨{ q with mempool := m2 }, ?_, ?_, rfl, rfl, rfl⟩
  · unfold Queue.dequeue
    simp only [hloop]
  · exact ⟨h.head_eq, h.chain, h.tail_eq, h.nodup, h.size_eq, h.rlist_nodup, h.rlist_live,
      h.rlist_disj, ⟨a, b, ha, hb, hpool2⟩⟩

/-- Effect of `dequeue` on a non-empty queue satisfying the invariant: it returns the value
of the first element, whose node becomes the sentinel. -/
theorem dequeue_cons_inv {T : Type} (k fuel : Nat) {q : Queue T} {s : Nat} {sv : T}
    {e : Nat × T} {rest : List (Nat × T)} (h : QInv q s sv (e :: rest)) :
    ∃ q1, q.dequeue k (fuel + 1) = some (some e.2, q1) ∧ QInv q1 e.1 e.2 rest := by
  obtain ⟨a, b, ha, hb, hpool⟩ := h.hazards
  have hnd := h.nodup
  simp only [List.map_cons] at hnd
  have hs_notin : s ∉ e.1 :: rest.map Prod.fst := (List.nodup_cons.mp hnd).1
  have hnd2 : (e.1 :: rest.map Prod.fst).Nodup := (List.nodup_cons.mp hnd).2
  have htail : q.tail ≠ some s := by
    rw [h.tail_eq, lastAddr_cons]
    intro heq
    have hmem := lastAddr_mem e.1 rest
    rw [Option.some.inj heq] at hmem
    exact hs_notin hmem
  obtain ⟨m1, m2, hp1, hp2, hloop⟩ :=
    dequeueLoop_take fuel q { value := sv, next := firstAddr (e :: rest) }
      h.head_eq h.chain.1 rfl htail h.chain.2.1 ha hb hpool.1 hpool.2.1
  have hpool1 := PoolOK_publish hpool hp1 hpool.1
  have hpool2 := PoolOK_publish hpool1 hp2 hpool1.2.1
  obtain ⟨L, hL, _, _⟩ := hpool2.2.2
  have hs_notin_r : s ∉ q.rlist := fun hr => h.rlist_disj s hr (List.mem_cons_self _ _)
  have hrnd : (q.rlist ++ [s]).Nodup := by
    rw [List.nodup_append]
    refine ⟨h.rlist_nodup, List.nodup_singleton s, ?_⟩
    intro x hx hxs
    rw [List.mem_singleton] at hxs
    subst hxs
    exact hs_notin_r hx
  have hrlive : ∀ r ∈ q.rlist ++ [s], ∃ n, load q.nodes r = some n := by
    intro r hr
    rcases List.mem_append.mp hr with hr1 | hr1
    · exact h.rlist_live r hr1
    · rw [List.mem_singleton] at hr1
      subst hr1
      exact ⟨_, h.chain.1⟩
  obtain ⟨rl, nodes1, hret, hrl_nd, hrl_sub, hrl_live, _, hframe⟩ :=
    retire_spec k s { q with mempool := m2, head := some e.1 } hL hrnd hrlive
  simp only at hret hrl_sub hframe
  have hrl_disj : ∀ r ∈ rl, r ∉ e.1 :: rest.map Prod.fst := by
    intro r hr hmem
    rcases List.mem_append.mp (hrl_sub r hr) with hr1 | hr1
    · exact h.rlist_disj r hr1 (List.mem_cons_of_mem _ (by simpa using hmem))
    · rw [List.mem_singleton] at hr1
      subst hr1
      exact hs_notin hmem
  refine ⟨{ q with mempool := m2, head := some e.1, rlist := rl, nodes := nodes1,
                   size_ := (q.size_ + SIZE_T_MOD - 1) % SIZE_T_MOD }, ?_, ?_⟩
  · unfold Queue.dequeue
    simp only [hloop, hret]
  · refine ⟨rfl, ?_, ?_, hnd2, ?_, hrl_nd, hrl_live, hrl_disj, ⟨a, b, ha, hb, hpool2⟩⟩
    · apply linked_congr h.chain.2
      intro x hx
      apply hframe
      intro hmem
      rcases List.mem_append.mp hmem with hr1 | hr1
      · exact h.rlist_disj x hr1 (List.mem_cons_of_mem _ (by simpa using hx))
      · rw [List.mem_singleton] at hr1
        subst hr1
        exact hs_notin (by simpa using hx)
    · simp only
      rw [h.tail_eq, lastAddr_cons]
    · simp only
      rw [h.size_eq]
      exact size_pred_mod _

/-! ## Runs from a new queue -/

theorem new_inv (T : Type) [Inhabited T] :
    ∃ q0, Queue.new T = some q0 ∧ QInv q0 0 default [] ∧ q0.nodes.length = 1 := by
  refine ⟨_, rfl, ?_, rfl⟩
  refine ⟨rfl, ⟨rfl, trivial⟩, rfl, by simp, rfl, List.nodup_nil, ?_, ?_, ⟨1, 2, rfl, rfl, ?_⟩⟩
  · intro r hr
    cases hr
  · intro r hr
    cases hr
  · exact ⟨⟨_, rfl⟩, ⟨_, rfl⟩, [2, 1, 0], rfl, by simp, by simp⟩

theorem enqueueAll_inv {T : Type} (fuel : Nat) (xs : List T) :
    ∀ {q : Queue T} {s : Nat} {sv : T} {elems : List (Nat × T)}, QInv q s sv elems →
      ∃ q1 added, enqueueAll (fuel + 1) xs q = some q1 ∧ QInv q1 s sv (elems ++ added) ∧
        added.map Prod.snd = xs ∧ q1.rlist = q.rlist ∧ q1.head = q.head := by
  induction xs with
  | nil =>
    intro q s sv elems h
    exact ⟨q, [], rfl, by simpa using h, rfl, rfl, rfl⟩
  | cons x xs ih =>
    intro q s sv elems h
    obtain ⟨q1, he, hinv, hr1, hh1, _, _⟩ := enqueue_inv fuel x h
    obtain ⟨q2, added, hrun, hinv2, hmap, hr2, hh2⟩ := ih hinv
    refine ⟨q2, (freshAddr q.nodes, x) :: added, ?_, ?_, ?_, hr2.trans hr1, hh2.trans hh1⟩
    · simp only [enqueueAll, he, hrun]
    · simpa using hinv2
    · simp [hmap]

theorem dequeueN_inv {T : Type} (k fuel : Nat) (elems : List (Nat × T)) :
    ∀ {q : Queue T} {s : Nat} {sv : T}, QInv q s sv elems →
      ∃ q1 s1 sv1, dequeueN k (fuel + 1) elems.length q =
          some (elems.map (fun e => some e.2), q1) ∧ QInv q1 s1 sv1 [] := by
  induction elems with
  | nil =>
    intro q s sv h
    exact ⟨q, s, sv, rfl, h⟩
  | cons e rest ih =>
    intro q s sv h
    obtain ⟨q1, hd, hinv⟩ := dequeue_cons_inv k fuel h
    obtain ⟨q2, s2, sv2, hrun, hinv2⟩ := ih hinv
    refine ⟨q2, s2, sv2, ?_, hinv2⟩
    simp only [List.length_cons, dequeueN, hd, hrun, List.map_cons]

theorem dequeueN_append {T : Type} (k fuel : Nat) (n1 n2 : Nat) :
    ∀ {q q1 q2 : Queue T} {o1 o2 : List (Option T)},
      dequeueN k fuel n1 q = some (o1, q1) → dequeueN k fuel n2 q1 = some (o2, q2) →
      dequeueN k fuel (n1 + n2) q = some (o1 ++ o2, q2) := by
  induction n1 with
  | zero =>
    intro q q1 q2 o1 o2 h1 h2
    simp only [dequeueN, Option.some.injEq, Prod.mk.injEq] at h1
    obtain ⟨rfl, rfl⟩ := h1
    simpa using h2
  | succ n ih =>
    intro q q1 q2 o1 o2 h1 h2
    rw [Nat.add_right_comm]
    unfold dequeueN at h1 ⊢
    cases hd : q.dequeue k fuel with
    | none => simp [hd] at h1
    | some rq =>
      obtain ⟨r, q3⟩ := rq
      simp only [hd] at h1 ⊢
      cases hr : dequeueN k fuel n q3 with
      | none => simp [hr] at h1
      | some oq =>
        obtain ⟨o3, q4⟩ := oq
        simp only [hr, Option.some.injEq, Prod.mk.injEq] at h1
        obtain ⟨rfl, rfl⟩ := h1
        rw [ih hr h2]
        rfl

theorem runOps_inv {T : Type} (k fuel : Nat) (ops : List (QueueOp T)) :
    ∀ {q : Queue T} {s : Nat} {sv : T} {elems : List (Nat × T)}, QInv q s sv elems →
      ∃ outs q1 s1 sv1 elems1, runOps k (fuel + 1) ops q = some (outs, q1) ∧
        QInv q1 s1 sv1 elems1 ∧
        elems1.length + countDequeued outs = elems.length + countEnqueues ops := by
  induction ops with
  | nil =>
    intro q s sv elems h
    exact ⟨[], q, s, sv, elems, rfl, h, rfl⟩
  | cons op ops ih =>
    intro q s sv elems h
    cases op with
    | enqueue v =>
      obtain ⟨q1, he, hinv, _⟩ := enqueue_inv fuel v h
      obtain ⟨outs, q2, s2, sv2, elems2, hrun, hinv2, hcount⟩ := ih hinv
      refine ⟨outs, q2, s2, sv2, elems2, ?_, hinv2, ?_⟩
      · simp only [runOps, he, hrun]
      · simp only [List.length_append, List.length_singleton] at hcount
        simp only [countEnqueues]
        omega
    | dequeue =>
      cases elems with
      | nil =>
        obtain ⟨q1, hd, hinv, _⟩ := dequeue_nil_inv k fuel h
        obtain ⟨outs, q2, s2, sv2, elems2, hrun, hinv2, hcount⟩ := ih hinv
        refine ⟨none :: outs, q2, s2, sv2, elems2, ?_, hinv2, ?_⟩
        · simp only [runOps, hd, hrun]
        · simpa [countDequeued, countEnqueues] using hcount
      | cons e rest =>
        obtain ⟨q1, hd, hinv⟩ := dequeue_cons_inv k fuel h
        obtain ⟨outs, q2, s2, sv2, elems2, hrun, hinv2, hcount⟩ := ih hinv
        refine ⟨some e.2 :: outs, q2, s2, sv2, elems2, ?_, hinv2, ?_⟩
        · simp only [runOps, hd, hrun]
        · simp only [countDequeued, countEnqueues, List.length_cons]
          omega

theorem countEnqueues_take_le {T : Type} (ops : List (QueueOp T)) (n : Nat) :
    countEnqueues (ops.take n) ≤ countEnqueues ops := by
  induction ops generalizing n with
  | nil => simp [countEnqueues]
  | cons op ops ih =>
    cases n with
    | zero => simp [countEnqueues]
    | succ n =>
      cases op with
      | enqueue v =>
        simp only [List.take_succ_cons, countEnqueues]
        exact Nat.succ_le_succ (ih n)
      | dequeue =>
        simp only [List.take_succ_cons, countEnqueues]
        exact ih n

theorem valuesFrom_linked {T : Type} {nodes : List (Option (Node T))} (l : List (Nat × T))
    (h : linked nodes l) : valuesFrom l.length nodes (firstAddr l) = some (l.map Prod.snd) := by
  induction l with
  | nil => rfl
  | cons e l ih =>
    obtain ⟨h1, h2⟩ := h
    show valuesFrom (l.length + 1) nodes (some e.1) = _
    unfold valuesFrom
    simp only [h1, ih h2, Option.map_some', List.map_cons]

theorem QInv.size_exact {T : Type} {q : Queue T} {s : Nat} {sv : T} {elems : List (Nat × T)}
    (h : QInv q s sv elems) (hlt : elems.length < SIZE_T_MOD) : q.size = elems.length := by
  unfold Queue.size
  rw [h.size_eq]
  exact Nat.mod_eq_of_lt hlt

theorem QInv.begin_eq {T : Type} {q : Queue T} {s : Nat} {sv : T} {elems : List (Nat × T)}
    (h : QInv q s sv elems) : q.begin = some (firstAddr elems) := by
  unfold Queue.begin
  simp only [h.head_eq, h.chain.1, Option.map_some']

/-! ## Published payloads and the slot counter -/

theorem mem_publishedPayloads {slots : List (Option Hzd)} {L : List Nat} {x : Nat} :
    x ∈ publishedPayloads slots L ↔
      ∃ a ∈ L, ∃ hz, load slots a = some hz ∧ hz.ptr_ = some x := by
  unfold publishedPayloads
  rw [List.mem_filterMap]
  constructor
  · rintro ⟨a, ha, hb⟩
    cases hl : load slots a with
    | none => simp [hl] at hb
    | some hz =>
      rw [hl] at hb
      exact ⟨a, ha, hz, hl, hb⟩
  · rintro ⟨a, ha, hz, hl, hp⟩
    exact ⟨a, ha, by rw [hl]; exact hp⟩

/-- Relation between `len_` and the slot list that `alloc` and `free` maintain. -/
theorem counter_runPool (ops : List PoolOp) :
    ∀ {m m1 : HzdMemPool} {L : List Nat}, m.slotList = some L →
      m.len_ = (L.length - 1) % SIZE_T_MOD → 1 ≤ L.length → runPool ops m = some m1 →
      ∃ L1, m1.slotList = some L1 ∧ m1.len_ = (L1.length - 1) % SIZE_T_MOD ∧
        1 ≤ L1.length := by
  induction ops with
  | nil =>
    intro m m1 L hL hlen hpos hrun
    simp only [runPool, Option.some.injEq] at hrun
    subst hrun
    exact ⟨L, hL, hlen, hpos⟩
  | cons op ops ih =>
    intro m m1 L hL hlen hpos hrun
    cases op with
    | alloc =>
      rcases alloc_cases hL with ⟨a, hz, _, hla, _, hal⟩ | ⟨_, hal⟩
      · simp only [runPool, hal] at hrun
        exact ih (slotList_claimed hL hla) hlen hpos hrun
      · simp only [runPool, hal] at hrun
        refine ih (slotList_grown hL) ?_ (by simp) hrun
        show (m.len_ + 1) % SIZE_T_MOD = _
        rw [hlen]
        simp only [List.length_cons, Nat.add_sub_cancel]
        have h1 := size_succ_mod (L.length - 1)
        rw [Nat.sub_add_cancel hpos] at h1
        exact h1
    | free r =>
      cases r with
      | none => simp [runPool, HzdMemPool.free] at hrun
      | some a =>
        cases hla : load m.slots a with
        | none => simp [runPool, HzdMemPool.free, hla] at hrun
        | some ha =>
          simp only [runPool, free_eq hla] at hrun
          have hsl : HzdMemPool.slotList
              { slots := store m.slots a { next_ := ha.next_, ptr_ := none, active_ := false },
                head_ := m.head_, len_ := m.len_ } = some L :=
            slotList_store hL hla rfl
          exact ih hsl hlen hpos hrun

/-! ## The destructor of the pool -/

theorem slotsFrom_det {slots : List (Option Hzd)} (f1 : Nat) :
    ∀ (f2 p : Nat) (L1 L2 : List Nat), slotsFrom f1 slots p = some L1 →
      slotsFrom f2 slots p = some L2 → L1 = L2 := by
  induction f1 with
  | zero => intro f2 p L1 L2 h1; simp [slotsFrom] at h1
  | succ f ih =>
    intro f2 p L1 L2 h1 h2
    cases f2 with
    | zero => simp [slotsFrom] at h2
    | succ g =>
      obtain ⟨hz, hl, hc⟩ := slotsFrom_succ h1
      obtain ⟨hz2, hl2, hc2⟩ := slotsFrom_succ h2
      rw [hl] at hl2
      cases hl2
      rcases hc with ⟨hn, hL⟩ | ⟨q, M1, hn, hr, hL⟩
      · rcases hc2 with ⟨_, hL2⟩ | ⟨q2, M2, hn2, _, _⟩
        · rw [hL, hL2]
        · rw [hn] at hn2
          cases hn2
      · rcases hc2 with ⟨hn2, _⟩ | ⟨q2, M2, hn2, hr2, hL2⟩
        · rw [hn] at hn2
          cases hn2
        · rw [hn] at hn2
          cases hn2
          rw [hL, hL2, ih g q M1 M2 hr hr2]

theorem slotsFrom_suffix {slots : List (Option Hzd)} (f : Nat) :
    ∀ (p : Nat) (L : List Nat), slotsFrom f slots p = some L →
      ∀ x ∈ L, ∃ g M, slotsFrom g slots x = some M ∧ M.length ≤ L.length := by
  induction f with
  | zero => intro p L h; simp [slotsFrom] at h
  | succ f ih =>
    intro p L h x hx
    obtain ⟨hz, hl, hc⟩ := slotsFrom_succ h
    rcases hc with ⟨_, hL⟩ | ⟨q, L1, _, hr, hL⟩
    · subst hL
      rw [List.mem_singleton] at hx
      subst hx
      exact ⟨f + 1, [x], h, Nat.le_refl _⟩
    · subst hL
      rcases List.mem_cons.mp hx with rfl | hx1
      · exact ⟨f + 1, _, h, Nat.le_refl _⟩
      · obtain ⟨g, M, hM, hle⟩ := ih q L1 hr x hx1
        exact ⟨g, M, hM, by simp only [List.length_cons]; omega⟩

/-- A slot list that ends at a null link visits no slot twice. -/
theorem slotsFrom_nodup {slots : List (Option Hzd)} (f : Nat) :
    ∀ (p : Nat) (L : List Nat), slotsFrom f slots p = some L → L.Nodup := by
  induction f with
  | zero => intro p L h; simp [slotsFrom] at h
  | succ f ih =>
    intro p L h
    obtain ⟨hz, hl, hc⟩ := slotsFrom_succ h
    rcases hc with ⟨_, hL⟩ | ⟨q, L1, _, hr, hL⟩
    · subst hL
      exact List.nodup_singleton p
    · subst hL
      refine List.nodup_cons.mpr ⟨?_, ih q L1 hr⟩
      intro hmem
      obtain ⟨g, M, hM, hle⟩ := slotsFrom_suffix f q L1 hr p hmem
      have := slotsFrom_det (f + 1) g p _ _ h hM
      rw [← this] at hle
      simp only [List.length_cons] at hle
      omega

/-- On a well-formed slot list the destructor returns, deletes the slots of the list in
list order and leaves every other cell of slot storage as it was. -/
theorem destroyLoop_spec (f : Nat) :
    ∀ (slots : List (Option Hzd)) (p : Nat) (L : List Nat), slotsFrom f slots p = some L →
      ∃ slots1, destroyLoop f slots p = some (L, slots1) ∧
        (∀ a ∈ L, load slots1 a = none) ∧ (∀ a, a ∉ L → load slots1 a = load slots a) ∧
        slots1.length = slots.length := by
  induction f with
  | zero => intro slots p L h; simp [slotsFrom] at h
  | succ f ih =>
    intro slots p L h
    have hnd := slotsFrom_nodup (f + 1) p L h
    obtain ⟨hz, hl, hc⟩ := slotsFrom_succ h
    rcases hc with ⟨hn, hL⟩ | ⟨q, L1, hn, hr, hL⟩
    · subst hL
      refine ⟨release slots p, ?_, ?_, ?_, length_release _ _⟩
      · unfold destroyLoop
        simp only [hl, hn]
      · intro a ha
        rw [List.mem_singleton] at ha
        subst ha
        exact load_release_same _ _
      · intro a ha
        rw [List.mem_singleton] at ha
        exact load_release_ne _ (Ne.symm ha)
    · subst hL
      have hp : p ∉ L1 := (List.nodup_cons.mp hnd).1
      have hr2 : slotsFrom f (release slots p) q = some L1 := by
        apply slotsFrom_congr hr
        intro a ha hza hla
        have hne : p ≠ a := fun e => hp (e ▸ ha)
        exact ⟨hza, by rw [load_release_ne _ hne]; exact hla, rfl⟩
      obtain ⟨slots1, hd, hdel, hkeep, hlen⟩ := ih (release slots p) q L1 hr2
      refine ⟨slots1, ?_, ?_, ?_, by rw [hlen, length_release]⟩
      · unfold destroyLoop
        simp only [hl, hn, hd]
      · intro a ha
        rcases List.mem_cons.mp ha with rfl | ha1
        · rw [hkeep a hp]
          exact load_release_same _ _
        · exact hdel a ha1
      · intro a ha
        have hne : p ≠ a := fun e => ha (e ▸ List.mem_cons_self _ _)
        have ha1 : a ∉ L1 := fun e => ha (List.mem_cons_of_mem _ e)
        rw [hkeep a ha1, load_release_ne _ hne]

/-! # Verified claims -/

/-- C1: for every list `xs`, enqueuing its elements in order onto a new queue and then
calling `dequeue` `|xs| + 1` times returns, and the returned optionals are the elements of
`xs` in the same order followed by one empty optional; this holds for every value of
`RLIST_SCALE_FACTOR` and whenever each retry loop may run at least once. -/
theorem fifo_single_thread {T : Type} [Inhabited T] (RLIST_SCALE_FACTOR fuel : Nat)
    (xs : List T) :
    enqueueThenDequeue RLIST_SCALE_FACTOR (fuel + 1) xs (xs.length + 1) =
      some (xs.map some ++ [none]) := by
  obtain ⟨q0, hnew, hinv0, _⟩ := new_inv T
  obtain ⟨q1, added, henq, hinv1, hmap, _, _⟩ := enqueueAll_inv fuel xs hinv0
  simp only [List.nil_append] at hinv1
  obtain ⟨q2, s2, sv2, hdeq, hinv2⟩ := dequeueN_inv RLIST_SCALE_FACTOR fuel added hinv1
  obtain ⟨q3, hlast, _⟩ := dequeue_nil_inv RLIST_SCALE_FACTOR fuel hinv2
  have hone : dequeueN RLIST_SCALE_FACTOR (fuel + 1) 1 q2 = some ([none], q3) := by
    simp only [dequeueN, hlast]
  have hall := dequeueN_append RLIST_SCALE_FACTOR (fuel + 1) added.length 1 hdeq hone
  have hlen : added.length = xs.length := by
    rw [← hmap, List.length_map]
  have hvals : added.map (fun e => some e.2) = xs.map some := by
    rw [← hmap, List.map_map]
    rfl
  rw [hlen, hvals] at hall
  unfold enqueueThenDequeue
  simp only [hnew, henq, hall]

/-- C2: in a state whose `head` node has a null `next` (and whose two hazard slots are
usable), `dequeue` returns the empty optional and leaves `head`, `tail`, `size_`, the node
storage and the retire list unchanged; only the payloads of the hazard slots are written. -/
theorem dequeue_on_empty_changes_nothing {T : Type} (RLIST_SCALE_FACTOR fuel : Nat)
    (q : Queue T) (f a b : Nat) (fn : Node T)
    (hh : q.head = some f) (hf : load q.nodes f = some fn) (hn : fn.next = none)
    (ha : q.hptr_a = some a) (hb : q.hptr_b = some b)
    (hla : ∃ hz, load q.mempool.slots a = some hz)
    (hlb : ∃ hz, load q.mempool.slots b = some hz) :
    ∃ q1, q.dequeue RLIST_SCALE_FACTOR (fuel + 1) = some (none, q1) ∧
      q1.head = q.head ∧ q1.tail = q.tail ∧ q1.size_ = q.size_ ∧ q1.nodes = q.nodes ∧
      q1.rlist = q.rlist ∧ q1.hptr_a = q.hptr_a ∧ q1.hptr_b = q.hptr_b ∧
      q1.mempool.head = q.mempool.head ∧ q1.mempool.length = q.mempool.length ∧
      q1.mempool.slotList = q.mempool.slotList := by
  obtain ⟨m1, hp1, hhd1, hln1, hsl1, _, hkeep1, _, _⟩ := publish_spec hla (some f)
  obtain ⟨m2, hp2, hhd2, hln2, hsl2, _⟩ := publish_spec (hkeep1 b hlb) none
  obtain ⟨m3, m4, hp3, hp4, hloop⟩ := dequeueLoop_empty fuel q hh hf hn ha hb hla hlb
  rw [hp1] at hp3
  cases hp3
  rw [hp2] at hp4
  cases hp4
  refine ⟨{ q with mempool := m2 }, ?_, rfl, rfl, rfl, rfl, rfl, rfl, rfl, ?_, ?_, ?_⟩
  · unfold Queue.dequeue
    simp only [hloop]
  · show m2.head_ = q.mempool.head_
    rw [hhd2, hhd1]
  · show m2.len_ = q.mempool.len_
    rw [hln2, hln1]
  · show m2.slotList = q.mempool.slotList
    rw [hsl2, hsl1]

/-- Instance of C2 on the state reached by `enqueue(7)` and one `dequeue` on a new queue. -/
theorem dequeue_on_empty_changes_nothing_witness :
    runFresh 2 1 [QueueOp.enqueue 7, QueueOp.dequeue] = some ([some 7], drainedQueue) ∧
    drainedQueue.head = some 1 ∧
    load drainedQueue.nodes 1 = some { value := 7, next := none } ∧
    ∃ q1, drainedQueue.dequeue 2 1 = some (none, q1) ∧ q1.head = drainedQueue.head ∧
      q1.tail = drainedQueue.tail ∧ q1.size_ = drainedQueue.size_ ∧
      q1.nodes = drainedQueue.nodes ∧ q1.rlist = drainedQueue.rlist := by
  refine ⟨by decide, rfl, rfl, ?_⟩
  obtain ⟨q1, hd, h1, h2, h3, h4, h5, _⟩ :=
    dequeue_on_empty_changes_nothing 2 0 drainedQueue 1 1 2 { value := 7, next := none }
      rfl rfl rfl rfl rfl ⟨_, rfl⟩ ⟨_, rfl⟩
  exact ⟨q1, hd, h1, h2, h3, h4, h5⟩

/-- C3: on a new queue used by one thread, after every prefix of a sequence of calls with
fewer than `2 ^ 64` enqueues, the run has returned, the number `M` of successful dequeues
is at most the number `N` of enqueues, and `size()` is exactly `N - M`; a dequeue on an
empty queue is not counted.  Since this holds after every prefix, every decrement took the
counter from a positive value to its predecessor: it never wrapped below zero. -/
theorem size_is_enqueues_minus_dequeues {T : Type} [Inhabited T]
    (RLIST_SCALE_FACTOR fuel : Nat) (ops : List (QueueOp T))
    (hN : countEnqueues ops < SIZE_T_MOD) (n : Nat) :
    ∃ outs q, runFresh RLIST_SCALE_FACTOR (fuel + 1) (ops.take n) = some (outs, q) ∧
      countDequeued outs ≤ countEnqueues (ops.take n) ∧
      q.size = countEnqueues (ops.take n) - countDequeued outs := by
  obtain ⟨q0, hnew, hinv0, _⟩ := new_inv T
  obtain ⟨outs, q1, s1, sv1, elems1, hrun, hinv1, hcount⟩ :=
    runOps_inv RLIST_SCALE_FACTOR fuel (ops.take n) hinv0
  simp only [List.length_nil, Nat.zero_add] at hcount
  have hle := countEnqueues_take_le ops n
  refine ⟨outs, q1, ?_, by omega, ?_⟩
  · unfold runFresh
    simp only [hnew, hrun]
  · rw [hinv1.size_exact (by omega)]
    omega

/-- Instance of C3: two enqueues and three dequeues, the last one on an empty queue. -/
theorem size_is_enqueues_minus_dequeues_witness :
    countEnqueues [QueueOp.enqueue 5, QueueOp.dequeue, QueueOp.enqueue 6, QueueOp.dequeue,
      QueueOp.dequeue] < SIZE_T_MOD ∧
    ∃ outs q, runFresh 2 1 ([QueueOp.enqueue 5, QueueOp.dequeue, QueueOp.enqueue 6,
        QueueOp.dequeue, QueueOp.dequeue].take 5) = some (outs, q) ∧
      countDequeued outs ≤ countEnqueues ([QueueOp.enqueue 5, QueueOp.dequeue,
        QueueOp.enqueue 6, QueueOp.dequeue, QueueOp.dequeue].take 5) ∧
      q.size = countEnqueues ([QueueOp.enqueue 5, QueueOp.dequeue, QueueOp.enqueue 6,
        QueueOp.dequeue, QueueOp.dequeue].take 5) - countDequeued outs :=
  ⟨by decide, size_is_enqueues_minus_dequeues (T := Nat) 2 0 _ (by decide) 5⟩

/-- C4: in every state reached from a new queue by a sequence of calls with fewer than
`2 ^ 64` enqueues, `empty()` is true exactly when no node follows the sentinel, and exactly
when the next `dequeue` returns the empty optional; and after enqueuing a list `xs` of
fewer than `2 ^ 64` elements onto a new queue, `empty()` equals `xs.isEmpty`. -/
theorem empty_iff_no_element {T : Type} [Inhabited T] (RLIST_SCALE_FACTOR fuel : Nat)
    (ops : List (QueueOp T)) (xs : List T)
    (hN : countEnqueues ops < SIZE_T_MOD) (hx : xs.length < SIZE_T_MOD) :
    (∃ outs q r q2, runFresh RLIST_SCALE_FACTOR (fuel + 1) ops = some (outs, q) ∧
      q.dequeue RLIST_SCALE_FACTOR (fuel + 1) = some (r, q2) ∧
      (q.empty = true ↔ q.begin = some none) ∧ (q.empty = true ↔ r = none)) ∧
    (∃ q, enqueued (fuel + 1) xs = some q ∧ q.empty = xs.isEmpty) := by
  obtain ⟨q0, hnew, hinv0, _⟩ := new_inv T
  constructor
  · obtain ⟨outs, q1, s1, sv1, elems1, hrun, hinv1, hcount⟩ :=
      runOps_inv RLIST_SCALE_FACTOR fuel ops hinv0
    simp only [List.length_nil, Nat.zero_add] at hcount
    have hsize := hinv1.size_exact (by omega)
    have hempty : q1.empty = true ↔ elems1 = [] := by
      unfold Queue.empty
      unfold Queue.size at hsize
      rw [hsize]
      simp
    have hrunF : runFresh RLIST_SCALE_FACTOR (fuel + 1) ops = some (outs, q1) := by
      unfold runFresh
      simp only [hnew, hrun]
    cases elems1 with
    | nil =>
      obtain ⟨q2, hd, _⟩ := dequeue_nil_inv RLIST_SCALE_FACTOR fuel hinv1
      refine ⟨outs, q1, none, q2, hrunF, hd, ?_, ?_⟩
      · rw [hempty, hinv1.begin_eq]
        simp [firstAddr]
      · rw [hempty]
        simp
    | cons e rest =>
      obtain ⟨q2, hd, _⟩ := dequeue_cons_inv RLIST_SCALE_FACTOR fuel hinv1
      refine ⟨outs, q1, some e.2, q2, hrunF, hd, ?_, ?_⟩
      · rw [hempty, hinv1.begin_eq]
        simp [firstAddr]
      · rw [hempty]
        simp
  · obtain ⟨q1, added, henq, hinv1, hmap, _, _⟩ := enqueueAll_inv fuel xs hinv0
    simp only [List.nil_append] at hinv1
    have hlen : added.length = xs.length := by
      rw [← hmap, List.length_map]
    have hsize := hinv1.size_exact (by omega)
    refine ⟨q1, ?_, ?_⟩
    · unfold enqueued
      simp only [hnew, henq]
    · unfold Queue.empty
      unfold Queue.size at hsize
      rw [hsize, hlen]
      cases xs with
      | nil => rfl
      | cons x xs => simp

/-- Instance of C4 on a run with a dequeue from the empty queue and on a parameter of the
test suite `QueueTest`. -/
theorem empty_iff_no_element_witness :
    countEnqueues [QueueOp.enqueue 3, QueueOp.dequeue, QueueOp.dequeue] < SIZE_T_MOD ∧
    [5, 2, 4, 8, 9, 10].length < SIZE_T_MOD ∧
    (∃ outs q r q2,
      runFresh 2 1 [QueueOp.enqueue 3, QueueOp.dequeue, QueueOp.dequeue] = some (outs, q) ∧
      q.dequeue 2 1 = some (r, q2) ∧
      (q.empty = true ↔ q.begin = some none) ∧ (q.empty = true ↔ r = none)) ∧
    (∃ q, enqueued 1 [5, 2, 4, 8, 9, 10] = some q ∧ q.empty = [5, 2, 4, 8, 9, 10].isEmpty) :=
  ⟨by decide, by decide,
    empty_iff_no_element (T := Nat) 2 0 [QueueOp.enqueue 3, QueueOp.dequeue, QueueOp.dequeue]
      [5, 2, 4, 8, 9, 10] (by decide) (by decide)⟩

/-- C5: after enqueuing `xs` in order onto a new queue, `begin()` is the `next` link of the
sentinel `head` points to, and following `next` links from `begin()` for `|xs|` nodes
reaches a null link, the values of the nodes visited being `xs` in enqueue order. -/
theorem begin_walk_yields_enqueued {T : Type} [Inhabited T] (fuel : Nat) (xs : List T) :
    ∃ q s sn, enqueued (fuel + 1) xs = some q ∧ q.head = some s ∧
      load q.nodes s = some sn ∧ q.begin = some sn.next ∧
      valuesFrom xs.length q.nodes sn.next = some xs := by
  obtain ⟨q0, hnew, hinv0, _⟩ := new_inv T
  obtain ⟨q1, added, henq, hinv1, hmap, _, _⟩ := enqueueAll_inv fuel xs hinv0
  simp only [List.nil_append] at hinv1
  have hlen : added.length = xs.length := by
    rw [← hmap, List.length_map]
  refine ⟨q1, 0, _, ?_, hinv1.head_eq, hinv1.chain.1, hinv1.begin_eq, ?_⟩
  · unfold enqueued
    simp only [hnew, henq]
  · have := valuesFrom_linked added hinv1.chain.2
    rw [hlen, hmap] at this
    exact this

/-- C6 fails on the code: `end()` is `tail`, the last node.  On a new queue `begin()` is
null while `end()` is the sentinel, so they differ although the queue is empty, and the
range from `begin()` to `end()` dereferences null; after enqueuing 1, 2, 3 the range from
`begin()` to `end()` holds 1 and 2 only. -/
theorem end_is_last_node :
    (∃ q, enqueued 1 ([] : List Nat) = some q ∧ q.begin = some none ∧ q.end = some 0 ∧
      rangeValues 5 q.nodes none q.end = none) ∧
    (∃ q, enqueued 1 [1, 2, 3] = some q ∧ q.begin = some (some 1) ∧ q.end = some 3 ∧
      rangeValues 5 q.nodes (some 1) q.end = some [1, 2]) := by
  constructor
  · exact ⟨_, rfl, rfl, rfl, rfl⟩
  · exact ⟨_, rfl, rfl, rfl, rfl⟩

/-- Calls of `alloc` that do not overlap: on a pool whose slot list is well formed,
`alloc` returns a slot that before the call was either not in the slot list or had
`active_ == false`, and that after the call is in the list with `active_ == true`; after
any further `alloc` and `free` calls, none of which frees that slot, the next `alloc`
returns and its result is a different slot. -/
theorem alloc_returns_unclaimed_slot (m : HzdMemPool) (L : List Nat)
    (hL : m.slotList = some L) :
    ∃ p m1 L1, m.alloc = some (p, m1) ∧
      (p ∉ L ∨ (load m.slots p).map Hzd.active_ = some false) ∧
      m1.slotList = some L1 ∧ p ∈ L1 ∧ (load m1.slots p).map Hzd.active_ = some true ∧
      ∀ (ops : List PoolOp) (m2 : HzdMemPool), (∀ op ∈ ops, op ≠ PoolOp.free (some p)) →
        runPool ops m1 = some m2 → ∃ q m3, m2.alloc = some (q, m3) ∧ q ≠ p := by
  have key : ∀ p m1, m.alloc = some (p, m1) → Held p m1 →
      (p ∉ L ∨ (load m.slots p).map Hzd.active_ = some false) →
      ∃ p m1 L1, m.alloc = some (p, m1) ∧
        (p ∉ L ∨ (load m.slots p).map Hzd.active_ = some false) ∧
        m1.slotList = some L1 ∧ p ∈ L1 ∧ (load m1.slots p).map Hzd.active_ = some true ∧
        ∀ (ops : List PoolOp) (m2 : HzdMemPool), (∀ op ∈ ops, op ≠ PoolOp.free (some p)) →
          runPool ops m1 = some m2 → ∃ q m3, m2.alloc = some (q, m3) ∧ q ≠ p := by
    intro p m1 hal hheld hbefore
    obtain ⟨L1, hL1, hp1, hz1, hl1, hact1⟩ := hheld
    refine ⟨p, m1, L1, hal, hbefore, hL1, hp1, ?_, ?_⟩
    · rw [hl1, Option.map_some', hact1]
    · intro ops m2 hops hrun
      have h2 : Held p m2 := held_runPool ops ⟨L1, hL1, hp1, hz1, hl1, hact1⟩ hops hrun
      obtain ⟨q, m3, hq, hne, _⟩ := held_alloc h2
      exact ⟨q, m3, hq, hne⟩
  rcases alloc_cases hL with ⟨a, hz, hf, hla, hfalse, hal⟩ | ⟨_, hal⟩
  · apply key a _ hal
    · refine ⟨L, slotList_claimed hL hla, List.mem_of_find?_eq_some hf,
        { hz with active_ := true }, ?_, rfl⟩
      exact load_store_same _ (load_lt hla)
    · right
      rw [hla, Option.map_some', hfalse]
  · apply key _ _ hal
    · exact ⟨_, slotList_grown hL, List.mem_cons_self _ _, _, load_grown_new m, rfl⟩
    · left
      intro hmem
      obtain ⟨hz, hl⟩ := slotList_live hL _ hmem
      have := load_lt hl
      unfold freshAddr at this
      omega

/-- C8 fails on the code.  On the pool `twoFreeSlots`, reached by `alloc`, `alloc` and
`free` of both results, three threads call `alloc` and no slot is freed.  In the schedule
`raceSchedule` the first compare-exchange of thread 0 fails and stores `true` in its local
`False`; its second compare-exchange, on slot 1, which thread 2 has claimed in between,
compares `active_ == true` with that `False` and succeeds.  Thread 0 and thread 2 both
return slot 1.  A thread running alone gets the result of the sequential `alloc`, on this
pool and on the pool of the constructor, where a slot is appended. -/
theorem concurrent_allocs_return_same_slot :
    runPool [PoolOp.alloc, PoolOp.alloc, PoolOp.free (some 1), PoolOp.free (some 2)]
      HzdMemPool.new = some twoFreeSlots ∧
    twoFreeSlots.slotList = some [2, 1, 0] ∧
    (runAlloc (raceSchedule.take 8)
        (twoFreeSlots, [AllocPc.start, AllocPc.start, AllocPc.start])).map (fun r => r.2) =
      some [AllocPc.exchange 1 true, AllocPc.returned 2, AllocPc.start] ∧
    (runAlloc (raceSchedule.take 13)
        (twoFreeSlots, [AllocPc.start, AllocPc.start, AllocPc.start])).map (fun r => r.2) =
      some [AllocPc.exchange 1 true, AllocPc.returned 2, AllocPc.returned 1] ∧
    (runAlloc raceSchedule
        (twoFreeSlots, [AllocPc.start, AllocPc.start, AllocPc.start])).map (fun r => r.2) =
      some [AllocPc.returned 1, AllocPc.returned 2, AllocPc.returned 1] ∧
    (runAlloc raceSchedule
        (twoFreeSlots, [AllocPc.start, AllocPc.start, AllocPc.start])).map
        (fun r => r.1.slotList) = some (some [2, 1, 0]) ∧
    runAlloc [0, 0, 0] (twoFreeSlots, [AllocPc.start]) =
      twoFreeSlots.alloc.map (fun r => (r.2, [AllocPc.returned r.1])) ∧
    runAlloc [0, 0, 0, 0] (HzdMemPool.new, [AllocPc.start]) =
      HzdMemPool.new.alloc.map (fun r => (r.2, [AllocPc.returned r.1])) := by
  refine ⟨?_, ?_, ?_, ?_, ?_, ?_, ?_, ?_⟩ <;> decide

/-- C9: `alloc` on a pool whose slot list `L` is well formed.  If `L` has a slot with
`active_ == false`, the first such slot in list order is returned with its flag set, every
other slot, the head, the list and `length()` being unchanged.  Otherwise the result is a
newly created slot with `active_ == true`, null payload and `next_` equal to the old head;
it is the new head, the list is the old one with the new slot in front, and `length()` is
increased by one (as a `size_t`). -/
theorem alloc_first_free_or_prepend (m : HzdMemPool) (L : List Nat)
    (hL : m.slotList = some L) :
    (∀ a, L.find? (fun b => (load m.slots b).map Hzd.active_ == some false) = some a →
      ∃ hz m1, load m.slots a = some hz ∧ m.alloc = some (a, m1) ∧
        load m1.slots a = some { hz with active_ := true } ∧
        (∀ b, b ≠ a → m1.slots[b]? = m.slots[b]?) ∧
        m1.slots.length = m.slots.length ∧
        m1.head = m.head ∧ m1.slotList = some L ∧ m1.length = m.length) ∧
    (L.find? (fun b => (load m.slots b).map Hzd.active_ == some false) = none →
      ∃ m1, m.alloc = some (freshAddr m.slots, m1) ∧
        load m.slots (freshAddr m.slots) = none ∧
        load m1.slots (freshAddr m.slots) =
          some { next_ := m.head, ptr_ := none, active_ := true } ∧
        (∀ b, b < m.slots.length → m1.slots[b]? = m.slots[b]?) ∧
        m1.head = some (freshAddr m.slots) ∧
        m1.slotList = some (freshAddr m.slots :: L) ∧
        m1.length = (m.length + 1) % SIZE_T_MOD ∧
        (m.length + 1 < SIZE_T_MOD → m1.length = m.length + 1)) := by
  have hfun : (fun b => (load m.slots b).map Hzd.active_ == some false) = isFree m.slots := by
    funext b
    unfold isFree
    cases load m.slots b with
    | none => rfl
    | some hz =>
      cases hz with
      | mk n p a => cases a <;> rfl
  rw [hfun]
  constructor
  · intro a hfa
    rcases alloc_cases hL with ⟨a1, hz, hf, hla, _, hal⟩ | ⟨hnone, _⟩
    · rw [hfa] at hf
      cases hf
      refine ⟨hz, _, hla, hal, load_store_same _ (load_lt hla), ?_, ?_, rfl,
        slotList_claimed hL hla, rfl⟩
      · intro b hb
        unfold HzdMemPool.claimed store
        simp only
        rw [List.getElem?_set_ne (Ne.symm hb)]
      · unfold HzdMemPool.claimed
        simp only
        rw [length_store]
    · rw [hfa] at hnone
      cases hnone
  · intro hnone
    rcases alloc_cases hL with ⟨a1, hz, hf, _, _, _⟩ | ⟨_, hal⟩
    · rw [hnone] at hf
      cases hf
    · refine ⟨_, hal, ?_, load_grown_new m, ?_, rfl, slotList_grown hL, rfl, ?_⟩
      · cases hl : load m.slots (freshAddr m.slots) with
        | none => rfl
        | some x =>
          have := load_lt hl
          unfold freshAddr at this
          omega
      · intro b hb
        unfold HzdMemPool.grown store pushNew freshAddr
        simp only
        rw [List.getElem?_set_ne (by omega), List.getElem?_append_left hb]
      · intro hlt
        show (m.len_ + 1) % SIZE_T_MOD = m.len_ + 1
        exact Nat.mod_eq_of_lt hlt

/-- Instance of C9 on the pool built by the constructor, whose only slot is active. -/
theorem alloc_first_free_or_prepend_witness :
    HzdMemPool.new.slotList = some [0] ∧
    ∃ m1, HzdMemPool.new.alloc = some (1, m1) ∧ m1.slotList = some [1, 0] ∧ m1.length = 1 := by
  refine ⟨by decide, ?_⟩
  obtain ⟨m1, hal, _, _, _, _, hsl, hlen, _⟩ :=
    (alloc_first_free_or_prepend HzdMemPool.new [0] (by decide)).2 (by decide)
  exact ⟨m1, hal, hsl, hlen⟩

/-- C10: for a slot `a` of the pool, `free` returns with the payload of `a` null and its
`active_` flag false; the link of `a`, every other cell of slot storage, the head, the
slot list and `length()` are unchanged. -/
theorem free_clears_only_its_slot (m : HzdMemPool) (a : Nat) (hz : Hzd)
    (h : load m.slots a = some hz) :
    ∃ m1, m.free (some a) = some m1 ∧
      load m1.slots a = some { next_ := hz.next_, ptr_ := none, active_ := false } ∧
      (∀ b, b ≠ a → m1.slots[b]? = m.slots[b]?) ∧
      m1.slots.length = m.slots.length ∧
      m1.head = m.head ∧ m1.slotList = m.slotList ∧ m1.length = m.length := by
  refine ⟨_, free_eq h, load_store_same _ (load_lt h), ?_, ?_, rfl,
    slotList_eq_of_store h rfl, rfl⟩
  · intro b hb
    unfold store
    simp only
    rw [List.getElem?_set_ne (Ne.symm hb)]
  · simp only
    rw [length_store]

/-- Instance of C10: freeing the slot returned by the first `alloc` on a new pool. -/
theorem free_clears_only_its_slot_witness :
    load (HzdMemPool.grown HzdMemPool.new).slots 1 =
      some { next_ := some 0, ptr_ := none, active_ := true } ∧
    ∃ m1, (HzdMemPool.grown HzdMemPool.new).free (some 1) = some m1 ∧
      load m1.slots 1 = some { next_ := some 0, ptr_ := none, active_ := false } ∧
      m1.slotList = some [1, 0] := by
  refine ⟨by decide, ?_⟩
  obtain ⟨m1, hfree, hl, _, _, _, hsl, _⟩ :=
    free_clears_only_its_slot (HzdMemPool.grown HzdMemPool.new) 1
      { next_ := some 0, ptr_ := none, active_ := true } (by decide)
  refine ⟨m1, hfree, hl, ?_⟩
  rw [hsl]
  decide

/-- C11: `scan` on a state whose slot list `L` is well formed and whose retire list has
pairwise distinct, live entries.  It returns; with `H` the non-null payloads found in the
slots of `L`, the new retire list is a permutation of the old entries that are in `H`, the
nodes deleted are exactly the old entries that are not in `H` (a second `delete` of a node
would be undefined behaviour, which the model reports by not returning), every other node
and every other member is unchanged. -/
theorem scan_partitions_retire_list {T : Type} (q : Queue T) (L : List Nat)
    (hL : q.mempool.slotList = some L) (hnd : q.rlist.Nodup)
    (hlive : ∀ r ∈ q.rlist, ∃ n, load q.nodes r = some n) :
    ∃ rl nodes1, Queue.scan q.mempool.head q = some { q with rlist := rl, nodes := nodes1 } ∧
      rl.Perm (q.rlist.filter (fun r => decide (r ∈ publishedPayloads q.mempool.slots L))) ∧
      rl.Nodup ∧
      (∀ r, r ∈ rl ↔ r ∈ q.rlist ∧ r ∈ publishedPayloads q.mempool.slots L) ∧
      (∀ r ∈ q.rlist, r ∉ publishedPayloads q.mempool.slots L → load nodes1 r = none) ∧
      (∀ r ∈ q.rlist, r ∈ publishedPayloads q.mempool.slots L →
        load nodes1 r = load q.nodes r) ∧
      (∀ a, a ∉ q.rlist → load nodes1 a = load q.nodes a) ∧
      nodes1.length = q.nodes.length := by
  obtain ⟨H, rl, nodes1, hH, hscan, hperm, hlen, hload⟩ := scan_spec q hL hnd hlive
  have hHeq : ∀ x, x ∈ H ↔ x ∈ publishedPayloads q.mempool.slots L := by
    intro x
    rw [hH x, mem_publishedPayloads]
  have hfilter : q.rlist.filter (fun r => decide (r ∈ H)) =
      q.rlist.filter (fun r => decide (r ∈ publishedPayloads q.mempool.slots L)) := by
    apply List.filter_congr
    intro x _
    simp only [decide_eq_decide]
    exact hHeq x
  rw [hfilter] at hperm
  refine ⟨rl, nodes1, hscan, hperm, ?_, ?_, ?_, ?_, ?_, hlen⟩
  · exact (List.Perm.nodup_iff hperm).mpr (hnd.filter _)
  · intro r
    rw [hperm.mem_iff, List.mem_filter]
    simp
  · intro r hr hnot
    rw [hload r]
    have : r ∉ H := fun h => hnot ((hHeq r).mp h)
    simp [hr, this]
  · intro r _ hin
    rw [hload r]
    have : r ∈ H := (hHeq r).mpr hin
    simp [this]
  · intro a ha
    rw [hload a]
    simp [ha]

/-- Instance of C11: of the retired nodes 0, 1, 2 only node 1 is published, so nodes 0 and
2 are deleted and the retire list becomes `[1]`. -/
theorem scan_partitions_retire_list_witness :
    retiringQueue.mempool.slotList = some [2, 1, 0] ∧
    publishedPayloads retiringQueue.mempool.slots [2, 1, 0] = [3, 1] ∧
    Queue.scan retiringQueue.mempool.head retiringQueue =
      some { retiringQueue with
        rlist := [1],
        nodes := [none, some { value := 7, next := some 2 }, none,
                  some { value := 9, next := none }] } ∧
    ∃ rl nodes1, Queue.scan retiringQueue.mempool.head retiringQueue =
        some { retiringQueue with rlist := rl, nodes := nodes1 } ∧
      rl.Perm (retiringQueue.rlist.filter
        (fun r => decide (r ∈ publishedPayloads retiringQueue.mempool.slots [2, 1, 0]))) := by
  refine ⟨by decide, by decide, by decide, ?_⟩
  obtain ⟨rl, nodes1, hscan, hperm, _⟩ :=
    scan_partitions_retire_list retiringQueue [2, 1, 0] (by decide) (by decide)
      (by
        intro r hr
        simp only [retiringQueue, List.mem_cons, List.mem_singleton, List.not_mem_nil,
          or_false] at hr
        rcases hr with rfl | rfl | rfl <;> exact ⟨_, rfl⟩)
  exact ⟨rl, nodes1, hscan, hperm⟩

/-- C12: `retire(node)` with a threshold `RLIST_SCALE_FACTOR * mempool.length()` that fits
a `size_t`.  When the length of the retire list after the append is below the threshold,
the result is the old state with `node` appended to the retire list and nothing else
changed (no node is freed); otherwise the result is that of `scan(mempool->head())` run on
the state with `node` appended. -/
theorem retire_appends_then_scans_at_threshold {T : Type} (RLIST_SCALE_FACTOR node : Nat)
    (q : Queue T) (hk : RLIST_SCALE_FACTOR * q.mempool.length < SIZE_T_MOD) :
    ((q.rlist ++ [node]).length < RLIST_SCALE_FACTOR * q.mempool.length →
      q.retire RLIST_SCALE_FACTOR node = some { q with rlist := q.rlist ++ [node] }) ∧
    (RLIST_SCALE_FACTOR * q.mempool.length ≤ (q.rlist ++ [node]).length →
      q.retire RLIST_SCALE_FACTOR node =
        Queue.scan q.mempool.head { q with rlist := q.rlist ++ [node] }) := by
  have hmax : ∀ r : List Nat,
      ({ q with rlist := r } : Queue T).MAX_RLIST_SIZE RLIST_SCALE_FACTOR =
        RLIST_SCALE_FACTOR * q.mempool.length := by
    intro r
    unfold Queue.MAX_RLIST_SIZE
    exact Nat.mod_eq_of_lt hk
  constructor
  · intro hlt
    unfold Queue.retire
    simp only [hmax]
    rw [if_neg (by omega)]
  · intro hge
    unfold Queue.retire
    simp only [hmax]
    rw [if_pos hge]

/-- Instance of C12: with two counted slots and scale factor 2 the threshold is 4; a
fourth retired node triggers the scan, a second one does not. -/
theorem retire_appends_then_scans_at_threshold_witness :
    2 * retiringQueue.mempool.length < SIZE_T_MOD ∧
    retiringQueue.retire 2 3 =
      Queue.scan retiringQueue.mempool.head { retiringQueue with rlist := [0, 1, 2, 3] } ∧
    drainedQueue.retire 2 1 = some { drainedQueue with rlist := [0, 1] } :=
  ⟨by decide,
    (retire_appends_then_scans_at_threshold 2 3 retiringQueue (by decide)).2 (by decide),
    (retire_appends_then_scans_at_threshold 2 1 drainedQueue (by decide)).1 (by decide)⟩

/-- C13 fails on the code: the constructor puts one slot in the list and sets `len_` to 0,
so `length()` is 0 while the slot list has one slot; after one `alloc` it is 1 against two
slots. -/
theorem length_differs_from_slot_count :
    HzdMemPool.new.slotList = some [0] ∧ HzdMemPool.new.length = 0 ∧
    HzdMemPool.new.length ≠ [0].length ∧
    (HzdMemPool.new.alloc.map (fun r => (r.2.slotList, r.2.length))) =
      some (some [1, 0], 1) := by
  decide

/-- C13 as amended: in every state reached from the constructor by `alloc` and `free`
calls, the slot list is well formed and `length()` is the number of slots in it minus one,
as a `size_t`: the slot the constructor creates is not counted. -/
theorem length_is_slot_count_minus_one (ops : List PoolOp) (m : HzdMemPool)
    (h : runPool ops HzdMemPool.new = some m) :
    ∃ L, m.slotList = some L ∧ m.length = (L.length - 1) % SIZE_T_MOD ∧
      (L.length ≤ SIZE_T_MOD → L.length = m.length + 1) := by
  obtain ⟨L, hL, hlen, hpos⟩ :=
    counter_runPool ops (m := HzdMemPool.new) (L := [0]) (by decide) (by decide) (by decide) h
  refine ⟨L, hL, hlen, ?_⟩
  intro hle
  unfold HzdMemPool.length
  rw [hlen, Nat.mod_eq_of_lt (by omega)]
  omega

/-- Instance of the amended C13 on a run with three `alloc` calls and one `free`. -/
theorem length_is_slot_count_minus_one_witness :
    runPool [PoolOp.alloc, PoolOp.alloc, PoolOp.free (some 1), PoolOp.alloc] HzdMemPool.new =
      some threeSlotPool ∧
    ∃ L, threeSlotPool.slotList = some L ∧
      threeSlotPool.length = (L.length - 1) % SIZE_T_MOD ∧
      (L.length ≤ SIZE_T_MOD → L.length = threeSlotPool.length + 1) :=
  ⟨by decide,
    length_is_slot_count_minus_one
      [PoolOp.alloc, PoolOp.alloc, PoolOp.free (some 1), PoolOp.alloc] threeSlotPool
      (by decide)⟩

/-- C29: in every state reached from the constructor by `alloc` and `free` calls the
destructor returns; the sequence of slots it deletes is the slot list from `head()` to the
last slot, which has no repetition; afterwards these slots are deleted and every other
cell of slot storage is as before. -/
theorem destructor_deletes_each_slot_once (ops : List PoolOp) (m : HzdMemPool)
    (h : runPool ops HzdMemPool.new = some m) :
    ∃ L slots1, m.slotList = some L ∧ m.destroy = some (L, slots1) ∧ L.Nodup ∧
      (∀ a ∈ L, load slots1 a = none) ∧ (∀ a, a ∉ L → load slots1 a = load m.slots a) := by
  obtain ⟨L, hL, _, _⟩ :=
    counter_runPool ops (m := HzdMemPool.new) (L := [0]) (by decide) (by decide) (by decide) h
  have hL2 := hL
  unfold HzdMemPool.slotList at hL2
  cases hh : m.head_ with
  | none => simp [hh] at hL2
  | some p0 =>
    simp only [hh] at hL2
    obtain ⟨slots1, hd, hdel, hkeep, _⟩ := destroyLoop_spec _ _ _ _ hL2
    refine ⟨L, slots1, hL, ?_, slotsFrom_nodup _ _ _ hL2, hdel, hkeep⟩
    unfold HzdMemPool.destroy
    simp only [hh, hd]

/-- Instance of C29 on the pool with three slots. -/
theorem destructor_deletes_each_slot_once_witness :
    runPool [PoolOp.alloc, PoolOp.alloc, PoolOp.free (some 1), PoolOp.alloc] HzdMemPool.new =
      some threeSlotPool ∧
    threeSlotPool.destroy = some ([2, 1, 0], [none, none, none]) ∧
    ∃ L slots1, threeSlotPool.slotList = some L ∧ threeSlotPool.destroy = some (L, slots1) ∧
      L.Nodup ∧ (∀ a ∈ L, load slots1 a = none) ∧
      (∀ a, a ∉ L → load slots1 a = load threeSlotPool.slots a) :=
  ⟨by decide, by decide,
    destructor_deletes_each_slot_once
      [PoolOp.alloc, PoolOp.alloc, PoolOp.free (some 1), PoolOp.alloc] threeSlotPool
      (by decide)⟩

end Lockfree

namespace Memory
open Lockfree

/-! ## The free list -/

theorem length_le_of_nodup_lt {l : List Nat} {n : Nat} (hnd : l.Nodup)
    (hlt : ∀ x ∈ l, x < n) : l.length ≤ n := by
  have hsub : l ⊆ List.range n := fun x hx => List.mem_range.mpr (hlt x hx)
  have := (List.subperm_of_subset hnd hsub).length_le
  simpa using this

theorem valuesFrom_linked_le {T : Type} {nodes : List (Option (Node T))}
    (l : List (Nat × T)) (h : linked nodes l) :
    ∀ fuel, l.length ≤ fuel → valuesFrom fuel nodes (firstAddr l) = some (l.map Prod.snd) := by
  induction l with
  | nil =>
    intro fuel _
    cases fuel <;> rfl
  | cons e l ih =>
    obtain ⟨h1, h2⟩ := h
    intro fuel hle
    cases fuel with
    | zero => simp at hle
    | succ f =>
      show valuesFrom (f + 1) nodes (some e.1) = _
      unfold valuesFrom
      simp only [h1, ih h2 f (by simpa using hle), Option.map_some', List.map_cons]

theorem contents_of_inv {T : Type} {q : Queue T} {s : Nat} {sv : T} {elems : List (Nat × T)}
    (h : QInv q s sv elems) : q.contents = some (elems.map Prod.snd) := by
  unfold Queue.contents
  rw [h.begin_eq]
  simp only
  apply valuesFrom_linked_le elems h.chain.2
  have hlt : ∀ x ∈ s :: elems.map Prod.fst, x < q.nodes.length := by
    intro x hx
    obtain ⟨n, hn⟩ := linked_live h.chain x (by simpa using hx)
    exact load_lt hn
  have := length_le_of_nodup_lt h.nodup hlt
  simp only [List.length_cons, List.length_map] at this
  omega

theorem empty_of_inv_nil {T : Type} {q : Queue T} {s : Nat} {sv : T} (h : QInv q s sv []) :
    q.empty = true := by
  unfold Queue.empty
  rw [h.size_eq]
  rfl

theorem cons_of_not_empty {T : Type} {q : Queue T} {s : Nat} {sv : T}
    {elems : List (Nat × T)} (h : QInv q s sv elems) (he : q.empty = false) :
    ∃ e rest, elems = e :: rest := by
  cases elems with
  | nil => rw [empty_of_inv_nil h] at he; cases he
  | cons e rest => exact ⟨e, rest, rfl⟩

/-! ## One call on the pool -/

/-- Effect of `getPtrFromBuffer` on a state satisfying the invariant: it returns the cell
`current_` pointed to and `current_` advances by one cell, either inside the current array
or, when that cell was the last one, through the block swap. -/
theorem getPtr_spec {T : Type} [Inhabited T] {N : Nat} {st : ObjectPool T} {j c s : Nat}
    {sv : Option Nat} {elems : List (Nat × Option Nat)} (h : PoolInv N st j c s sv elems)
    (hN : 0 < N) (fuel : Nat) :
    ∃ st1 j1, st.getPtrFromBuffer N (fuel + 1) = some (some c, st1) ∧
      PoolInv N st1 j1 (c + 1) s sv elems ∧ st1.free_ = st.free_ ∧
      ((c < st.last_ ∧ j1 = j ∧ st1 = { st with current_ := some (c + 1) }) ∨
       (c = st.last_ ∧ j1 = j + 1 ∧ st1.blocks_ = st.blocks_ ++ [st.next_] ∧
         st1.last_ = st.next_ + (N - 1) ∧ st1.current_ = some st.next_ ∧
         st1.cells.length = st.cells.length + N)) := by
  have hcur := h.current_eq
  have hlast := h.last_eq
  have hnext := h.next_eq
  have hcells := h.cells_len
  have hlo := h.lo
  have hhi := h.hi
  have e1 : (j + 1) * N = j * N + N := by rw [Nat.add_mul]; omega
  have e2 : (j + 2) * N = j * N + N + N := by rw [Nat.add_mul]; omega
  have e3 : (j + 1 + 1) * N = j * N + N + N := e2
  have e4 : (j + 1 + 2) * N = j * N + N + N + N := by
    rw [Nat.add_mul, Nat.add_mul]; omega
  by_cases hc : c = st.last_
  · refine ⟨{ st with current_ := some st.next_, blocks_ := st.blocks_ ++ [st.next_],
                      next_ := st.cells.length, cells := newArray st.cells N,
                      last_ := st.next_ + (N - 1) }, j + 1, ?_, ?_, rfl, ?_⟩
    · unfold ObjectPool.getPtrFromBuffer
      rw [if_neg (by rw [hcur]; simp)]
      unfold getPtrLoop
      simp only [hcur, hc, if_true]
      simp
    · refine ⟨?_, ?_, ?_, ?_, ?_, ?_, ?_, h.queue⟩
      · show st.blocks_ ++ [st.next_] = _
        rw [h.blocks_eq, hnext, List.range_succ (j + 1), List.map_append]
        rfl
      · show some st.next_ = some (c + 1)
        congr 1
        omega
      · show (j + 1) * N ≤ c + 1
        omega
      · show c + 1 ≤ st.next_ + (N - 1)
        omega
      · show st.next_ + (N - 1) = (j + 1) * N + (N - 1)
        rw [hnext]
      · show st.cells.length = (j + 1 + 1) * N
        omega
      · show (newArray st.cells N).length = (j + 1 + 2) * N
        unfold newArray
        rw [List.length_append, List.length_replicate]
        omega
    · right
      refine ⟨hc, rfl, rfl, rfl, rfl, ?_⟩
      show (newArray st.cells N).length = _
      unfold newArray
      rw [List.length_append, List.length_replicate]
  · refine ⟨{ st with current_ := some (c + 1) }, j, ?_, ?_, rfl, ?_⟩
    · unfold ObjectPool.getPtrFromBuffer
      rw [if_neg (by rw [hcur]; simp)]
      unfold getPtrLoop
      simp only [hcur, Option.some.injEq, hc, if_false, if_true]
    · exact ⟨h.blocks_eq, rfl, by omega, by show c + 1 ≤ st.last_; omega, hlast, hnext,
        hcells, h.queue⟩
    · left
      exact ⟨by omega, rfl, rfl⟩

theorem alloc_from_buffer {T : Type} [Inhabited T] {N : Nat} {st : ObjectPool T}
    {j c s : Nat} {sv : Option Nat} {elems : List (Nat × Option Nat)}
    (h : PoolInv N st j c s sv elems) (hN : 0 < N) (k fuel : Nat)
    (he : st.free_.empty = true) :
    ∃ st1 j1, st.alloc N k (fuel + 1) = some (c, st1) ∧
      PoolInv N st1 j1 (c + 1) s sv elems ∧ st1.free_ = st.free_ ∧
      ((c < st.last_ ∧ j1 = j ∧ st1 = { st with current_ := some (c + 1) }) ∨
       (c = st.last_ ∧ j1 = j + 1 ∧ st1.blocks_ = st.blocks_ ++ [st.next_] ∧
         st1.last_ = st.next_ + (N - 1) ∧ st1.current_ = some st.next_ ∧
         st1.cells.length = st.cells.length + N)) := by
  obtain ⟨st1, j1, hget, hinv, hfree, hcase⟩ := getPtr_spec h hN fuel
  refine ⟨st1, j1, ?_, hinv, hfree, hcase⟩
  unfold ObjectPool.alloc ObjectPool.allocLoop
  simp only [he, if_true, hget]

theorem alloc_from_free_list {T : Type} [Inhabited T] {N : Nat} {st : ObjectPool T}
    {j c s : Nat} {sv : Option Nat} {e : Nat × Option Nat} {rest : List (Nat × Option Nat)}
    (h : PoolInv N st j c s sv (e :: rest)) (k fuel : Nat)
    (he : st.free_.empty = false) {a : Nat} (ha : e.2 = some a) :
    ∃ q1, st.alloc N k (fuel + 1) = some (a, { st with free_ := q1 }) ∧
      PoolInv N { st with free_ := q1 } j c e.1 e.2 rest := by
  obtain ⟨q1, hd, hinv⟩ := dequeue_cons_inv k fuel h.queue
  refine ⟨q1, ?_, ⟨h.blocks_eq, h.current_eq, h.lo, h.hi, h.last_eq, h.next_eq, h.cells_len,
    hinv⟩⟩
  rw [ha] at hd
  unfold ObjectPool.alloc ObjectPool.allocLoop
  simp only [he, hd]
  simp

theorem free_spec {T : Type} {N : Nat} {st : ObjectPool T} {j c s : Nat} {sv : Option Nat}
    {elems : List (Nat × Option Nat)} (h : PoolInv N st j c s sv elems) (dtor : T → T)
    (fuel : Nat) {p : Nat} (hp : p < st.cells.length) :
    ∃ st1, st.free dtor (fuel + 1) (some p) = some st1 ∧
      PoolInv N st1 j c s sv (elems ++ [(freshAddr st.free_.nodes, some p)]) ∧
      st1.cells.length = st.cells.length := by
  obtain ⟨q1, he, hinv, _⟩ := enqueue_inv fuel (some p) h.queue
  have hget : st.cells[p]? = some (st.cells[p]) := List.getElem?_eq_getElem hp
  refine ⟨{ st with cells := st.cells.set p (dtor (st.cells[p])), free_ := q1 }, ?_, ?_, ?_⟩
  · unfold ObjectPool.free
    simp only [hget, he]
  · exact ⟨h.blocks_eq, h.current_eq, h.lo, h.hi, h.last_eq, h.next_eq,
      by simp only [List.length_set]; exact h.cells_len, hinv⟩
  · simp only [List.length_set]

theorem clean_spec {T : Type} {N : Nat} {st : ObjectPool T} {j c s : Nat} {sv : Option Nat}
    {elems : List (Nat × Option Nat)} (h : PoolInv N st j c s sv elems) (fuel : Nat)
    (p : Nat) :
    ∃ st1, st.clean (fuel + 1) (some p) = some st1 ∧
      PoolInv N st1 j c s sv (elems ++ [(freshAddr st.free_.nodes, some p)]) ∧
      st1.cells = st.cells := by
  obtain ⟨q1, he, hinv, _⟩ := enqueue_inv fuel (some p) h.queue
  refine ⟨{ st with free_ := q1 }, ?_, ?_, rfl⟩
  · unfold ObjectPool.clean
    simp only [he]
  · exact ⟨h.blocks_eq, h.current_eq, h.lo, h.hi, h.last_eq, h.next_eq, h.cells_len, hinv⟩

theorem new_pool_inv (T : Type) [Inhabited T] (N : Nat) :
    ∃ st, ObjectPool.new T N = some st ∧ PoolInv N st 0 0 0 none [] ∧
      st.last_ = N - 1 ∧ st.blocks_ = [0] := by
  obtain ⟨q0, hnew, hinv0, _⟩ := new_inv (Option Nat)
  refine ⟨{ cells := newArray (newArray ([] : List T) N) N, blocks_ := [0],
            current_ := some 0, last_ := 0 + (N - 1), next_ := (newArray ([] : List T) N).length,
            free_ := q0 }, ?_, ?_, by simp, rfl⟩
  · unfold ObjectPool.new
    simp only [hnew, List.length_nil]
  · refine ⟨by simp [List.range_succ], rfl, by simp, by simp, by simp, ?_, ?_, hinv0⟩
    · simp [newArray]
    · simp [newArray]
      omega

theorem cell_lt_of_inv {T : Type} {N : Nat} {st : ObjectPool T} {j c s : Nat}
    {sv : Option Nat} {elems : List (Nat × Option Nat)} (h : PoolInv N st j c s sv elems)
    (hN : 0 < N) {a : Nat} (ha : a < c) : a < st.cells.length := by
  have hhi := h.hi
  have hlast := h.last_eq
  have hcells := h.cells_len
  have e2 : (j + 2) * N = j * N + N + N := by rw [Nat.add_mul]; omega
  omega

/-- An address up to `last_` lies in one of the arrays of `blocks_`. -/
theorem in_block_of_inv {T : Type} {N : Nat} {st : ObjectPool T} {j c s : Nat}
    {sv : Option Nat} {elems : List (Nat × Option Nat)} (h : PoolInv N st j c s sv elems)
    (hN : 0 < N) {a : Nat} (ha : a ≤ st.last_) :
    st.blocks_[a / N]? = some (a / N * N) ∧ a % N < N ∧ a = a / N * N + a % N := by
  have hlast := h.last_eq
  have e1 : (j + 1) * N = j * N + N := by rw [Nat.add_mul]; omega
  have hdiv : a / N < j + 1 := by
    rw [Nat.div_lt_iff_lt_mul hN]
    omega
  refine ⟨?_, Nat.mod_lt _ hN, ?_⟩
  · rw [h.blocks_eq, List.getElem?_map, List.getElem?_range hdiv]
    rfl
  · have := Nat.div_add_mod a N
    rw [Nat.mul_comm] at this
    omega

/-! ## Invariants of reachable pool states -/

/-- In every state of `Reach` the pool satisfies its invariant, and the addresses in the
free list and the addresses returned so far lie below `current_`. -/
theorem reach_inv {T : Type} [Inhabited T] {N k : Nat} {dtor : T → T} {t : Tracked T}
    (h : Reach N k dtor t) (hN : 0 < N) :
    ∃ j c s sv elems, PoolInv N t.pool j c s sv elems ∧
      (∀ e ∈ elems, ∃ a, e.2 = some a ∧ a < c) ∧ (∀ a ∈ t.returned, a < c) := by
  induction h with
  | @fresh st0 hnew =>
    obtain ⟨st, hst, hinv, _⟩ := new_pool_inv T N
    rw [hnew] at hst
    cases hst
    exact ⟨0, 0, 0, none, [], hinv, by simp, by simp⟩
  | @alloc t0 p st1 fuel _ hal ih =>
    obtain ⟨j, c, s, sv, elems, hinv, hfree, hret⟩ := ih
    simp only
    cases he : t0.pool.free_.empty with
    | true =>
      obtain ⟨st2, j1, hal2, hinv2, _, _⟩ := alloc_from_buffer hinv hN k fuel he
      rw [hal] at hal2
      simp only [Option.some.injEq, Prod.mk.injEq] at hal2
      obtain ⟨hpc, hst⟩ := hal2
      rw [hpc, hst]
      refine ⟨j1, c + 1, s, sv, elems, hinv2, ?_, ?_⟩
      · intro e hmem
        obtain ⟨a, ha, hlt⟩ := hfree e hmem
        exact ⟨a, ha, by omega⟩
      · intro a hmem
        rcases List.mem_cons.mp hmem with rfl | hmem
        · omega
        · have := hret a hmem
          omega
    | false =>
      obtain ⟨e, rest, hel⟩ := cons_of_not_empty hinv.queue he
      subst hel
      obtain ⟨a, ha, hlt⟩ := hfree e (List.mem_cons_self _ _)
      obtain ⟨q1, hal2, hinv2⟩ := alloc_from_free_list hinv k fuel he ha
      rw [hal] at hal2
      cases hal2
      refine ⟨j, c, e.1, e.2, rest, hinv2, ?_, ?_⟩
      · intro e2 hmem
        exact hfree e2 (List.mem_cons_of_mem _ hmem)
      · intro b hmem
        rcases List.mem_cons.mp hmem with rfl | hmem
        · exact hlt
        · exact hret b hmem
  | @free t0 p st1 fuel _ hp hfr ih =>
    obtain ⟨j, c, s, sv, elems, hinv, hfree, hret⟩ := ih
    simp only
    have hpc := hret p hp
    obtain ⟨st2, hfr2, hinv2, _⟩ := free_spec hinv dtor fuel (cell_lt_of_inv hinv hN hpc)
    rw [hfr] at hfr2
    cases hfr2
    refine ⟨j, c, s, sv, _, hinv2, ?_, hret⟩
    intro e hmem
    rcases List.mem_append.mp hmem with hmem | hmem
    · exact hfree e hmem
    · rw [List.mem_singleton] at hmem
      subst hmem
      exact ⟨p, rfl, hpc⟩
  | @clean t0 p st1 fuel _ hp hcl ih =>
    obtain ⟨j, c, s, sv, elems, hinv, hfree, hret⟩ := ih
    simp only
    have hpc := hret p hp
    obtain ⟨st2, hcl2, hinv2, _⟩ := clean_spec hinv fuel p
    rw [hcl] at hcl2
    cases hcl2
    refine ⟨j, c, s, sv, _, hinv2, ?_, hret⟩
    intro e hmem
    rcases List.mem_append.mp hmem with hmem | hmem
    · exact hfree e hmem
    · rw [List.mem_singleton] at hmem
      subst hmem
      exact ⟨p, rfl, hpc⟩

/-- In every state of `ReachLive` the live cells together with the cells in the free list
are, up to order, the cells below `current_`, each once. -/
theorem live_inv {T : Type} [Inhabited T] {N k : Nat} {dtor : T → T} {t : Tracked T}
    (h : ReachLive N k dtor t) (hN : 0 < N) :
    ∃ j c s sv elems Fn, PoolInv N t.pool j c s sv elems ∧
      elems.map Prod.snd = Fn.map some ∧ (t.live ++ Fn).Perm (List.range c) := by
  induction h with
  | @fresh st0 hnew =>
    obtain ⟨st, hst, hinv, _⟩ := new_pool_inv T N
    rw [hnew] at hst
    cases hst
    exact ⟨0, 0, 0, none, [], [], hinv, rfl, by simp⟩
  | @alloc t0 p st1 fuel _ hal ih =>
    obtain ⟨j, c, s, sv, elems, Fn, hinv, hF, hperm⟩ := ih
    simp only
    cases he : t0.pool.free_.empty with
    | true =>
      obtain ⟨st2, j1, hal2, hinv2, _, _⟩ := alloc_from_buffer hinv hN k fuel he
      rw [hal] at hal2
      simp only [Option.some.injEq, Prod.mk.injEq] at hal2
      obtain ⟨hpc, hst⟩ := hal2
      rw [hpc, hst]
      refine ⟨j1, c + 1, s, sv, elems, Fn, hinv2, hF, ?_⟩
      rw [List.range_succ, List.cons_append]
      exact (List.Perm.cons c hperm).trans (List.perm_append_singleton c _).symm
    | false =>
      obtain ⟨e, rest, hel⟩ := cons_of_not_empty hinv.queue he
      subst hel
      cases Fn with
      | nil => simp at hF
      | cons a Fn1 =>
        simp only [List.map_cons, List.cons.injEq] at hF
        obtain ⟨ha, hF1⟩ := hF
        obtain ⟨q1, hal2, hinv2⟩ := alloc_from_free_list hinv k fuel he ha
        rw [hal] at hal2
        cases hal2
        refine ⟨j, c, e.1, e.2, rest, Fn1, hinv2, hF1, ?_⟩
        rw [List.cons_append]
        exact List.perm_middle.symm.trans hperm
  | @free t0 p st1 fuel _ hp hfr ih =>
    obtain ⟨j, c, s, sv, elems, Fn, hinv, hF, hperm⟩ := ih
    simp only
    have hpc : p < c :=
      List.mem_range.mp (hperm.subset (List.mem_append_left _ hp))
    obtain ⟨st2, hfr2, hinv2, _⟩ := free_spec hinv dtor fuel (cell_lt_of_inv hinv hN hpc)
    rw [hfr] at hfr2
    cases hfr2
    refine ⟨j, c, s, sv, _, Fn ++ [p], hinv2, by simp [hF], ?_⟩
    have h1 : (t0.live.erase p ++ (Fn ++ [p])).Perm (p :: (t0.live.erase p ++ Fn)) := by
      rw [← List.append_assoc]
      exact List.perm_append_singleton p _
    have h2 : (p :: (t0.live.erase p ++ Fn)).Perm (t0.live ++ Fn) := by
      rw [← List.cons_append]
      exact List.Perm.append_right Fn (List.perm_cons_erase hp).symm
    exact (h1.trans h2).trans hperm
  | @clean t0 p st1 fuel _ hp hcl ih =>
    obtain ⟨j, c, s, sv, elems, Fn, hinv, hF, hperm⟩ := ih
    simp only
    obtain ⟨st2, hcl2, hinv2, _⟩ := clean_spec hinv fuel p
    rw [hcl] at hcl2
    cases hcl2
    refine ⟨j, c, s, sv, _, Fn ++ [p], hinv2, by simp [hF], ?_⟩
    have h1 : (t0.live.erase p ++ (Fn ++ [p])).Perm (p :: (t0.live.erase p ++ Fn)) := by
      rw [← List.append_assoc]
      exact List.perm_append_singleton p _
    have h2 : (p :: (t0.live.erase p ++ Fn)).Perm (t0.live ++ Fn) := by
      rw [← List.cons_append]
      exact List.Perm.append_right Fn (List.perm_cons_erase hp).symm
    exact (h1.trans h2).trans hperm

/-- Consecutive `alloc` calls on a pool with an empty free list hand out consecutive
cells, starting with the one `current_` points to. -/
theorem allocN_spec {T : Type} [Inhabited T] {N : Nat} (hN : 0 < N) (k fuel n : Nat) :
    ∀ {st : ObjectPool T} {j c s : Nat} {sv : Option Nat}, PoolInv N st j c s sv [] →
      ∃ st1 j1, allocN N k (fuel + 1) n st = some (List.range' c n, st1) ∧
        PoolInv N st1 j1 (c + n) s sv [] := by
  induction n with
  | zero =>
    intro st j c s sv h
    exact ⟨st, j, rfl, h⟩
  | succ n ih =>
    intro st j c s sv h
    obtain ⟨st1, j1, hal, hinv1, _, _⟩ :=
      alloc_from_buffer h hN k fuel (empty_of_inv_nil h.queue)
    obtain ⟨st2, j2, hrun, hinv2⟩ := ih hinv1
    refine ⟨st2, j2, ?_, ?_⟩
    · unfold allocN
      simp only [hal, hrun]
      rfl
    · have : c + (n + 1) = c + 1 + n := by omega
      rw [this]
      exact hinv2

/-- State of a new pool after `n` calls of `alloc`: the cells `0 .. n - 1` were returned
in this order, and `n / N` block swaps took place. -/
theorem allocFresh_spec (T : Type) [Inhabited T] {N : Nat} (hN : 0 < N) (k fuel n : Nat) :
    ∃ st, allocFresh T N k (fuel + 1) n = some (List.range' 0 n, st) ∧
      PoolInv N st (n / N) n 0 none [] := by
  obtain ⟨st0, hnew, hinv0, _⟩ := new_pool_inv T N
  obtain ⟨st1, j1, hrun, hinv1⟩ := allocN_spec hN k fuel n hinv0
  rw [Nat.zero_add] at hinv1
  have hj : n / N = j1 := by
    apply Nat.div_eq_of_lt_le hinv1.lo
    have h1 := hinv1.hi
    have h2 := hinv1.last_eq
    have e1 : (j1 + 1) * N = j1 * N + N := by rw [Nat.add_mul]; omega
    omega
  refine ⟨st1, ?_, by rw [hj]; exact hinv1⟩
  unfold allocFresh
  simp only [hnew, hrun]

/-! # Verified claims on the object pool -/

/-- C14: in a state reached from a new pool (`DEFAULT_BUFFER_SIZE > 0`) whose free list is
empty, for a cell `p` previously returned by `alloc`: `free(p)` followed by `alloc()`
returns `p`, and so does `clean(p)` followed by `alloc()`; `free` and `clean` leave the
same free list, `clean` leaving the cells untouched. -/
theorem released_cell_is_reallocated {T : Type} [Inhabited T] (N k : Nat) (dtor : T → T)
    (t : Tracked T) (h : Reach N k dtor t) (hN : 0 < N)
    (hempty : t.pool.free_.contents = some []) (p : Nat) (hp : p ∈ t.returned)
    (fuel fuel2 : Nat) :
    ∃ stf st2f stc st2c,
      t.pool.free dtor (fuel + 1) (some p) = some stf ∧
      stf.alloc N k (fuel2 + 1) = some (p, st2f) ∧
      t.pool.clean (fuel + 1) (some p) = some stc ∧
      stc.alloc N k (fuel2 + 1) = some (p, st2c) ∧
      stf.free_ = stc.free_ ∧ stc.cells = t.pool.cells := by
  obtain ⟨j, c, s, sv, elems, hinv, _, hret⟩ := reach_inv h hN
  have hnil : elems = [] := by
    have hc := contents_of_inv hinv.queue
    rw [hempty] at hc
    simpa using hc.symm
  subst hnil
  have hpc := hret p hp
  obtain ⟨stf, hfr, hinvf, _⟩ := free_spec hinv dtor fuel (cell_lt_of_inv hinv hN hpc)
  obtain ⟨stc, hcl, hinvc, hcells⟩ := clean_spec hinv fuel p
  simp only [List.nil_append] at hinvf hinvc
  have hne : ∀ {st : ObjectPool T} {e : Nat × Option Nat},
      PoolInv N st j c s sv [e] → st.free_.empty = false := by
    intro st e hi
    unfold Queue.empty
    rw [hi.queue.size_eq]
    rfl
  obtain ⟨q1, half, _⟩ := alloc_from_free_list hinvf k fuel2 (hne hinvf) rfl
  obtain ⟨q2, halc, _⟩ := alloc_from_free_list hinvc k fuel2 (hne hinvc) rfl
  refine ⟨stf, _, stc, _, hfr, half, hcl, halc, ?_, hcells⟩
  have e1 : t.pool.free_.enqueue (fuel + 1) (some p) = some stf.free_ := by
    unfold ObjectPool.free at hfr
    cases hg : t.pool.cells[p]? with
    | none => simp [hg] at hfr
    | some x =>
      cases hq : t.pool.free_.enqueue (fuel + 1) (some p) with
      | none => simp [hg, hq] at hfr
      | some q =>
        simp only [hg, hq, Option.some.injEq] at hfr
        rw [← hfr]
  have e2 : t.pool.free_.enqueue (fuel + 1) (some p) = some stc.free_ := by
    unfold ObjectPool.clean at hcl
    cases hq : t.pool.free_.enqueue (fuel + 1) (some p) with
    | none => simp [hq] at hcl
    | some q =>
      simp only [hq, Option.some.injEq] at hcl
      rw [← hcl]
  rw [e1] at e2
  exact Option.some.inj e2

/-- Instance of C14 (the test `CanAllocFromFree`): one `alloc` on a new pool with arrays
of 4 cells, then `free` or `clean` of the result and a second `alloc`. -/
theorem released_cell_is_reallocated_witness :
    ObjectPool.new Nat 4 = some pool4 ∧ pool4.alloc 4 2 1 = some (0, pool4a) ∧
    pool4a.free_.contents = some [] ∧
    ∃ stf st2f stc st2c,
      pool4a.free id 1 (some 0) = some stf ∧ stf.alloc 4 2 1 = some (0, st2f) ∧
      pool4a.clean 1 (some 0) = some stc ∧ stc.alloc 4 2 1 = some (0, st2c) ∧
      stf.free_ = stc.free_ ∧ stc.cells = pool4a.cells :=
  ⟨by decide, by decide, by decide,
    released_cell_is_reallocated 4 2 id { pool := pool4a, live := [0], returned := [0] }
      (Reach.alloc 0 (Reach.fresh (by decide : ObjectPool.new Nat 4 = some pool4))
        (by decide : pool4.alloc 4 2 (0 + 1) = some (0, pool4a)))
      (by decide) (by decide) 0 (by decide) 0 0⟩

/-! ## Executions with spurious failures of the weak compare-exchange -/

theorem head_ne_true_of_noFail {wf : List Bool} (h : ∀ b ∈ wf, b = false) :
    ¬ wf.head? = some true := by
  cases wf with
  | nil => simp
  | cons b tl =>
    have := h b (List.mem_cons_self _ _)
    simp [this]

theorem tail_noFail {wf : List Bool} (h : ∀ b ∈ wf, b = false) : ∀ b ∈ wf.tail, b = false :=
  fun b hb => h b (List.mem_of_mem_tail hb)

theorem getPtrLoopRest_weak {T : Type} [Inhabited T] (N : Nat) :
    ∀ (fuel : Nat) (wf : List Bool) (st : ObjectPool T) (t : Option Nat),
      (getPtrLoopRest N fuel wf st t).map (fun r => (r.1, r.2.1)) =
        getPtrLoopWeak N fuel wf st t := by
  intro fuel
  induction fuel with
  | zero =>
    intro wf st t
    rfl
  | succ f ih =>
    intro wf st t
    unfold getPtrLoopRest getPtrLoopWeak
    by_cases hc : st.current_ = t
    · simp only [if_pos hc]
      split <;> rfl
    · simp only [if_neg hc]
      cases hcur : st.current_ with
      | none => rfl
      | some p =>
        simp only []
        by_cases hw : wf.head? = some true
        · simp only [if_pos hw]
          exact ih _ _ _
        · simp only [if_neg hw, if_true, Option.map_some']

theorem getPtrLoopRest_noFail {T : Type} [Inhabited T] (N : Nat) :
    ∀ (fuel : Nat) (wf : List Bool) (st : ObjectPool T) (t : Option Nat),
      (∀ b ∈ wf, b = false) →
      ∃ rest, (∀ b ∈ rest, b = false) ∧
        getPtrLoopRest N fuel wf st t =
          (getPtrLoop N fuel st t).map (fun r => (r.1, r.2, rest)) := by
  intro fuel
  induction fuel with
  | zero =>
    intro wf st t hno
    exact ⟨wf, hno, rfl⟩
  | succ f ih =>
    intro wf st t hno
    unfold getPtrLoopRest getPtrLoop
    by_cases hc : st.current_ = t
    · refine ⟨wf, hno, ?_⟩
      simp only [if_pos hc]
      split <;> rfl
    · simp only [if_neg hc]
      cases hcur : st.current_ with
      | none => exact ⟨wf, hno, rfl⟩
      | some p =>
        refine ⟨wf.tail, tail_noFail hno, ?_⟩
        simp only [if_neg (head_ne_true_of_noFail hno), if_true, Option.map_some']

theorem allocLoopWeak_noFail {T : Type} [Inhabited T] (N k fuel : Nat) :
    ∀ (n : Nat) (wf : List Bool) (st : ObjectPool T), (∀ b ∈ wf, b = false) →
      ∃ rest, (∀ b ∈ rest, b = false) ∧
        ObjectPool.allocLoopWeak N k fuel n wf st =
          (ObjectPool.allocLoop N k fuel n st).map (fun r => (r.1, r.2, rest)) := by
  intro n
  induction n with
  | zero =>
    intro wf st hno
    exact ⟨wf, hno, rfl⟩
  | succ m ih =>
    intro wf st hno
    unfold ObjectPool.allocLoopWeak ObjectPool.allocLoop
    cases he : st.free_.empty with
    | true =>
      simp only [if_true]
      have hget : ∃ rest, (∀ b ∈ rest, b = false) ∧
          st.getPtrFromBufferRest N fuel wf =
            (st.getPtrFromBuffer N fuel).map (fun r => (r.1, r.2, rest)) := by
        unfold ObjectPool.getPtrFromBufferRest ObjectPool.getPtrFromBuffer
        by_cases hcur : st.current_ = none
        · exact ⟨wf, hno, by simp only [if_pos hcur, Option.map_some']⟩
        · simp only [if_neg hcur]
          exact getPtrLoopRest_noFail N fuel wf st _ hno
      obtain ⟨rest, hrest, hg⟩ := hget
      rw [hg]
      cases hb : st.getPtrFromBuffer N fuel with
      | none => exact ⟨rest, hrest, rfl⟩
      | some r =>
        obtain ⟨ptr, st1⟩ := r
        cases ptr with
        | none =>
          simp only [Option.map_some']
          exact ih rest st1 hrest
        | some a => exact ⟨rest, hrest, rfl⟩
    | false =>
      simp only [Bool.false_eq_true, if_false]
      cases hd : st.free_.dequeue k fuel with
      | none => exact ⟨wf, hno, rfl⟩
      | some r =>
        obtain ⟨o, q1⟩ := r
        cases o with
        | none =>
          simp only []
          exact ih wf _ hno
        | some v =>
          cases v with
          | none =>
            simp only []
            exact ih wf _ hno
          | some a => exact ⟨wf, hno, rfl⟩

theorem allocNWeak_noFail {T : Type} [Inhabited T] (N k fuel : Nat) :
    ∀ (n : Nat) (wf : List Bool) (st : ObjectPool T), (∀ b ∈ wf, b = false) →
      ∃ rest, (∀ b ∈ rest, b = false) ∧
        allocNWeak N k fuel n wf st =
          (allocN N k fuel n st).map (fun r => (r.1, r.2, rest)) := by
  intro n
  induction n with
  | zero =>
    intro wf st hno
    exact ⟨wf, hno, rfl⟩
  | succ m ih =>
    intro wf st hno
    unfold allocNWeak allocN
    obtain ⟨rest, hrest, ha⟩ := allocLoopWeak_noFail N k fuel fuel wf st hno
    unfold ObjectPool.allocWeak ObjectPool.alloc
    rw [ha]
    cases hb : ObjectPool.allocLoop N k fuel fuel st with
    | none => exact ⟨rest, hrest, rfl⟩
    | some r =>
      obtain ⟨a, st1⟩ := r
      simp only [Option.map_some']
      obtain ⟨rest2, hrest2, hn⟩ := ih rest st1 hrest
      rw [hn]
      cases hc : allocN N k fuel m st1 with
      | none => exact ⟨rest2, hrest2, rfl⟩
      | some r2 => exact ⟨rest2, hrest2, rfl⟩

theorem allocFreshWeak_noFail (T : Type) [Inhabited T] (N k fuel n : Nat) (wf : List Bool)
    (hno : ∀ b ∈ wf, b = false) :
    ∃ rest, (∀ b ∈ rest, b = false) ∧
      allocFreshWeak T N k fuel n wf =
        (allocFresh T N k fuel n).map (fun r => (r.1, r.2, rest)) := by
  unfold allocFreshWeak allocFresh
  cases hnew : ObjectPool.new T N with
  | none => exact ⟨wf, hno, rfl⟩
  | some st => exact allocNWeak_noFail N k fuel n wf st hno

/-- What the test `BlockSwap` observes when no weak compare-exchange fails spuriously: on a
new pool with `DEFAULT_BUFFER_SIZE > 0` and no frees, before each of the first
`DEFAULT_BUFFER_SIZE` calls of `alloc` the member `last_` has its initial value; after that
many calls `last_` differs from its initial value, `current_` advanced by
`DEFAULT_BUFFER_SIZE - 1` cells equals `last_`, and `current_` is the start of the array
appended last to `blocks_`. -/
theorem allocFresh_last_changes_with_last_cell (T : Type) [Inhabited T] (N k fuel : Nat)
    (hN : 0 < N) :
    ∃ st0, ObjectPool.new T N = some st0 ∧
      (∀ i, i < N → ∃ ps st, allocFresh T N k (fuel + 1) i = some (ps, st) ∧
        st.last_ = st0.last_) ∧
      ∃ ps st c, allocFresh T N k (fuel + 1) N = some (ps, st) ∧ st.last_ ≠ st0.last_ ∧
        st.current_ = some c ∧ c + (N - 1) = st.last_ ∧ st.blocks_.getLast? = some c := by
  obtain ⟨st0, hnew, _, hlast0, _⟩ := new_pool_inv T N
  refine ⟨st0, hnew, ?_, ?_⟩
  · intro i hi
    obtain ⟨st, hrun, hinv⟩ := allocFresh_spec T hN k fuel i
    refine ⟨_, st, hrun, ?_⟩
    rw [hinv.last_eq, hlast0, Nat.div_eq_of_lt hi]
    simp
  · obtain ⟨st, hrun, hinv⟩ := allocFresh_spec T hN k fuel N
    rw [Nat.div_self hN] at hinv
    refine ⟨_, st, N, hrun, ?_, hinv.current_eq, ?_, ?_⟩
    · rw [hinv.last_eq, hlast0]
      omega
    · rw [hinv.last_eq]
      omega
    · rw [hinv.blocks_eq]
      simp [List.range_succ]

/-- C15 fails on the code.  On a new pool with arrays of 4 cells `last_` is address 3.  In
the execution in which the weak compare-exchange of the first `alloc` fails once
spuriously, that `alloc` returns the cell at address 0 and performs the swap: `last_` is
address 7 and `current_` address 4 when the second `alloc` is called, although only one of
the 4 cells was handed out (the test `BlockSwap` asserts that `last_` is unchanged at that
point).  Without the failure `last_` is still address 3 after the first `alloc`. -/
theorem last_changes_on_first_alloc :
    (ObjectPool.new Nat 4).map (fun st => st.last_) = some 3 ∧
    (allocFreshWeak Nat 4 2 2 1 [true]).map
        (fun r => (r.1, r.2.1.last_, r.2.1.current_)) = some ([0], 7, some 4) ∧
    (allocFreshWeak Nat 4 2 2 1 [false]).map
        (fun r => (r.1, r.2.1.last_, r.2.1.current_)) = some ([0], 3, some 1) ∧
    (allocFreshWeak Nat 4 2 2 1 []).map
        (fun r => (r.1, r.2.1.last_, r.2.1.current_)) = some ([0], 3, some 1) := by
  refine ⟨?_, ?_, ?_, ?_⟩ <;> decide

/-- C16 fails on the code: with arrays of 4 cells, and with arrays of 4096 cells, `last_`
has already changed when `DEFAULT_BUFFER_SIZE` cells have been allocated; the alloc that
hands out the last cell of the array performs the swap, not the one after it. -/
theorem last_changed_after_slab_size_allocs :
    ((ObjectPool.new Nat 4).map (fun st => st.last_) = some 3 ∧
      (allocFresh Nat 4 2 1 3).map (fun r => (r.1, r.2.last_, r.2.blocks_)) =
        some ([0, 1, 2], 3, [0]) ∧
      (allocFresh Nat 4 2 1 4).map (fun r => (r.1, r.2.last_, r.2.blocks_)) =
        some ([0, 1, 2, 3], 7, [0, 4])) ∧
    (∃ st0 ps st, ObjectPool.new Nat 4096 = some st0 ∧
      allocFresh Nat 4096 2 1 4096 = some (ps, st) ∧ st.last_ ≠ st0.last_) := by
  constructor
  · decide
  · obtain ⟨st0, hnew, _, hlast0, _⟩ := new_pool_inv Nat 4096
    obtain ⟨st, hrun, hinv⟩ := allocFresh_spec Nat (by decide : 0 < 4096) 2 0 4096
    refine ⟨st0, _, st, hnew, hrun, ?_⟩
    rw [hinv.last_eq, hlast0]
    simp

/-- Allocations on a new pool with `DEFAULT_BUFFER_SIZE > 0` when no weak compare-exchange
fails: after any number of allocs up to `DEFAULT_BUFFER_SIZE - 1` the members `last_` and
`blocks_` are unchanged; the `DEFAULT_BUFFER_SIZE`-th alloc returns the last cell of the
first array and performs the swap. -/
theorem allocFresh_swap_on_last_cell (T : Type) [Inhabited T] (N k fuel : Nat) (hN : 0 < N) :
    ∃ st0, ObjectPool.new T N = some st0 ∧
      (∀ i, i ≤ N - 1 → ∃ ps st, allocFresh T N k (fuel + 1) i = some (ps, st) ∧
        st.last_ = st0.last_ ∧ st.blocks_ = st0.blocks_) ∧
      ∃ ps st, allocFresh T N k (fuel + 1) N = some (ps, st) ∧
        ps.getLast? = some st0.last_ ∧
        st.blocks_ = st0.blocks_ ++ [st0.next_] ∧ st.current_ = some st0.next_ ∧
        st.last_ = st0.next_ + (N - 1) ∧ st.last_ ≠ st0.last_ ∧
        st.last_ < st.cells.length := by
  obtain ⟨st0, hnew, hinv0, hlast0, hblocks0⟩ := new_pool_inv T N
  have hnext0 : st0.next_ = N := by
    rw [hinv0.next_eq]
    simp
  refine ⟨st0, hnew, ?_, ?_⟩
  · intro i hi
    obtain ⟨st, hrun, hinv⟩ := allocFresh_spec T hN k fuel i
    have hdiv : i / N = 0 := Nat.div_eq_of_lt (by omega)
    rw [hdiv] at hinv
    refine ⟨_, st, hrun, ?_, ?_⟩
    · rw [hinv.last_eq, hlast0]
      simp
    · rw [hinv.blocks_eq, hblocks0]
      simp [List.range_succ]
  · obtain ⟨st, hrun, hinv⟩ := allocFresh_spec T hN k fuel N
    rw [Nat.div_self hN] at hinv
    have hcells := hinv.cells_len
    refine ⟨_, st, hrun, ?_, ?_, ?_, ?_, ?_, ?_⟩
    · rw [hlast0]
      obtain ⟨m, hm⟩ : ∃ m, N = m + 1 := ⟨N - 1, by omega⟩
      rw [hm, List.range'_concat]
      simp
    · rw [hinv.blocks_eq, hblocks0, hnext0]
      simp [List.range_succ]
    · rw [hinv.current_eq, hnext0]
    · rw [hinv.last_eq, hnext0]
      simp
    · rw [hinv.last_eq, hlast0]
      omega
    · rw [hinv.last_eq, hcells]
      simp only [Nat.add_mul]
      omega

/-- C16 as amended: on a new pool with `DEFAULT_BUFFER_SIZE > 0`, in every execution in
which no weak compare-exchange fails spuriously (`weakFails` holds no `true`), after any
number of allocs up to `DEFAULT_BUFFER_SIZE - 1` the members `last_` and `blocks_` are
unchanged; the `DEFAULT_BUFFER_SIZE`-th alloc returns the last cell of the first array and
performs the swap: the array the future yields is appended to `blocks_`, `current_` is its
first cell, `last_` its last one, `DEFAULT_BUFFER_SIZE - 1` cells further, all of them in
storage. -/
theorem swap_on_last_cell_of_slab (T : Type) [Inhabited T] (N k fuel : Nat)
    (weakFails : List Bool) (hN : 0 < N) (hno : ∀ b ∈ weakFails, b = false) :
    ∃ st0, ObjectPool.new T N = some st0 ∧
      (∀ i, i ≤ N - 1 → ∃ ps st rest,
        allocFreshWeak T N k (fuel + 1) i weakFails = some (ps, st, rest) ∧
        st.last_ = st0.last_ ∧ st.blocks_ = st0.blocks_) ∧
      ∃ ps st rest, allocFreshWeak T N k (fuel + 1) N weakFails = some (ps, st, rest) ∧
        ps.getLast? = some st0.last_ ∧
        st.blocks_ = st0.blocks_ ++ [st0.next_] ∧ st.current_ = some st0.next_ ∧
        st.last_ = st0.next_ + (N - 1) ∧ st.last_ ≠ st0.last_ ∧
        st.last_ < st.cells.length := by
  obtain ⟨st0, hnew, hsmall, ps, st, hrun, hrest⟩ := allocFresh_swap_on_last_cell T N k fuel hN
  refine ⟨st0, hnew, ?_, ?_⟩
  · intro i hi
    obtain ⟨ps1, st1, hrun1, h1⟩ := hsmall i hi
    obtain ⟨rest, _, heq⟩ := allocFreshWeak_noFail T N k (fuel + 1) i weakFails hno
    refine ⟨ps1, st1, rest, ?_, h1⟩
    rw [heq, hrun1]
    rfl
  · obtain ⟨rest, _, heq⟩ := allocFreshWeak_noFail T N k (fuel + 1) N weakFails hno
    refine ⟨ps, st, rest, ?_, hrest⟩
    rw [heq, hrun]
    rfl

/-- Instance of the amended C16 for arrays of 4 cells and an execution of five weak
compare-exchanges, none of which fails. -/
theorem swap_on_last_cell_of_slab_witness :
    0 < 4 ∧ (∀ b ∈ [false, false, false, false, false], b = false) ∧
    (allocFreshWeak Nat 4 2 1 3 [false, false, false, false, false]).map
        (fun r => (r.1, r.2.1.last_, r.2.1.blocks_)) = some ([0, 1, 2], 3, [0]) ∧
    (allocFreshWeak Nat 4 2 1 4 [false, false, false, false, false]).map
        (fun r => (r.1, r.2.1.last_, r.2.1.blocks_)) = some ([0, 1, 2, 3], 7, [0, 4]) ∧
    ∃ st0, ObjectPool.new Nat 4 = some st0 ∧
      (∀ i, i ≤ 4 - 1 → ∃ ps st rest,
        allocFreshWeak Nat 4 2 1 i [false, false, false, false, false] =
          some (ps, st, rest) ∧
        st.last_ = st0.last_ ∧ st.blocks_ = st0.blocks_) ∧
      ∃ ps st rest,
        allocFreshWeak Nat 4 2 1 4 [false, false, false, false, false] =
          some (ps, st, rest) ∧
        ps.getLast? = some st0.last_ ∧
        st.blocks_ = st0.blocks_ ++ [st0.next_] ∧ st.current_ = some st0.next_ ∧
        st.last_ = st0.next_ + (4 - 1) ∧ st.last_ ≠ st0.last_ ∧
        st.last_ < st.cells.length :=
  ⟨by decide, by decide, by decide, by decide,
    swap_on_last_cell_of_slab Nat 4 2 0 [false, false, false, false, false] (by decide)
      (by decide)⟩

/-- Allocations when no weak compare-exchange fails spuriously: on a new pool with
`DEFAULT_BUFFER_SIZE = N > 0` and no `free` or `clean`, `n` calls of `alloc` return, and the
`i`-th one (counted from 0) returns cell `i mod N` of the array `blocks_[i div N]`; a call
that follows another one inside the same array returns the next cell. -/
theorem allocFresh_fills_slabs_in_order (T : Type) [Inhabited T] (N k fuel n : Nat)
    (hN : 0 < N) :
    ∃ ps st, allocFresh T N k (fuel + 1) n = some (ps, st) ∧ ps.length = n ∧
      (∀ i, i < n → ∃ b, st.blocks_[i / N]? = some b ∧ ps[i]? = some (b + i % N)) ∧
      (∀ i, i + 1 < n → (i + 1) / N = i / N →
        ∃ a, ps[i]? = some a ∧ ps[i + 1]? = some (a + 1)) := by
  obtain ⟨st, hrun, hinv⟩ := allocFresh_spec T hN k fuel n
  refine ⟨_, st, hrun, by simp, ?_, ?_⟩
  · intro i hi
    have hle : i ≤ st.last_ := by
      have := hinv.hi
      omega
    obtain ⟨hb, _, hsum⟩ := in_block_of_inv hinv hN hle
    refine ⟨_, hb, ?_⟩
    rw [List.getElem?_range' _ _ hi, ← hsum]
    simp
  · intro i hi _
    refine ⟨i, ?_, ?_⟩
    · rw [List.getElem?_range' _ _ (by omega)]
      simp
    · rw [List.getElem?_range' _ _ hi]
      simp

/-- C17 fails on the code.  On a new pool with arrays of 4 cells, in the execution in which
the weak compare-exchange of the first `alloc` fails once spuriously, four sequential calls
of `alloc` return the addresses 0, 4, 5, 6: the call with index 1 returns cell 0 of the
second array, not cell 1 of the first, and is 4 cells away from the call before it (the
test `ContiguousAllocationFromBuffer` asserts a distance of 1).  With the failure in the
third call the addresses are 0, 1, 2, 4, 5, 6.  Without a failure they are 0, 1, 2, 3. -/
theorem allocs_skip_cells_after_failed_exchange :
    (allocFreshWeak Nat 4 2 2 4 [true]).map (fun r => (r.1, r.2.1.blocks_)) =
      some ([0, 4, 5, 6], [0, 4]) ∧
    (allocFreshWeak Nat 4 2 2 6 [false, false, true]).map (fun r => (r.1, r.2.1.blocks_)) =
      some ([0, 1, 2, 4, 5, 6], [0, 4]) ∧
    (allocFreshWeak Nat 4 2 2 4 []).map (fun r => (r.1, r.2.1.blocks_)) =
      some ([0, 1, 2, 3], [0, 4]) := by
  refine ⟨?_, ?_, ?_⟩ <;> decide

/-- C18: in every state a single thread reaches from a new pool (`DEFAULT_BUFFER_SIZE > 0`)
by `alloc`, `free` and `clean` calls applied to live cells only, the live cells are
pairwise distinct and none of them is in the free list; the next `alloc` returns, with a
cell that is not live, and `free` and `clean` of a live cell return. -/
theorem live_cells_are_distinct {T : Type} [Inhabited T] (N k : Nat) (dtor : T → T)
    (t : Tracked T) (h : ReachLive N k dtor t) (hN : 0 < N) :
    t.live.Nodup ∧
    (∃ F, t.pool.free_.contents = some F ∧ ∀ a ∈ t.live, some a ∉ F) ∧
    (∀ fuel, ∃ p st1, t.pool.alloc N k (fuel + 1) = some (p, st1) ∧ p ∉ t.live) ∧
    (∀ fuel p, p ∈ t.live →
      (∃ st1, t.pool.free dtor (fuel + 1) (some p) = some st1) ∧
      (∃ st1, t.pool.clean (fuel + 1) (some p) = some st1)) := by
  obtain ⟨j, c, s, sv, elems, Fn, hinv, hF, hperm⟩ := live_inv h hN
  have hnd : (t.live ++ Fn).Nodup := (List.Perm.nodup_iff hperm).mpr (List.nodup_range c)
  have hdisj : ∀ a ∈ t.live, a ∉ Fn := fun a ha hf =>
    (List.nodup_append.mp hnd).2.2 ha hf
  refine ⟨(List.nodup_append.mp hnd).1, ⟨Fn.map some, ?_, ?_⟩, ?_, ?_⟩
  · rw [contents_of_inv hinv.queue, hF]
  · intro a ha hmem
    rw [List.mem_map] at hmem
    obtain ⟨b, hb, hbe⟩ := hmem
    cases hbe
    exact hdisj a ha hb
  · intro fuel
    cases he : t.pool.free_.empty with
    | true =>
      obtain ⟨st1, j1, hal, _⟩ := alloc_from_buffer hinv hN k fuel he
      refine ⟨c, st1, hal, ?_⟩
      intro hmem
      have := List.mem_range.mp (hperm.subset (List.mem_append_left _ hmem))
      omega
    | false =>
      obtain ⟨e, rest, hel⟩ := cons_of_not_empty hinv.queue he
      subst hel
      cases Fn with
      | nil => simp at hF
      | cons a Fn1 =>
        simp only [List.map_cons, List.cons.injEq] at hF
        obtain ⟨q1, hal, _⟩ := alloc_from_free_list hinv k fuel he hF.1
        exact ⟨a, _, hal, fun hmem => hdisj a hmem (List.mem_cons_self _ _)⟩
  · intro fuel p hp
    have hpc : p < c := List.mem_range.mp (hperm.subset (List.mem_append_left _ hp))
    obtain ⟨st1, hfr, _⟩ := free_spec hinv dtor fuel (cell_lt_of_inv hinv hN hpc)
    obtain ⟨st2, hcl, _⟩ := clean_spec hinv fuel p
    exact ⟨⟨st1, hfr⟩, ⟨st2, hcl⟩⟩

/-- Instance of C18 on the pool with arrays of 4 cells after one `alloc`. -/
theorem live_cells_are_distinct_witness :
    0 < 4 ∧ ObjectPool.new Nat 4 = some pool4 ∧ pool4.alloc 4 2 1 = some (0, pool4a) ∧
    [0].Nodup ∧
    (∃ F, pool4a.free_.contents = some F ∧ ∀ a ∈ [0], some a ∉ F) ∧
    (∀ fuel, ∃ p st1, pool4a.alloc 4 2 (fuel + 1) = some (p, st1) ∧ p ∉ [0]) ∧
    (∀ fuel p, p ∈ [0] →
      (∃ st1, pool4a.free id (fuel + 1) (some p) = some st1) ∧
      (∃ st1, pool4a.clean (fuel + 1) (some p) = some st1)) :=
  ⟨by decide, by decide, by decide,
    live_cells_are_distinct 4 2 id { pool := pool4a, live := [0], returned := [0] }
      (ReachLive.alloc 0 (ReachLive.fresh (by decide : ObjectPool.new Nat 4 = some pool4))
        (by decide : pool4.alloc 4 2 (0 + 1) = some (0, pool4a)))
      (by decide)⟩

/-- C19 fails on the code.  `alloc(args...)` assigns `T(args...)` to the object in the cell
that `alloc()` returns instead of constructing it there.  On a new pool this gives the
cell the value (`alloc(150)` on a pool of numbers, `alloc` of an object on a pool of
`Str`).  In the pool of `Str` reached by `alloc()` and `free` of the returned cell, `alloc()`
returns that cell, whose object `free` destroyed, so that the assignment of `alloc(args...)`
is undefined. -/
theorem alloc_with_args_assigns_to_destroyed_object :
    (pool4.allocWith 4 2 1 (fun _ => true) 150).map (fun r => (r.1, r.2.cells[0]?)) =
      some (0, some 150) ∧
    ObjectPool.new Str 4 = some strPool ∧
    (strPool.allocWith 4 2 1 Str.alive (Str.obj 5)).map (fun r => (r.1, r.2.cells[0]?)) =
      some (0, some (Str.obj 5)) ∧
    ((strPool.alloc 4 2 1).bind (fun r => r.2.free Str.dtor 1 (some r.1))) =
      some strPoolFreed ∧
    strPoolFreed.cells[0]? = some Str.destroyed ∧
    (strPoolFreed.alloc 4 2 1).map (fun r => r.1) = some 0 ∧
    strPoolFreed.allocWith 4 2 1 Str.alive (Str.obj 5) = none := by
  refine ⟨?_, ?_, ?_, ?_, ?_, ?_, ?_⟩ <;> decide

/-- C20: in every state a single thread reaches from a new pool (`DEFAULT_BUFFER_SIZE > 0`)
by `alloc`, `free` and `clean` calls, `free` and `clean` being given addresses previously
returned by `alloc`, the next `alloc` returns, and the address it returns is
`blocks_[i] + o` for an index `i` and an offset `o < DEFAULT_BUFFER_SIZE` and is in
storage; so is every address returned before. -/
theorem allocated_cells_lie_in_blocks {T : Type} [Inhabited T] (N k : Nat) (dtor : T → T)
    (t : Tracked T) (h : Reach N k dtor t) (hN : 0 < N) (fuel : Nat) :
    (∃ p st1, t.pool.alloc N k (fuel + 1) = some (p, st1) ∧
      (∃ (i b o : Nat), st1.blocks_[i]? = some b ∧ o < N ∧ p = b + o) ∧ p < st1.cells.length) ∧
    (∀ a ∈ t.returned,
      (∃ (i b o : Nat), t.pool.blocks_[i]? = some b ∧ o < N ∧ a = b + o) ∧
        a < t.pool.cells.length) := by
  obtain ⟨j, c, s, sv, elems, hinv, hfree, hret⟩ := reach_inv h hN
  have key : ∀ {st : ObjectPool T} {j1 c1 s1 : Nat} {sv1 : Option Nat}
      {el : List (Nat × Option Nat)}, PoolInv N st j1 c1 s1 sv1 el → ∀ a, a < c1 →
      (∃ (i b o : Nat), st.blocks_[i]? = some b ∧ o < N ∧ a = b + o) ∧ a < st.cells.length := by
    intro st j1 c1 s1 sv1 el hi a ha
    have hle : a ≤ st.last_ := by
      have := hi.hi
      omega
    obtain ⟨hb, hmod, hsum⟩ := in_block_of_inv hi hN hle
    exact ⟨⟨_, _, _, hb, hmod, hsum⟩, cell_lt_of_inv hi hN ha⟩
  refine ⟨?_, fun a ha => key hinv a (hret a ha)⟩
  cases he : t.pool.free_.empty with
  | true =>
    obtain ⟨st1, j1, hal, hinv1, _, _⟩ := alloc_from_buffer hinv hN k fuel he
    obtain ⟨h1, h2⟩ := key hinv1 c (by omega)
    exact ⟨c, st1, hal, h1, h2⟩
  | false =>
    obtain ⟨e, rest, hel⟩ := cons_of_not_empty hinv.queue he
    subst hel
    obtain ⟨a, ha, hlt⟩ := hfree e (List.mem_cons_self _ _)
    obtain ⟨q1, hal, hinv1⟩ := alloc_from_free_list hinv k fuel he ha
    obtain ⟨h1, h2⟩ := key hinv1 a hlt
    exact ⟨a, _, hal, h1, h2⟩

/-- Instance of C20 on the pool with arrays of 4 cells after one `alloc`. -/
theorem allocated_cells_lie_in_blocks_witness :
    0 < 4 ∧ ObjectPool.new Nat 4 = some pool4 ∧ pool4.alloc 4 2 1 = some (0, pool4a) ∧
    (∃ p st1, pool4a.alloc 4 2 1 = some (p, st1) ∧
      (∃ (i b o : Nat), st1.blocks_[i]? = some b ∧ o < 4 ∧ p = b + o) ∧ p < st1.cells.length) ∧
    (∀ a ∈ [0],
      (∃ (i b o : Nat), pool4a.blocks_[i]? = some b ∧ o < 4 ∧ a = b + o) ∧
        a < pool4a.cells.length) :=
  ⟨by decide, by decide, by decide,
    allocated_cells_lie_in_blocks 4 2 id { pool := pool4a, live := [0], returned := [0] }
      (Reach.alloc 0 (Reach.fresh (by decide : ObjectPool.new Nat 4 = some pool4))
        (by decide : pool4.alloc 4 2 (0 + 1) = some (0, pool4a)))
      (by decide) 0⟩

/-- C21: in a state reached from a new pool (`DEFAULT_BUFFER_SIZE > 0`) by `alloc`, `free`
and `clean` calls.  When the free list is not empty (and holds fewer than `2 ^ 64` cells),
`alloc()` returns the cell at its front, removes it from the list and leaves `current_`,
`last_`, `blocks_`, `next_` and the cells unchanged; when the free list is empty, `alloc()`
returns the cell `current_` points to and `current_` changes. -/
theorem alloc_takes_front_of_free_list {T : Type} [Inhabited T] (N k : Nat) (dtor : T → T)
    (t : Tracked T) (h : Reach N k dtor t) (hN : 0 < N) (fuel : Nat) :
    (∀ f F, t.pool.free_.contents = some (f :: F) → (f :: F).length < SIZE_T_MOD →
      ∃ a st1, f = some a ∧ t.pool.alloc N k (fuel + 1) = some (a, st1) ∧
        st1.free_.contents = some F ∧ st1.current_ = t.pool.current_ ∧
        st1.last_ = t.pool.last_ ∧ st1.blocks_ = t.pool.blocks_ ∧
        st1.next_ = t.pool.next_ ∧ st1.cells = t.pool.cells) ∧
    (t.pool.free_.contents = some [] →
      ∃ c st1, t.pool.current_ = some c ∧ t.pool.alloc N k (fuel + 1) = some (c, st1) ∧
        st1.current_ ≠ t.pool.current_ ∧ st1.free_ = t.pool.free_) := by
  obtain ⟨j, c, s, sv, elems, hinv, hfree, _⟩ := reach_inv h hN
  have hc := contents_of_inv hinv.queue
  constructor
  · intro f F hcont hlen
    rw [hcont] at hc
    cases elems with
    | nil => simp at hc
    | cons e rest =>
      simp only [List.map_cons, Option.some.injEq, List.cons.injEq] at hc
      obtain ⟨hf, hF⟩ := hc
      obtain ⟨a, ha, _⟩ := hfree e (List.mem_cons_self _ _)
      have hne : t.pool.free_.empty = false := by
        unfold Queue.empty
        have hsz := hinv.queue.size_exact (by
          have : (e :: rest).length = (f :: F).length := by
            rw [hF, List.length_cons, List.length_cons, List.length_map]
          omega)
        unfold Queue.size at hsz
        rw [hsz]
        rfl
      obtain ⟨q1, hal, hinv1⟩ := alloc_from_free_list hinv k fuel hne ha
      refine ⟨a, _, by rw [hf, ha], hal, ?_, rfl, rfl, rfl, rfl, rfl⟩
      rw [contents_of_inv hinv1.queue, hF]
  · intro hcont
    rw [hcont] at hc
    have hnil : elems = [] := by simpa using hc.symm
    subst hnil
    obtain ⟨st1, j1, hal, hinv1, hq, _⟩ :=
      alloc_from_buffer hinv hN k fuel (empty_of_inv_nil hinv.queue)
    refine ⟨c, st1, hinv.current_eq, hal, ?_, hq⟩
    rw [hinv1.current_eq, hinv.current_eq]
    simp

/-- Instance of C21: after `alloc`, `free` of the result on a pool with arrays of 4 cells,
the next `alloc` takes the cell from the free list and `current_` stays at address 1. -/
theorem alloc_takes_front_of_free_list_witness :
    0 < 4 ∧ pool4a.free id 1 (some 0) = some pool4f ∧
    pool4f.free_.contents = some [some 0] ∧
    ∃ a st1, some 0 = some a ∧ pool4f.alloc 4 2 1 = some (a, st1) ∧
      st1.free_.contents = some [] ∧ st1.current_ = pool4f.current_ ∧
      st1.last_ = pool4f.last_ ∧ st1.blocks_ = pool4f.blocks_ ∧
      st1.next_ = pool4f.next_ ∧ st1.cells = pool4f.cells :=
  ⟨by decide, by decide, by decide,
    (alloc_takes_front_of_free_list 4 2 id { pool := pool4f, live := [], returned := [0] }
      (Reach.free 0
        (Reach.alloc 0 (Reach.fresh (by decide : ObjectPool.new Nat 4 = some pool4))
          (by decide : pool4.alloc 4 2 (0 + 1) = some (0, pool4a)))
        (by decide)
        (by decide : pool4a.free id (0 + 1) (some 0) = some pool4f))
      (by decide) 0).1 (some 0) [] (by decide) (by decide)⟩

/-- The loop with an empty list of spurious failures is the loop of the sequential
model. -/
theorem getPtrLoopWeak_nil {T : Type} [Inhabited T] (N fuel : Nat) (st : ObjectPool T)
    (tmplast : Option Nat) :
    getPtrLoopWeak N fuel [] st tmplast = getPtrLoop N fuel st tmplast := by
  induction fuel generalizing st tmplast with
  | zero => rfl
  | succ f ih =>
    unfold getPtrLoopWeak getPtrLoop
    simp only [List.head?_nil, List.tail_nil, ih]
    simp

/-- C26 fails on the code.  On a new pool with arrays of 4 cells, `current_` is the cell at
address 0 and `last_` is address 3.  In the execution of `getPtrFromBuffer` in which the
weak compare-exchange fails once, the first strong compare-exchange fails and stores
`current_` in `tmplast`, so the second one succeeds: the swap is performed although
`current_` differs from `last_`, the call returns address 0, and the cells 1, 2, 3 are
never handed out: the next allocations return 4, 5, 6.  Without the failure the call
returns address 0 and `current_` becomes 1. -/
theorem swap_before_end_of_slab :
    pool4.current_ = some 0 ∧ pool4.last_ = 3 ∧
    pool4.getPtrFromBufferWeak 4 2 [true] = some (some 0, pool4swapped) ∧
    pool4swapped.blocks_ = [0, 4] ∧ pool4swapped.current_ = some 4 ∧
    (allocN 4 2 1 3 pool4swapped).map (fun r => r.1) = some [4, 5, 6] ∧
    pool4.getPtrFromBufferWeak 4 2 [] = some (some 0, pool4a) ∧
    pool4.getPtrFromBuffer 4 2 = some (some 0, pool4a) := by
  decide

end Memory
namespace Lockfree
open Memory

/-! ## Shape of the queue and protection of retired nodes -/

theorem addrsFrom_linked_le {T : Type} {nodes : List (Option (Node T))}
    (l : List (Nat × T)) (h : linked nodes l) :
    ∀ fuel, l.length ≤ fuel → addrsFrom fuel nodes (firstAddr l) = some (l.map Prod.fst) := by
  induction l with
  | nil =>
    intro fuel _
    cases fuel <;> rfl
  | cons e l ih =>
    obtain ⟨h1, h2⟩ := h
    intro fuel hle
    cases fuel with
    | zero => simp at hle
    | succ f =>
      show addrsFrom (f + 1) nodes (some e.1) = _
      unfold addrsFrom
      simp only [h1, ih h2 f (by simpa using hle), Option.map_some', List.map_cons]

theorem chain_of_linked {T : Type} {q : Queue T} {s : Nat} {sv : T}
    {elems : List (Nat × T)} (hh : q.head = some s) (hl : linked q.nodes ((s, sv) :: elems))
    (hnd : (s :: elems.map Prod.fst).Nodup) :
    q.chain = some (s :: elems.map Prod.fst) := by
  unfold Queue.chain
  rw [hh]
  have hlt : ∀ x ∈ s :: elems.map Prod.fst, x < q.nodes.length := by
    intro x hx
    obtain ⟨n, hn⟩ := linked_live hl x (by simpa using hx)
    exact load_lt hn
  have hlen := length_le_of_nodup_lt hnd hlt
  have := addrsFrom_linked_le ((s, sv) :: elems) hl q.nodes.length
    (by simpa using hlen)
  simpa [firstAddr] using this

theorem getLast_chain {T : Type} (s : Nat) (elems : List (Nat × T)) :
    (s :: elems.map Prod.fst).getLast? = some (lastAddr s elems) := by
  induction elems generalizing s with
  | nil => rfl
  | cons e l ih =>
    rw [lastAddr_cons, List.map_cons, List.getLast?_cons_cons]
    exact ih e.1

theorem retire_keeps_published {T : Type} (k : Nat) (node : Nat) (q : Queue T) {L : List Nat}
    (hL : q.mempool.slotList = some L) (hnd : (q.rlist ++ [node]).Nodup)
    (hlive : ∀ r ∈ q.rlist ++ [node], ∃ n, load q.nodes r = some n) :
    ∃ rl nodes1, q.retire k node = some { q with rlist := rl, nodes := nodes1 } ∧
      ∀ x ∈ q.rlist ++ [node], x ∈ publishedPayloads q.mempool.slots L →
        x ∈ rl ∧ load nodes1 x = load q.nodes x := by
  unfold Queue.retire
  simp only
  split
  · obtain ⟨H, rl, nodes1, hH, hscan, hperm, _, hload⟩ :=
      scan_spec { q with rlist := q.rlist ++ [node] } hL hnd hlive
    simp only at hscan hperm hload hH
    refine ⟨rl, nodes1, hscan, ?_⟩
    intro x hx hpub
    have hxH : x ∈ H := (hH x).mpr (mem_publishedPayloads.mp hpub)
    refine ⟨hperm.mem_iff.mpr (List.mem_filter.mpr ⟨hx, by simpa using hxH⟩), ?_⟩
    rw [hload x]
    simp [hxH]
  · exact ⟨q.rlist ++ [node], q.nodes, rfl, fun x hx _ => ⟨hx, rfl⟩⟩

/-- Details of a successful `dequeue` on a state satisfying the invariant, with distinct
hazard slots: the members `hptr_a`, `hptr_b` are unchanged, `hptr_a` publishes the old
sentinel, which is in the retire list and was not deleted. -/
theorem dequeue_cons_detail {T : Type} (k fuel : Nat) {q : Queue T} {s : Nat} {sv : T}
    {e : Nat × T} {rest : List (Nat × T)} (h : QInv q s sv (e :: rest))
    (hab : q.hptr_a ≠ q.hptr_b) :
    ∃ q1 a hz, q.dequeue k (fuel + 1) = some (some e.2, q1) ∧
      q1.hptr_a = q.hptr_a ∧ q1.hptr_b = q.hptr_b ∧
      q1.hptr_a = some a ∧ load q1.mempool.slots a = some hz ∧ hz.ptr_ = some s ∧
      s ∈ q1.rlist ∧ load q1.nodes s = load q.nodes s := by
  obtain ⟨a, b, ha, hb, hpool⟩ := h.hazards
  have hne : a ≠ b := by
    intro e1
    apply hab
    rw [ha, hb, e1]
  have hnd := h.nodup
  simp only [List.map_cons] at hnd
  have hs_notin : s ∉ e.1 :: rest.map Prod.fst := (List.nodup_cons.mp hnd).1
  have htail : q.tail ≠ some s := by
    rw [h.tail_eq, lastAddr_cons]
    intro heq
    have hmem := lastAddr_mem e.1 rest
    rw [Option.some.inj heq] at hmem
    exact hs_notin hmem
  obtain ⟨m1, m2, hp1, hp2, hloop⟩ :=
    dequeueLoop_take fuel q { value := sv, next := firstAddr (e :: rest) }
      h.head_eq h.chain.1 rfl htail h.chain.2.1 ha hb hpool.1 hpool.2.1
  have hpool1 := PoolOK_publish hpool hp1 hpool.1
  have hpool2 := PoolOK_publish hpool1 hp2 hpool1.2.1
  obtain ⟨L, hL, haL, _⟩ := hpool2.2.2
  obtain ⟨m1x, hp1x, _, _, _, _, _, ⟨hz1, hl1, hptr1⟩, _⟩ := publish_spec hpool.1 (some s)
  rw [hp1] at hp1x
  cases hp1x
  obtain ⟨m2x, hp2x, _, _, _, _, _, _, hother⟩ := publish_spec hpool1.2.1 (some e.1)
  rw [hp2] at hp2x
  cases hp2x
  have hl2 : load m2.slots a = some hz1 := by
    rw [hother a hne]
    exact hl1
  have hs_notin_r : s ∉ q.rlist := fun hr => h.rlist_disj s hr (List.mem_cons_self _ _)
  have hrnd : (q.rlist ++ [s]).Nodup := by
    rw [List.nodup_append]
    refine ⟨h.rlist_nodup, List.nodup_singleton s, ?_⟩
    intro x hx hxs
    rw [List.mem_singleton] at hxs
    subst hxs
    exact hs_notin_r hx
  have hrlive : ∀ r ∈ q.rlist ++ [s], ∃ n, load q.nodes r = some n := by
    intro r hr
    rcases List.mem_append.mp hr with hr1 | hr1
    · exact h.rlist_live r hr1
    · rw [List.mem_singleton] at hr1
      subst hr1
      exact ⟨_, h.chain.1⟩
  obtain ⟨rl, nodes1, hret, hkeep⟩ :=
    retire_keeps_published k s { q with mempool := m2, head := some e.1 } hL hrnd hrlive
  simp only at hret hkeep
  have hpub : s ∈ publishedPayloads m2.slots L :=
    mem_publishedPayloads.mpr ⟨a, haL, hz1, hl2, hptr1⟩
  obtain ⟨hin, hsame⟩ := hkeep s (List.mem_append_right _ (List.mem_singleton.mpr rfl)) hpub
  refine ⟨{ q with mempool := m2, head := some e.1, rlist := rl, nodes := nodes1,
                   size_ := (q.size_ + SIZE_T_MOD - 1) % SIZE_T_MOD }, a, hz1, ?_, rfl, rfl,
    ha, hl2, hptr1, hin, hsame⟩
  unfold Queue.dequeue
  simp only [hloop, hret]

theorem dequeue_nil_detail {T : Type} (k fuel : Nat) {q : Queue T} {s : Nat} {sv : T}
    (h : QInv q s sv []) :
    ∃ q1, q.dequeue k (fuel + 1) = some (none, q1) ∧
      q1.hptr_a = q.hptr_a ∧ q1.hptr_b = q.hptr_b := by
  obtain ⟨a, b, ha, hb, hpool⟩ := h.hazards
  obtain ⟨m1, m2, hp1, hp2, hloop⟩ :=
    dequeueLoop_empty fuel q h.head_eq h.chain.1 rfl ha hb hpool.1 hpool.2.1
  refine ⟨{ q with mempool := m2 }, ?_, rfl, rfl⟩
  unfold Queue.dequeue
  simp only [hloop]

/-- A run of calls keeps the invariant and the distinctness of the hazard slots, and the
values of the nodes after the sentinel follow the FIFO model. -/
theorem runOps_model {T : Type} (k fuel : Nat) (ops : List (QueueOp T)) :
    ∀ {q : Queue T} {s : Nat} {sv : T} {elems : List (Nat × T)}, QInv q s sv elems →
      q.hptr_a ≠ q.hptr_b →
      ∃ outs q1 s1 sv1 elems1, runOps k (fuel + 1) ops q = some (outs, q1) ∧
        QInv q1 s1 sv1 elems1 ∧ q1.hptr_a ≠ q1.hptr_b ∧
        elems1.map Prod.snd = fifoModel ops (elems.map Prod.snd) := by
  induction ops with
  | nil =>
    intro q s sv elems h hab
    exact ⟨[], q, s, sv, elems, rfl, h, hab, rfl⟩
  | cons op ops ih =>
    intro q s sv elems h hab
    cases op with
    | enqueue v =>
      obtain ⟨q1, he, hinv, _, _, ha1, hb1⟩ := enqueue_inv fuel v h
      obtain ⟨outs, q2, s2, sv2, elems2, hrun, hinv2, hab2, hmodel⟩ :=
        ih hinv (by rw [ha1, hb1]; exact hab)
      refine ⟨outs, q2, s2, sv2, elems2, ?_, hinv2, hab2, ?_⟩
      · simp only [runOps, he, hrun]
      · rw [hmodel]
        simp [fifoModel]
    | dequeue =>
      cases elems with
      | nil =>
        obtain ⟨q1, hd, hinv, _⟩ := dequeue_nil_inv k fuel h
        obtain ⟨q1x, hdx, ha1, hb1⟩ := dequeue_nil_detail k fuel h
        rw [hd] at hdx
        simp only [Option.some.injEq, Prod.mk.injEq, true_and] at hdx
        subst hdx
        obtain ⟨outs, q2, s2, sv2, elems2, hrun, hinv2, hab2, hmodel⟩ :=
          ih hinv (by rw [ha1, hb1]; exact hab)
        refine ⟨none :: outs, q2, s2, sv2, elems2, ?_, hinv2, hab2, ?_⟩
        · simp only [runOps, hd, hrun]
        · rw [hmodel]
          simp [fifoModel]
      | cons e rest =>
        obtain ⟨q1, hd, hinv⟩ := dequeue_cons_inv k fuel h
        obtain ⟨q1x, _, _, hdx, ha1, hb1, _⟩ := dequeue_cons_detail k fuel h hab
        rw [hd] at hdx
        simp only [Option.some.injEq, Prod.mk.injEq, true_and] at hdx
        subst hdx
        obtain ⟨outs, q2, s2, sv2, elems2, hrun, hinv2, hab2, hmodel⟩ :=
          ih hinv (by rw [ha1, hb1]; exact hab)
        refine ⟨some e.2 :: outs, q2, s2, sv2, elems2, ?_, hinv2, hab2, ?_⟩
        · simp only [runOps, hd, hrun]
        · rw [hmodel]
          simp [fifoModel]

theorem new_inv_distinct (T : Type) [Inhabited T] :
    ∃ q0, Queue.new T = some q0 ∧ QInv q0 0 default [] ∧ q0.hptr_a ≠ q0.hptr_b := by
  obtain ⟨q0, hnew, hinv, _⟩ := new_inv T
  refine ⟨q0, hnew, hinv, ?_⟩
  have h2 : Queue.new T = some
      { nodes := pushNew [] { value := default, next := none },
        head := some 0, tail := some 0, size_ := 0,
        mempool := (HzdMemPool.grown (HzdMemPool.grown HzdMemPool.new)),
        hptr_a := some 1, hptr_b := some 2, rlist := [] } := rfl
  rw [hnew] at h2
  cases h2
  simp

theorem contents_of_linked {T : Type} {q : Queue T} {s : Nat} {sv : T}
    {elems : List (Nat × T)} (hh : q.head = some s) (hl : linked q.nodes ((s, sv) :: elems))
    (hnd : (s :: elems.map Prod.fst).Nodup) : q.contents = some (elems.map Prod.snd) := by
  unfold Queue.contents Queue.begin
  simp only [hh, hl.1, Option.map_some']
  apply valuesFrom_linked_le elems hl.2
  have hlt : ∀ x ∈ s :: elems.map Prod.fst, x < q.nodes.length := by
    intro x hx
    obtain ⟨n, hn⟩ := linked_live hl x (by simpa using hx)
    exact load_lt hn
  have := length_le_of_nodup_lt hnd hlt
  simp only [List.length_cons, List.length_map] at this
  omega

/-! # Verified claims on retired nodes -/

/-- Shape of the queue in the runs of one thread: every run of `enqueue` and `dequeue`
calls on a new queue returns, and in the state it reaches `head` points to the first node of
the chain (the sentinel), the values of the nodes after it are the elements the FIFO model
holds, in order, and `tail` points to the last node of the chain.  Inside a following
`enqueue`, in the state after the new node was linked and before `tail` is moved, `head`
and the old chain are unchanged, the new node is the last node of the chain, and `tail`
points to its predecessor. -/
theorem queue_shape_after_each_operation {T : Type} [Inhabited T] (k fuel : Nat)
    (ops : List (QueueOp T)) :
    ∃ outs q chain, runFresh k (fuel + 1) ops = some (outs, q) ∧
      q.chain = some chain ∧ q.head = chain.head? ∧ q.tail = chain.getLast? ∧
      q.contents = some (fifoModel ops []) ∧
      chain.length = (fifoModel ops []).length + 1 ∧
      ∀ v, ∃ qmid,
        enqueueLoop (freshAddr q.nodes) (fuel + 1)
          { q with nodes := pushNew q.nodes { value := v, next := none } } =
            some (qmid, q.tail) ∧
        qmid.head = q.head ∧ qmid.chain = some (chain ++ [freshAddr q.nodes]) ∧
        qmid.tail = chain.getLast? ∧
        qmid.contents = some (fifoModel ops [] ++ [v]) := by
  obtain ⟨q0, hnew, hinv0, hab0⟩ := new_inv_distinct T
  obtain ⟨outs, q, s, sv, elems, hrun, hinv, _, hmodel⟩ :=
    runOps_model k fuel ops hinv0 hab0
  simp only [List.map_nil] at hmodel
  have hchain := chain_of_linked hinv.head_eq hinv.chain hinv.nodup
  have hlast := getLast_chain s elems
  refine ⟨outs, q, s :: elems.map Prod.fst, ?_, hchain, ?_, ?_, ?_, ?_, ?_⟩
  · unfold runFresh
    simp only [hnew, hrun]
  · rw [hinv.head_eq]
    rfl
  · rw [hinv.tail_eq, hlast]
  · rw [contents_of_inv hinv, hmodel]
  · rw [← hmodel]
    simp
  · intro v
    obtain ⟨a, b, ha, hb, hpool⟩ := hinv.hazards
    obtain ⟨tv, htl⟩ := linked_last s sv elems hinv.chain
    have htlt := load_lt htl
    have hlt : ∀ x ∈ s :: elems.map Prod.fst, x < q.nodes.length := by
      intro x hx
      obtain ⟨n, hn⟩ := linked_live hinv.chain x (by simpa using hx)
      exact load_lt hn
    obtain ⟨m1, hp1, hloop⟩ := enqueueLoop_link (freshAddr q.nodes) fuel
      { q with nodes := pushNew q.nodes { value := v, next := none } }
      (lastAddr s elems) a { value := tv, next := none }
      hinv.tail_eq (by simp only; rw [load_pushNew_old _ htlt]; exact htl) rfl ha hpool.1
    simp only at hp1 hloop
    have hlinked := linked_snoc v tv s sv elems hinv.chain hinv.nodup htl
    have hfresh : freshAddr q.nodes ∉ s :: elems.map Prod.fst := by
      intro hmem
      have := hlt _ hmem
      unfold freshAddr at this
      omega
    have hnd2 : (s :: (elems ++ [(freshAddr q.nodes, v)]).map Prod.fst).Nodup := by
      have hperm : (s :: (elems ++ [(freshAddr q.nodes, v)]).map Prod.fst).Perm
          (freshAddr q.nodes :: s :: elems.map Prod.fst) := by
        simp only [List.map_append, List.map_cons, List.map_nil]
        rw [← List.cons_append]
        exact List.perm_append_singleton _ _
      exact (List.Perm.nodup_iff hperm).mpr (List.nodup_cons.mpr ⟨hfresh, hinv.nodup⟩)
    have hc := chain_of_linked
      (q := { q with mempool := m1, nodes := (store
        (pushNew q.nodes { value := v, next := none }) (lastAddr s elems)
        { value := tv, next := some (freshAddr q.nodes) }) })
      hinv.head_eq hlinked hnd2
    have hv := contents_of_linked
      (q := { q with mempool := m1, nodes := (store
        (pushNew q.nodes { value := v, next := none }) (lastAddr s elems)
        { value := tv, next := some (freshAddr q.nodes) }) })
      hinv.head_eq hlinked hnd2
    refine ⟨{ q with mempool := m1, nodes := (store
        (pushNew q.nodes { value := v, next := none }) (lastAddr s elems)
        { value := tv, next := some (freshAddr q.nodes) }) }, ?_, rfl, ?_, ?_, ?_⟩
    · rw [hloop, hinv.tail_eq]
    · rw [hc]
      simp
    · show q.tail = _
      rw [hinv.tail_eq, hlast]
    · rw [hv, ← hmodel]
      simp

/-- The bound on the retire list for a state whose slot list `L` is well formed and
publishes at most `length()` payloads. -/
theorem retire_bounded_of_count {T : Type} (RLIST_SCALE_FACTOR node : Nat) (q : Queue T)
    (L : List Nat) (hL : q.mempool.slotList = some L) (hk : 1 ≤ RLIST_SCALE_FACTOR)
    (hfit : RLIST_SCALE_FACTOR * q.mempool.length < SIZE_T_MOD)
    (hcount : (publishedPayloads q.mempool.slots L).length ≤ q.mempool.length)
    (hnd : (q.rlist ++ [node]).Nodup)
    (hlive : ∀ r ∈ q.rlist ++ [node], ∃ n, load q.nodes r = some n) :
    ∃ q1, q.retire RLIST_SCALE_FACTOR node = some q1 ∧ q1.mempool = q.mempool ∧
      q1.rlist.length ≤ RLIST_SCALE_FACTOR * q1.mempool.length ∧
      ((q1.rlist = q.rlist ++ [node] ∧ q1.nodes = q.nodes ∧
          q1.rlist.length < RLIST_SCALE_FACTOR * q.mempool.length) ∨
       (RLIST_SCALE_FACTOR * q.mempool.length ≤ (q.rlist ++ [node]).length ∧
          (∀ r ∈ q1.rlist, r ∈ publishedPayloads q.mempool.slots L) ∧
          q1.rlist.length ≤ q.mempool.length)) := by
  have hmax : ({ q with rlist := q.rlist ++ [node] } : Queue T).MAX_RLIST_SIZE
      RLIST_SCALE_FACTOR = RLIST_SCALE_FACTOR * q.mempool.length := by
    unfold Queue.MAX_RLIST_SIZE
    exact Nat.mod_eq_of_lt hfit
  by_cases hlt : (q.rlist ++ [node]).length < RLIST_SCALE_FACTOR * q.mempool.length
  · refine ⟨{ q with rlist := q.rlist ++ [node] }, ?_, rfl, Nat.le_of_lt hlt,
      Or.inl ⟨rfl, rfl, hlt⟩⟩
    unfold Queue.retire
    simp only [hmax]
    rw [if_neg (by omega)]
  · obtain ⟨H, rl, nodes1, hH, hscan, hperm, _, _⟩ :=
      scan_spec { q with rlist := q.rlist ++ [node] } hL hnd hlive
    simp only at hscan hperm hH
    have hsub : ∀ r ∈ rl, r ∈ publishedPayloads q.mempool.slots L := by
      intro r hr
      have h1 := (List.mem_filter.mp (hperm.subset hr)).2
      have h2 : r ∈ H := by simpa using h1
      exact mem_publishedPayloads.mpr ((hH r).mp h2)
    have hrlnd : rl.Nodup := (List.Perm.nodup_iff hperm).mpr (hnd.filter _)
    have hlen : rl.length ≤ q.mempool.length :=
      Nat.le_trans (List.subperm_of_subset hrlnd hsub).length_le hcount
    have hmul : q.mempool.length ≤ RLIST_SCALE_FACTOR * q.mempool.length :=
      Nat.le_mul_of_pos_left _ hk
    refine ⟨{ q with rlist := rl, nodes := nodes1 }, ?_, rfl, Nat.le_trans hlen hmul,
      Or.inr ⟨by omega, hsub, hlen⟩⟩
    unfold Queue.retire
    simp only [hmax]
    rw [if_pos (by omega)]
    exact hscan

theorem filterMap_length_lt {α β : Type} (f : α → Option β) :
    ∀ (l : List α) (x : α), x ∈ l → f x = none → (l.filterMap f).length < l.length := by
  intro l
  induction l with
  | nil =>
    intro x hx
    cases hx
  | cons a tl ih =>
    intro x hx hf
    have hle : (tl.filterMap f).length ≤ tl.length := List.length_filterMap_le f tl
    rcases List.mem_cons.mp hx with hxa | hxt
    · subst hxa
      rw [List.filterMap_cons_none hf]
      simp only [List.length_cons]
      omega
    · have := ih x hxt hf
      cases hfa : f a with
      | none =>
        rw [List.filterMap_cons_none hfa]
        simp only [List.length_cons]
        omega
      | some b =>
        rw [List.filterMap_cons_some hfa]
        simp only [List.length_cons]
        omega

theorem hazardInv_new : HazardInv HzdMemPool.new [] [0] :=
  ⟨by decide, by decide, by decide, by decide, ⟨Hzd.new, by decide, rfl, rfl⟩, by decide⟩

theorem hazardInv_store {m : HzdMemPool} {owned : List Nat} {L : List Nat}
    (h : HazardInv m owned L) {a : Nat} {hz : Hzd} (hl : load m.slots a = some hz)
    (hz2 : Hzd) (hn : hz2.next_ = hz.next_) (ha : a ≠ 0) (owned1 : List Nat) (ho : 0 ∉ owned1) :
    HazardInv { m with slots := store m.slots a hz2 } owned1 L := by
  obtain ⟨hL, hlen, hpos, h0, ⟨hz0, hl0, hp0, ha0⟩, _⟩ := h
  refine ⟨slotList_store hL hl hn, hlen, hpos, h0, ⟨hz0, ?_, hp0, ha0⟩, ho⟩
  simp only
  rw [load_store_ne _ _ ha]
  exact hl0

theorem hazardInv_run (ops : List HazardOp) :
    ∀ {m m1 : HzdMemPool} {owned owned1 : List Nat} {L : List Nat}, HazardInv m owned L →
      runHazard ops (m, owned) = some (m1, owned1) → ∃ L1, HazardInv m1 owned1 L1 := by
  induction ops with
  | nil =>
    intro m m1 owned owned1 L h hrun
    simp only [runHazard, Option.some.injEq, Prod.mk.injEq] at hrun
    obtain ⟨hm, ho⟩ := hrun
    subst hm ho
    exact ⟨L, h⟩
  | cons op ops ih =>
    intro m m1 owned owned1 L h hrun
    have hfull := h
    obtain ⟨hL, hlen, hpos, h0, ⟨hz0, hl0, hp0, ha0⟩, hown⟩ := h
    cases op with
    | alloc =>
      rcases alloc_cases hL with ⟨a, hz, hf, hla, hfalse, hal⟩ | ⟨_, hal⟩
      · simp only [runHazard, hal] at hrun
        have hne : a ≠ 0 := by
          intro ha
          subst ha
          rw [hl0] at hla
          cases hla
          rw [ha0] at hfalse
          cases hfalse
        refine ih (L := L) ?_ hrun
        exact hazardInv_store hfull hla { hz with active_ := true } rfl hne (a :: owned)
          (by simp only [List.mem_cons, not_or]; exact ⟨fun e => hne e.symm, hown⟩)
      · simp only [runHazard, hal] at hrun
        have hlt0 : 0 < m.slots.length := load_lt hl0
        have hfresh : freshAddr m.slots ≠ 0 := by
          unfold freshAddr
          omega
        refine ih (L := freshAddr m.slots :: L) ?_ hrun
        refine ⟨slotList_grown hL, ?_, by simp, List.mem_cons_of_mem _ h0,
          ⟨hz0, ?_, hp0, ha0⟩, ?_⟩
        · show (m.len_ + 1) % SIZE_T_MOD = _
          rw [hlen]
          simp only [List.length_cons, Nat.add_sub_cancel]
          rw [Nat.add_mod, Nat.mod_mod, ← Nat.add_mod]
          congr 1
          omega
        · rw [load_grown_old hlt0]
          exact hl0
        · simp only [List.mem_cons, not_or]
          exact ⟨fun e => hfresh e.symm, hown⟩
    | free p =>
      simp only [runHazard] at hrun
      split at hrun
      · rename_i hp
        have hne : p ≠ 0 := fun e => hown (e ▸ hp)
        cases hld : load m.slots p with
        | none =>
          simp [HzdMemPool.free, hld] at hrun
        | some hz =>
          rw [free_eq hld] at hrun
          simp only at hrun
          refine ih (L := L) ?_ hrun
          exact hazardInv_store hfull hld { hz with ptr_ := none, active_ := false } rfl hne
            (owned.erase p)
            (fun hmem => hown (List.mem_of_mem_erase hmem))
      · simp at hrun
    | publish p v =>
      simp only [runHazard] at hrun
      split at hrun
      · rename_i hp
        have hne : p ≠ 0 := fun e => hown (e ▸ hp)
        cases hld : load m.slots p with
        | none =>
          simp [publish, hld] at hrun
        | some hz =>
          rw [publish_eq v hld] at hrun
          simp only at hrun
          refine ih (L := L) ?_ hrun
          exact hazardInv_store hfull hld { hz with ptr_ := v } rfl hne owned hown
      · simp at hrun

theorem hazardInv_count {m : HzdMemPool} {owned L : List Nat} (h : HazardInv m owned L)
    (hslots : m.slots.length ≤ SIZE_T_MOD) :
    (publishedPayloads m.slots L).length ≤ m.length := by
  obtain ⟨hL, hlen, hpos, h0, ⟨hz0, hl0, hp0, _⟩, _⟩ := h
  have hnd : L.Nodup := by
    unfold HzdMemPool.slotList at hL
    cases hh : m.head_ with
    | none => simp [hh] at hL
    | some p0 =>
      simp only [hh] at hL
      exact slotsFrom_nodup _ _ _ hL
  have hlt : ∀ x ∈ L, x < m.slots.length := by
    intro x hx
    obtain ⟨hz, hl⟩ := slotList_live hL x hx
    exact load_lt hl
  have hLlen : L.length ≤ m.slots.length := length_le_of_nodup_lt hnd hlt
  have hcnt : (publishedPayloads m.slots L).length < L.length := by
    unfold publishedPayloads
    apply filterMap_length_lt _ L 0 h0
    rw [hl0]
    exact hp0
  unfold HzdMemPool.length
  rw [hlen, Nat.mod_eq_of_lt (by omega)]
  omega

/-- C28: `retire(node)` in a state whose hazard slots were reached from the constructor of
the pool by calls of `alloc`, `free` and payload assignments of any threads, with a slot
storage that fits the address space, for a scale factor of at least 1 (the claim asks for
2) whose product with `length()` fits a `size_t`, the retire list with `node` having
pairwise distinct live entries.  At most `length()` payloads are published; the call
returns and the new retire list has at most `RLIST_SCALE_FACTOR * length()` entries:
either it is the old list with `node` and is shorter than the threshold, or the scan ran
and every entry left is a published payload, so that at most `length()` entries are left. -/
theorem retire_list_bounded {T : Type} (RLIST_SCALE_FACTOR node : Nat) (q : Queue T)
    (ops : List HazardOp) (owned : List Nat)
    (hreach : runHazard ops (HzdMemPool.new, []) = some (q.mempool, owned))
    (hslots : q.mempool.slots.length ≤ SIZE_T_MOD) (hk : 1 ≤ RLIST_SCALE_FACTOR)
    (hfit : RLIST_SCALE_FACTOR * q.mempool.length < SIZE_T_MOD)
    (hnd : (q.rlist ++ [node]).Nodup)
    (hlive : ∀ r ∈ q.rlist ++ [node], ∃ n, load q.nodes r = some n) :
    ∃ q1 L, q.mempool.slotList = some L ∧
      (publishedPayloads q.mempool.slots L).length ≤ q.mempool.length ∧
      q.retire RLIST_SCALE_FACTOR node = some q1 ∧ q1.mempool = q.mempool ∧
      q1.rlist.length ≤ RLIST_SCALE_FACTOR * q1.mempool.length ∧
      ((q1.rlist = q.rlist ++ [node] ∧ q1.nodes = q.nodes ∧
          q1.rlist.length < RLIST_SCALE_FACTOR * q.mempool.length) ∨
       (RLIST_SCALE_FACTOR * q.mempool.length ≤ (q.rlist ++ [node]).length ∧
          (∀ r ∈ q1.rlist, r ∈ publishedPayloads q.mempool.slots L) ∧
          q1.rlist.length ≤ q.mempool.length)) := by
  obtain ⟨L, hinv⟩ := hazardInv_run ops hazardInv_new hreach
  have hcount := hazardInv_count hinv hslots
  obtain ⟨q1, hret, hm, hle, hor⟩ :=
    retire_bounded_of_count RLIST_SCALE_FACTOR node q L hinv.1 hk hfit hcount hnd hlive
  exact ⟨q1, L, hinv.1, hcount, hret, hm, hle, hor⟩

/-- Instance of C28: two threads' slots publish the nodes 1 and 3; with scale factor 2,
retiring a fourth node reaches the threshold 4, and the scan leaves the two published
nodes. -/
theorem retire_list_bounded_witness :
    runHazard [HazardOp.alloc, HazardOp.alloc, HazardOp.publish 1 (some 1),
        HazardOp.publish 2 (some 3)] (HzdMemPool.new, []) =
      some (retiringQueue.mempool, [2, 1]) ∧
    (retiringQueue.retire 2 3).map (fun r => r.rlist) = some [3, 1] ∧
    ∃ q1 L, retiringQueue.mempool.slotList = some L ∧
      (publishedPayloads retiringQueue.mempool.slots L).length ≤
        retiringQueue.mempool.length ∧
      retiringQueue.retire 2 3 = some q1 ∧ q1.mempool = retiringQueue.mempool ∧
      q1.rlist.length ≤ 2 * q1.mempool.length := by
  refine ⟨by decide, by decide, ?_⟩
  obtain ⟨q1, L, hL, hcount, hret, hm, hle, _⟩ :=
    retire_list_bounded 2 3 retiringQueue
      [HazardOp.alloc, HazardOp.alloc, HazardOp.publish 1 (some 1),
        HazardOp.publish 2 (some 3)] [2, 1] (by decide) (by decide) (by decide) (by decide)
      (by decide)
      (by
        intro r hr
        simp only [retiringQueue, List.mem_cons, List.mem_singleton, List.not_mem_nil,
          or_false, List.cons_append, List.nil_append] at hr
        rcases hr with rfl | rfl | rfl | rfl <;> exact ⟨_, rfl⟩)
  exact ⟨q1, L, hL, hcount, hret, hm, hle⟩

/-- C30: in a state `q` reached by a run of one thread on a new queue, a successful
`dequeue` leaves the slot of `hptr_a` publishing the old sentinel `front`; `front` is in
the retire list and was not deleted, whether or not the `retire` inside the call ran a
scan.  And in any later state whose slot list still has the slot of `hptr_a` publishing
`front`, a scan keeps `front` in the retire list and does not delete it. -/
theorem retired_sentinel_protected_by_hptr_a {T : Type} [Inhabited T] (k fuel fuel2 : Nat)
    (ops : List (QueueOp T)) (outs : List (Option T)) (q : Queue T)
    (hrun : runFresh k (fuel + 1) ops = some (outs, q)) (v : T) (q1 : Queue T)
    (hd : q.dequeue k (fuel2 + 1) = some (some v, q1)) :
    ∃ front a hz, q.head = some front ∧ q1.hptr_a = some a ∧
      load q1.mempool.slots a = some hz ∧ hz.ptr_ = some front ∧
      front ∈ q1.rlist ∧ (∃ n, load q1.nodes front = some n) ∧
      ∀ (q2 : Queue T) (L2 : List Nat), q2.mempool.slotList = some L2 → a ∈ L2 →
        (∃ hz2, load q2.mempool.slots a = some hz2 ∧ hz2.ptr_ = some front) →
        q2.rlist.Nodup → (∀ r ∈ q2.rlist, ∃ n, load q2.nodes r = some n) →
        front ∈ q2.rlist →
        ∃ rl nodes3, Queue.scan q2.mempool.head q2 =
            some { q2 with rlist := rl, nodes := nodes3 } ∧
          front ∈ rl ∧ load nodes3 front = load q2.nodes front := by
  obtain ⟨q0, hnew, hinv0, hab0⟩ := new_inv_distinct T
  obtain ⟨outs1, qx, s, sv, elems, hrunx, hinv, hab, _⟩ :=
    runOps_model k fuel ops hinv0 hab0
  have hq : qx = q := by
    unfold runFresh at hrun
    simp only [hnew, hrunx, Option.some.injEq, Prod.mk.injEq] at hrun
    exact hrun.2
  subst hq
  cases elems with
  | nil =>
    obtain ⟨q1x, hdx, _⟩ := dequeue_nil_inv k fuel2 hinv
    rw [hd] at hdx
    simp at hdx
  | cons e rest =>
    obtain ⟨q1x, a, hz, hdx, _, _, ha, hl, hptr, hin, hsame⟩ :=
      dequeue_cons_detail k fuel2 hinv hab
    rw [hd] at hdx
    simp only [Option.some.injEq, Prod.mk.injEq] at hdx
    obtain ⟨_, hq1⟩ := hdx
    subst hq1
    refine ⟨s, a, hz, hinv.head_eq, ha, hl, hptr, hin, ?_, ?_⟩
    · rw [hsame]
      exact ⟨_, hinv.chain.1⟩
    · intro q2 L2 hL2 haL2 hpub hnd2 hlive2 hin2
      obtain ⟨hz2, hl2, hp2⟩ := hpub
      obtain ⟨H, rl, nodes3, hH, hscan, hperm, _, hload⟩ := scan_spec q2 hL2 hnd2 hlive2
      have hfH : s ∈ H := (hH s).mpr ⟨a, haL2, hz2, hl2, hp2⟩
      refine ⟨rl, nodes3, hscan, ?_, ?_⟩
      · exact hperm.mem_iff.mpr (List.mem_filter.mpr ⟨hin2, by simpa using hfH⟩)
      · rw [hload s]
        simp [hfH]

/-- Instance of C30: `enqueue(7)` on a new queue, then `dequeue`: the old sentinel at
address 0 is retired, slot 1 (`hptr_a`) publishes it, and it is still live, also for the
scale factor 0, with which the `retire` inside the call runs a scan. -/
theorem retired_sentinel_protected_by_hptr_a_witness :
    runFresh 2 1 [QueueOp.enqueue 7] = some ([], oneQueued) ∧
    oneQueued.dequeue 2 1 = some (some 7, drainedQueue) ∧
    oneQueued.dequeue 0 1 = some (some 7, drainedQueue) ∧
    ∃ front a hz, oneQueued.head = some front ∧ drainedQueue.hptr_a = some a ∧
      load drainedQueue.mempool.slots a = some hz ∧ hz.ptr_ = some front ∧
      front ∈ drainedQueue.rlist ∧ (∃ n, load drainedQueue.nodes front = some n) ∧
      ∀ (q2 : Queue Nat) (L2 : List Nat), q2.mempool.slotList = some L2 → a ∈ L2 →
        (∃ hz2, load q2.mempool.slots a = some hz2 ∧ hz2.ptr_ = some front) →
        q2.rlist.Nodup → (∀ r ∈ q2.rlist, ∃ n, load q2.nodes r = some n) →
        front ∈ q2.rlist →
        ∃ rl nodes3, Queue.scan q2.mempool.head q2 =
            some { q2 with rlist := rl, nodes := nodes3 } ∧
          front ∈ rl ∧ load nodes3 front = load q2.nodes front :=
  ⟨by decide, by decide, by decide,
    retired_sentinel_protected_by_hptr_a 2 0 0 [QueueOp.enqueue 7] [] oneQueued (by decide) 7
      drainedQueue (by decide)⟩

end Lockfree

namespace Proletariat
open Lockfree Memory

/-! ## Calls on the pool -/

theorem newQueue_inv (W : Type) [Inhabited W] : QInv (newQueue W) 0 default [] := by
  refine ⟨rfl, ⟨rfl, trivial⟩, rfl, by simp, rfl, List.nodup_nil, ?_, ?_, ⟨1, 2, rfl, rfl, ?_⟩⟩
  · intro r hr
    cases hr
  · intro r hr
    cases hr
  · exact ⟨⟨_, rfl⟩, ⟨_, rfl⟩, [2, 1, 0], rfl, by simp, by simp⟩

theorem submit_frame {W : Type} {fuel : Nat} {item : W} {p p1 : Pool W} {r : Bool}
    (h : p.submit fuel item = some (r, p1)) :
    p1.size = p.size ∧ p1.started_ = p.started_ ∧ p1.stopped_ = p.stopped_ ∧
      p1.pool_ = p.pool_ ∧ r = p.started_ ∧ (p.started_ = false → p1 = p) := by
  unfold Pool.submit at h
  cases hs : p.started_
  · simp only [hs, Bool.not_false, if_true, Option.some.injEq, Prod.mk.injEq] at h
    obtain ⟨hr, hp⟩ := h
    subst hr hp
    simp [hs]
  · simp only [hs, Bool.not_true, Bool.false_eq_true, if_false] at h
    cases he : p.q.enqueue fuel item with
    | none => simp [he] at h
    | some q1 =>
      simp only [he, Option.some.injEq, Prod.mk.injEq] at h
      obtain ⟨hr, hp⟩ := h
      subst hr hp
      simp [hs]

/-! ## Steps of the system -/

theorem workerStep_spec {W : Type} {k fuel : Nat} {p : Pool W} {w w1 : Worker W}
    {q1 : Queue W} {ran : Option W} (h : p.workerStep k fuel w = some (q1, w1, ran)) :
    w.pc ≠ WorkerPc.done ∧
      (p.stopped_ = true → w.pc.atRest = true → w1.pc.atRest = true ∧ ran = none) := by
  unfold Pool.workerStep at h
  split at h
  · rename_i hpc
    simp only [Option.some.injEq, Prod.mk.injEq] at h
    obtain ⟨_, hw, hr⟩ := h
    subst hw hr
    refine ⟨by rw [hpc]; simp, ?_⟩
    intro hs _
    simp [hs, WorkerPc.atRest]
  · rename_i hpc
    refine ⟨by rw [hpc]; simp, ?_⟩
    intro _ hr
    rw [hpc] at hr
    simp [WorkerPc.atRest] at hr
  · rename_i hpc
    refine ⟨by rw [hpc]; simp, ?_⟩
    intro _ hr
    rw [hpc] at hr
    simp [WorkerPc.atRest] at hr
  · rename_i t hpc
    refine ⟨by rw [hpc]; simp, ?_⟩
    intro _ hr
    rw [hpc] at hr
    simp [WorkerPc.atRest] at hr
  · rename_i t hpc
    refine ⟨by rw [hpc]; simp, ?_⟩
    intro _ hr
    rw [hpc] at hr
    simp [WorkerPc.atRest] at hr
  · rename_i hpc
    refine ⟨by rw [hpc]; simp, ?_⟩
    intro _ _
    split at h
    · simp at h
    · rename_i q2 w2 hex
      simp only [Option.some.injEq, Prod.mk.injEq] at h
      obtain ⟨_, hw, hr⟩ := h
      subst hw hr
      refine ⟨?_, rfl⟩
      unfold Worker.finish at hex
      split at hex
      · simp at hex
      · split at hex
        · simp at hex
        · split at hex
          · simp at hex
          · split at hex
            · simp at hex
            · split at hex
              · simp at hex
              · split at hex
                · simp at hex
                · simp only [Option.some.injEq, Prod.mk.injEq] at hex
                  rw [← hex.2]
                  rfl
  · simp at h

theorem step_monotone {W : Type} {k fuel : Nat} {s s1 : Sys W} {a : Action W}
    (h : step k fuel s a = some s1) :
    (s.pool.stopped_ = true → s1.pool.stopped_ = true) ∧
      (s.stopReturned = true → s1.stopReturned = true) ∧
      (s.startCalled = true → s1.startCalled = true) := by
  cases a with
  | callStart =>
    simp only [step] at h
    split at h
    · cases h
      exact ⟨id, id, fun _ => rfl⟩
    · simp at h
  | startStep =>
    simp only [step] at h
    split at h
    · split at h
      · cases h
        exact ⟨id, id, id⟩
      · cases h
        exact ⟨id, id, id⟩
    · simp at h
  | submit item =>
    simp only [step] at h
    split at h
    · split at h
      · simp at h
      · rename_i r p1 hsub
        cases h
        obtain ⟨_, _, h3, _⟩ := submit_frame hsub
        exact ⟨fun hs => by simp only [h3, hs], id, id⟩
    · simp at h
  | callStop wait =>
    simp only [step] at h
    split at h
    · cases h
      exact ⟨id, id, id⟩
    · simp at h
  | stopStep =>
    simp only [step] at h
    split at h
    · cases h
      exact ⟨id, id, id⟩
    · cases h
      exact ⟨fun _ => rfl, id, id⟩
    · split at h
      · cases h
        exact ⟨id, fun _ => rfl, id⟩
      · split at h
        · simp at h
        · split at h
          · cases h
            exact ⟨id, id, id⟩
          · simp at h
    · simp at h
  | worker i =>
    simp only [step] at h
    split at h
    · simp at h
    · split at h
      · simp at h
      · cases h
        exact ⟨id, id, id⟩

theorem run_monotone {W : Type} {k fuel : Nat} (acts : List (Action W)) :
    ∀ {s s1 : Sys W}, run k fuel acts s = some s1 →
      (s.pool.stopped_ = true → s1.pool.stopped_ = true) ∧
      (s.stopReturned = true → s1.stopReturned = true) ∧
      (s.startCalled = true → s1.startCalled = true) := by
  induction acts with
  | nil =>
    intro s s1 h
    simp only [run, Option.some.injEq] at h
    subst h
    exact ⟨id, id, id⟩
  | cons a rest ih =>
    intro s s1 h
    simp only [run] at h
    cases hst : step k fuel s a with
    | none => simp [hst] at h
    | some s2 =>
      simp only [hst] at h
      obtain ⟨h1, h2, h3⟩ := step_monotone hst
      obtain ⟨i1, i2, i3⟩ := ih h
      exact ⟨fun x => i1 (h1 x), fun x => i2 (h2 x), fun x => i3 (h3 x)⟩

theorem isDone_eq {W : Type} {pc : WorkerPc W} (h : pc.isDone = true) : pc = WorkerPc.done := by
  cases pc <;> simp [WorkerPc.isDone] at h ⊢

theorem step_inv {W : Type} {k fuel : Nat} {s s1 : Sys W} {a : Action W}
    (hinv : SysInv s) (h : step k fuel s a = some s1) : SysInv s1 := by
  obtain ⟨i1, i2, i3, i4⟩ := hinv
  cases a with
  | callStart =>
    simp only [step] at h
    split at h
    · cases h
      refine ⟨?_, ?_, ?_, i4⟩
      · intro hsc
        simp at hsc
      · intro i _
        rfl
      · intro j hj
        simp at hj
    · simp at h
  | startStep =>
    simp only [step] at h
    split at h
    · rename_i i hc
      split at h
      · cases h
        refine ⟨?_, ?_, ?_, ?_⟩
        · intro hsc
          have := i2 i hc
          rw [this] at hsc
          simp at hsc
        · intro _ _
          exact i2 i hc
        · intro j hj
          simp at hj
        · intro hr
          obtain ⟨hs, hall⟩ := i4 hr
          refine ⟨hs, ?_⟩
          intro w hw
          rcases List.mem_append.mp hw with hw | hw
          · exact hall w hw
          · simp only [List.mem_singleton] at hw
            subst hw
            rfl
      · cases h
        refine ⟨i1, ?_, ?_, i4⟩
        · intro j hj
          simp at hj
        · intro j hj
          simp at hj
    · simp at h
  | submit item =>
    simp only [step] at h
    split at h
    · rename_i hc
      split at h
      · simp at h
      · rename_i r p1 hsub
        cases h
        obtain ⟨_, _, h3, h4, _, _⟩ := submit_frame hsub
        refine ⟨?_, ?_, ?_, ?_⟩
        · intro hsc
          simp only [h4]
          exact i1 hsc
        · intro i hi
          exact i2 i hi
        · intro j hj
          simp only [hc] at hj
          simp at hj
        · intro hr
          simp only [h3, h4]
          exact i4 hr
    · simp at h
  | callStop wait =>
    simp only [step] at h
    split at h
    · cases h
      refine ⟨i1, ?_, ?_, i4⟩
      · intro i hi
        cases wait <;> simp at hi
      · intro j hj
        cases wait <;> simp at hj
    · simp at h
  | stopStep =>
    simp only [step] at h
    split at h
    · cases h
      refine ⟨i1, ?_, ?_, i4⟩
      · intro i hi
        by_cases he : s.pool.q.empty = true <;> simp [he] at hi
      · intro j hj
        by_cases he : s.pool.q.empty = true <;> simp [he] at hj
    · cases h
      refine ⟨i1, ?_, ?_, ?_⟩
      · intro i hi
        simp at hi
      · intro j hj
        refine ⟨rfl, ?_⟩
        intro i hi
        simp only [Caller.joining.injEq] at hj
        omega
      · intro hr
        exact ⟨rfl, (i4 hr).2⟩
    · rename_i j hc
      obtain ⟨hs, hdone⟩ := i3 j hc
      split at h
      · rename_i hnone
        cases h
        refine ⟨i1, ?_, ?_, ?_⟩
        · intro i hi
          simp at hi
        · intro j hj
          simp at hj
        · intro _
          refine ⟨hs, ?_⟩
          intro w hw
          have hw0 : w ∈ s.pool.pool_ := hw
          obtain ⟨n, hn⟩ := List.getElem?_of_mem hw0
          have hlen : s.pool.pool_.length ≤ j := List.getElem?_eq_none_iff.mp hnone
          have hnlt : n < s.pool.pool_.length := by
            by_contra hge
            rw [List.getElem?_eq_none_iff.mpr (by omega)] at hn
            simp at hn
          obtain ⟨w2, hw2, hpc⟩ := hdone n (by omega)
          rw [hn] at hw2
          cases hw2
          rw [hpc]
          rfl
      · rename_i w hsome
        split at h
        · simp at h
        · split at h
          · rename_i hd
            cases h
            have hjlt : j < s.pool.pool_.length := by
              by_contra hge
              rw [List.getElem?_eq_none_iff.mpr (by omega)] at hsome
              simp at hsome
            refine ⟨?_, ?_, ?_, ?_⟩
            · intro hsc
              have := (i1 hsc).2
              rw [this] at hsome
              simp at hsome
            · intro i hi
              simp at hi
            · intro j2 hj2
              simp only [Caller.joining.injEq] at hj2
              refine ⟨hs, ?_⟩
              intro i hi
              by_cases hij : i = j
              · subst hij
                refine ⟨{ w with joined := true }, ?_, isDone_eq hd⟩
                simp only
                rw [List.getElem?_set_self hjlt]
              · obtain ⟨w2, hw2, hpc⟩ := hdone i (by omega)
                refine ⟨w2, ?_, hpc⟩
                simp only
                rw [List.getElem?_set_ne (fun heq => hij heq.symm)]
                exact hw2
            · intro hr
              obtain ⟨_, hall⟩ := i4 hr
              refine ⟨hs, ?_⟩
              intro w2 hw2
              rcases List.mem_or_eq_of_mem_set hw2 with hm | hm
              · exact hall w2 hm
              · subst hm
                exact hall w (List.getElem?_mem hsome)
          · simp at h
    · simp at h
  | worker i =>
    simp only [step] at h
    split at h
    · simp at h
    · rename_i w hsome
      split at h
      · simp at h
      · rename_i q1 w1 ran hws
        cases h
        obtain ⟨hnd, hrest⟩ := workerStep_spec hws
        refine ⟨?_, i2, ?_, ?_⟩
        · intro hsc
          have := (i1 hsc).2
          rw [this] at hsome
          simp at hsome
        · intro j hj
          obtain ⟨hs, hdone⟩ := i3 j hj
          refine ⟨hs, ?_⟩
          intro n hn
          obtain ⟨w2, hw2, hpc⟩ := hdone n hn
          have hne : i ≠ n := by
            intro heq
            subst heq
            rw [hsome] at hw2
            cases hw2
            exact hnd hpc
          refine ⟨w2, ?_, hpc⟩
          simp only
          rw [List.getElem?_set_ne hne]
          exact hw2
        · intro hr
          obtain ⟨hs, hall⟩ := i4 hr
          refine ⟨hs, ?_⟩
          intro w2 hw2
          rcases List.mem_or_eq_of_mem_set hw2 with hm | hm
          · exact hall w2 hm
          · subst hm
            exact (hrest hs (hall w (List.getElem?_mem hsome))).1

theorem new_sys_inv {W : Type} [Inhabited W] {num_threads : Int} {s0 : Sys W}
    (h : Sys.new W num_threads = some s0) : SysInv s0 := by
  unfold Sys.new at h
  split at h
  · simp at h
  · rename_i p hp
    unfold Pool.new at hp
    split at hp
    · simp at hp
    · cases hp
      cases h
      refine ⟨fun _ => ⟨rfl, rfl⟩, ?_, ?_, ?_⟩
      · intro i hi
        simp at hi
      · intro j hj
        simp at hj
      · intro hr
        simp at hr

theorem run_inv {W : Type} {k fuel : Nat} (acts : List (Action W)) :
    ∀ {s s1 : Sys W}, SysInv s → run k fuel acts s = some s1 → SysInv s1 := by
  induction acts with
  | nil =>
    intro s s1 hinv h
    simp only [run, Option.some.injEq] at h
    subst h
    exact hinv
  | cons a rest ih =>
    intro s s1 hinv h
    simp only [run] at h
    cases hst : step k fuel s a with
    | none => simp [hst] at h
    | some s2 =>
      simp only [hst] at h
      exact ih (step_inv hinv hst) h

theorem step_after_return {W : Type} {k fuel : Nat} {s s1 : Sys W} {a : Action W}
    (hinv : SysInv s) (hr : s.stopReturned = true) (h : step k fuel s a = some s1) :
    s1.invoked = s.invoked := by
  obtain ⟨hs, hall⟩ := hinv.2.2.2 hr
  cases a with
  | callStart =>
    simp only [step] at h
    split at h
    · cases h
      rfl
    · simp at h
  | startStep =>
    simp only [step] at h
    split at h
    · split at h
      · cases h
        rfl
      · cases h
        rfl
    · simp at h
  | submit item =>
    simp only [step] at h
    split at h
    · split at h
      · simp at h
      · cases h
        rfl
    · simp at h
  | callStop wait =>
    simp only [step] at h
    split at h
    · cases h
      rfl
    · simp at h
  | stopStep =>
    simp only [step] at h
    split at h
    · cases h
      rfl
    · cases h
      rfl
    · split at h
      · cases h
        rfl
      · split at h
        · simp at h
        · split at h
          · cases h
            rfl
          · simp at h
    · simp at h
  | worker i =>
    simp only [step] at h
    split at h
    · simp at h
    · rename_i w hsome
      split at h
      · simp at h
      · rename_i q1 w1 ran hws
        cases h
        have hran := ((workerStep_spec hws).2 hs (hall w (List.getElem?_mem hsome))).2
        subst hran
        simp

theorem run_after_return {W : Type} {k fuel : Nat} (acts : List (Action W)) :
    ∀ {s s1 : Sys W}, SysInv s → s.stopReturned = true → run k fuel acts s = some s1 →
      s1.invoked = s.invoked := by
  induction acts with
  | nil =>
    intro s s1 _ _ h
    simp only [run, Option.some.injEq] at h
    subst h
    rfl
  | cons a rest ih =>
    intro s s1 hinv hr h
    simp only [run] at h
    cases hst : step k fuel s a with
    | none => simp [hst] at h
    | some s2 =>
      simp only [hst] at h
      rw [ih (step_inv hinv hst) ((step_monotone hst).2.1 hr) h]
      exact step_after_return hinv hr hst

/-! # Verified claims on the worker pool -/

/-- C22: `submit` on a pool that was not started returns false and leaves the pool as it
was: nothing is enqueued, `started_` and `stopped_` keep their values.  On a pool with
`started_` true, a call that returns returns true and changes neither flag, and the call
returns whenever the queue is in a state reached between complete operations. -/
theorem submit_fails_unless_started {W : Type} (fuel : Nat) (item : W) (p : Pool W) :
    (p.started_ = false → p.submit fuel item = some (false, p)) ∧
    (p.started_ = true →
      (∀ r p1, p.submit fuel item = some (r, p1) →
        r = true ∧ p1.started_ = true ∧ p1.stopped_ = p.stopped_) ∧
      ∀ s sv elems, QInv p.q s sv elems →
        ∃ p1, p.submit (fuel + 1) item = some (true, p1)) := by
  refine ⟨?_, ?_⟩
  · intro hs
    unfold Pool.submit
    simp [hs]
  · intro hs
    refine ⟨?_, ?_⟩
    · intro r p1 h
      obtain ⟨_, h1, h2, _, h3, _⟩ := submit_frame h
      exact ⟨by rw [h3, hs], by rw [h1, hs], h2⟩
    · intro s sv elems hinv
      obtain ⟨q1, he, _⟩ := enqueue_inv fuel item hinv
      refine ⟨{ p with q := q1 }, ?_⟩
      unfold Pool.submit
      simp [hs, he]

/-- Instance of C22: on the new pool `submit(7)` returns false and the pool is unchanged;
after `start()` it returns true. -/
theorem submit_fails_unless_started_witness :
    Pool.new Nat 1 = some (unstartedPool Nat) ∧
    (unstartedPool Nat).submit 1 7 = some (false, unstartedPool Nat) ∧
    ∃ p1, (startedPool Nat).submit 1 7 = some (true, p1) :=
  ⟨by decide, (submit_fails_unless_started 1 7 (unstartedPool Nat)).1 rfl,
    ((submit_fails_unless_started 0 7 (startedPool Nat)).2 rfl).2 0 default []
      (newQueue_inv Nat)⟩

/-- C23: on a started pool whose queue holds the work items `elems`, `submit(f, args...)`
returns true and the queue then holds `elems` followed by one new work item, the flags and
the workers unchanged.  Invoking that work item on a program state yields the state left by
one call of `f(args...)`, the result of `f` dropped; when `f` counts its calls, the count
goes up by exactly one. -/
theorem submit_appends_one_work_item {A S R : Type} (fuel : Nat) (f : A → S → R × S)
    (args : A) (p : Pool (S → S)) (s : Nat) (sv : S → S) (elems : List (Nat × (S → S)))
    (hstarted : p.started_ = true) (hinv : QInv p.q s sv elems) :
    ∃ p1, p.submit (fuel + 1) (workItem f args) = some (true, p1) ∧
      p.q.contents = some (elems.map Prod.snd) ∧
      p1.q.contents = some (elems.map Prod.snd ++ [workItem f args]) ∧
      p1.q.size = (p.q.size + 1) % SIZE_T_MOD ∧
      p1.started_ = p.started_ ∧ p1.stopped_ = p.stopped_ ∧ p1.pool_ = p.pool_ ∧
      (∀ st, workItem f args st = (f args st).2) ∧
      (∀ st n, workItem (counted f) args (st, n) = ((f args st).2, n + 1)) := by
  obtain ⟨q1, he, hinv1, _⟩ := enqueue_inv fuel (workItem f args) hinv
  refine ⟨{ p with q := q1 }, ?_, contents_of_inv hinv, ?_, ?_, rfl, rfl, rfl, ?_, ?_⟩
  · unfold Pool.submit
    simp [hstarted, he]
  · rw [contents_of_inv hinv1]
    simp
  · show q1.size = _
    unfold Queue.size
    rw [hinv1.size_eq, hinv.size_eq]
    simp [Nat.add_mod]
  · intro st
    rfl
  · intro st n
    rfl

/-- Instance of C23: `submit(addTask, 5)` on a started pool with an empty queue. -/
theorem submit_appends_one_work_item_witness :
    ∃ p1, (startedPool (Nat → Nat)).submit 1 (workItem addTask 5) = some (true, p1) ∧
      (startedPool (Nat → Nat)).q.contents = some [] ∧
      p1.q.contents = some [workItem addTask 5] ∧
      workItem addTask 5 10 = 15 ∧
      workItem (counted addTask) 5 (10, 0) = (15, 1) := by
  obtain ⟨p1, h1, h2, h3, _, _, _, _, _, _⟩ :=
    submit_appends_one_work_item 0 addTask 5 (startedPool (Nat → Nat)) 0 default []
      rfl (newQueue_inv (Nat → Nat))
  exact ⟨p1, h1, h2, h3, rfl, rfl⟩

/-- C24: a run of a pool with one worker in which `submit` of the work item 7 returned true
before `stop(true)` was called, and `stop` returns with the work item never invoked: the
worker had taken it from the queue when `stop` found the queue empty, and tested `stopped_`
only after `stop` had set it.  With the worker testing `stopped_` before the call of `stop`
the same calls invoke the work item once. -/
theorem stop_drops_dequeued_task :
    ((Sys.new Nat 1).bind (run 2 2 (lostTaskSchedule.take 6))).map
        (fun s => (s.pool.started_, s.submitted, s.invoked)) = some (true, [7], []) ∧
    ((Sys.new Nat 1).bind (run 2 2 (lostTaskSchedule.take 6))).map
        (fun s => (s.pool.stopped_, s.pool.q.empty, s.pool.pool_.map (fun w => w.pc))) =
      some (false, true, [WorkerPc.check (some 7)]) ∧
    ((Sys.new Nat 1).bind (run 2 2 lostTaskSchedule)).map
        (fun s => (s.stopReturned, s.submitted, s.invoked)) = some (true, [7], []) ∧
    ((Sys.new Nat 1).bind (run 2 2 lostTaskSchedule)).map
        (fun s => (s.pool.stopped_, s.pool.q.contents, s.pool.pool_.map (fun w => w.pc))) =
      some (true, some [], [WorkerPc.done]) ∧
    ((Sys.new Nat 1).bind (run 2 2 ranTaskSchedule)).map
        (fun s => (s.stopReturned, s.submitted, s.invoked)) = some (true, [7], [7]) := by
  refine ⟨?_, ?_, ?_, ?_, ?_⟩
  · decide
  · decide
  · decide
  · decide
  · decide

/-- C25: in every state reached from a new pool by steps of its owner and its workers:
while `start()` has not been called no work item was invoked, there is no worker, and no
worker step can be taken; `stopped_`, once true, is true in every later state; the step
with which a call of `stop` returns leads to a state in which `stopped_` is true and every
worker has ended; and once a call of `stop` has returned, no worker holds a work item and
every later state has the same list of invoked work items. -/
theorem no_task_before_start_or_after_stop {W : Type} [Inhabited W] (num_threads : Int)
    (k fuel : Nat) (acts : List (Action W)) (s0 s : Sys W)
    (h0 : Sys.new W num_threads = some s0) (hrun : run k fuel acts s0 = some s) :
    (s.startCalled = false →
      s.invoked = [] ∧ s.pool.pool_ = [] ∧ ∀ i, step k fuel s (Action.worker i) = none) ∧
    (s.pool.stopped_ = true →
      ∀ acts2 s2, run k fuel acts2 s = some s2 → s2.pool.stopped_ = true) ∧
    (∀ s1, step k fuel s Action.stopStep = some s1 → s1.caller = Caller.idle →
      s1.stopReturned = true ∧ s1.pool.stopped_ = true ∧
        ∀ w ∈ s1.pool.pool_, w.pc = WorkerPc.done) ∧
    (s.stopReturned = true →
      s.pool.stopped_ = true ∧ (∀ w ∈ s.pool.pool_, w.pc.atRest = true) ∧
      ∀ acts2 s2, run k fuel acts2 s = some s2 →
        s2.invoked = s.invoked ∧ s2.stopReturned = true ∧ s2.pool.stopped_ = true ∧
          ∀ w ∈ s2.pool.pool_, w.pc.atRest = true) := by
  have hinv : SysInv s := run_inv acts (new_sys_inv h0) hrun
  refine ⟨?_, ?_, ?_, ?_⟩
  · intro hsc
    obtain ⟨h1, h2⟩ := hinv.1 hsc
    refine ⟨h1, h2, ?_⟩
    intro i
    simp [step, h2]
  · intro hs acts2 s2 h2
    exact (run_monotone acts2 h2).1 hs
  · intro s1 hst hidle
    simp only [step] at hst
    split at hst
    · cases hst
      by_cases he : s.pool.q.empty = true <;> simp [he] at hidle
    · cases hst
      simp at hidle
    · rename_i j hc
      obtain ⟨hs, hdone⟩ := hinv.2.2.1 j hc
      split at hst
      · rename_i hnone
        cases hst
        refine ⟨rfl, hs, ?_⟩
        intro w hw
        have hw0 : w ∈ s.pool.pool_ := hw
        obtain ⟨n, hn⟩ := List.getElem?_of_mem hw0
        have hlen : s.pool.pool_.length ≤ j := List.getElem?_eq_none_iff.mp hnone
        have hnlt : n < s.pool.pool_.length := by
          by_contra hge
          rw [List.getElem?_eq_none_iff.mpr (by omega)] at hn
          simp at hn
        obtain ⟨w2, hw2, hpc⟩ := hdone n (by omega)
        rw [hn] at hw2
        cases hw2
        exact hpc
      · split at hst
        · simp at hst
        · split at hst
          · cases hst
            simp at hidle
          · simp at hst
    · simp at hst
  · intro hr
    obtain ⟨hs, hall⟩ := hinv.2.2.2 hr
    refine ⟨hs, hall, ?_⟩
    intro acts2 s2 h2
    have hr2 := (run_monotone acts2 h2).2.1 hr
    have hinv2 := run_inv acts2 hinv h2
    obtain ⟨hs2, hall2⟩ := hinv2.2.2.2 hr2
    exact ⟨run_after_return acts2 hinv hr h2, hr2, hs2, hall2⟩

/-- Instance of C25: the run of `lostTaskSchedule` on a new pool of one worker ends in
`stoppedSys`, where `stop` has returned; no later run invokes a work item. -/
theorem no_task_before_start_or_after_stop_witness :
    Sys.new Nat 1 = some freshSys ∧ run 2 2 lostTaskSchedule freshSys = some stoppedSys ∧
    stoppedSys.stopReturned = true ∧ stoppedSys.pool.stopped_ = true ∧
    (∀ w ∈ stoppedSys.pool.pool_, w.pc.atRest = true) ∧
    ∀ acts2 s2, run 2 2 acts2 stoppedSys = some s2 →
      s2.invoked = stoppedSys.invoked ∧ s2.stopReturned = true ∧ s2.pool.stopped_ = true ∧
        ∀ w ∈ s2.pool.pool_, w.pc.atRest = true :=
  ⟨by decide, by decide, by decide,
    (no_task_before_start_or_after_stop 1 2 2 lostTaskSchedule freshSys stoppedSys
      (by decide) (by decide)).2.2.2 (by decide)⟩

end Proletariat
end Cutter
